import Mathlib

/-!
# Red-black tree insertion over a pointer heap

A shallow embedding of `src/main.go` (the package of `src/redblack.go` is the same
design with lower-case names).  Go nodes live in memory and are linked by pointers
in both directions, and the rotations overwrite node records in place, so the
embedding keeps an explicit memory: a list of node records, addressed by index.
A pointer is `none` (Go's `nil`) or `some a`.  Every Go statement that reads or
writes through a pointer becomes a load or a store on that memory; a load through
`nil` is a fault, as it is a run-time panic in Go.  Recursive methods take a fuel
argument, and running out of fuel is a fault of its own, distinct from the panics.

The element type is a linear order: the specification asks for a totally ordered
element type.  `Height` and `Size` return a Go `int`; they count nodes that are in
memory, far fewer than `2 ^ 63`, so the results are natural numbers here.  The
renderings `String` and `Json` take the rendering of a value, `fmt.Sprintf("%v", v)`
in Go, as a parameter.
-/

namespace RedBlack

/-- Node colour: `Black Color = 0`, `Red Color = 1`. -/
inductive Color where
  | Black
  | Red
  deriving DecidableEq, Repr

/-- Shape of node, parent and grandparent: `Triangle = 0`, `Line = 1`. -/
inductive Relationship where
  | Triangle
  | Line
  deriving DecidableEq, Repr

/-- A Go pointer to a node: `none` is `nil`, `some a` is the node stored at index `a`. -/
abbrev Ptr := Option Nat

/-- The Go struct `Node[V]`: value, colour, parent, left and right pointers. -/
structure Node (V : Type) where
  val : V
  color : Color
  p : Ptr
  left : Ptr
  right : Ptr
  deriving DecidableEq, Repr

/-- The memory in which nodes are allocated; the address of a node is its index. -/
abbrev Heap (V : Type) := List (Node V)

/-- Ways in which a run can stop without a result. -/
inductive Fault where
  | nilDeref
  | rotatePanic
  | outOfFuel
  deriving DecidableEq, Repr

/-- The Go struct `Tree[V]` (a root pointer), together with the memory it points into. -/
structure Tree (V : Type) where
  mem : Heap V
  node : Ptr
  deriving DecidableEq, Repr

variable {V : Type}

/-- Reading `*n`: a fault when `n` is `nil`. -/
def load (h : Heap V) : Ptr → Except Fault (Node V)
  | none => .error .nilDeref
  | some a =>
    match h[a]? with
    | some nd => .ok nd
    | none => .error .nilDeref

/-- Writing `*n = nd`: a fault when `n` is `nil`. -/
def store (h : Heap V) : Ptr → Node V → Except Fault (Heap V)
  | none, _ => .error .nilDeref
  | some a, nd =>
    match h[a]? with
    | some _ => .ok (h.set a nd)
    | none => .error .nilDeref

/-- Allocation of a fresh node record: the new memory and the new address. -/
def alloc (h : Heap V) (nd : Node V) : Heap V × Ptr :=
  (h ++ [nd], some h.length)

/-- The assignment `n.color = c`. -/
def setColor (h : Heap V) (n : Ptr) (c : Color) : Except Fault (Heap V) := do
  let nd ← load h n
  store h n { nd with color := c }

/-- The assignment `n.p = q`. -/
def setP (h : Heap V) (n : Ptr) (q : Ptr) : Except Fault (Heap V) := do
  let nd ← load h n
  store h n { nd with p := q }

/-- The assignment `n.left = q`. -/
def setLeft (h : Heap V) (n : Ptr) (q : Ptr) : Except Fault (Heap V) := do
  let nd ← load h n
  store h n { nd with left := q }

/-- The assignment `n.right = q`. -/
def setRight (h : Heap V) (n : Ptr) (q : Ptr) : Except Fault (Heap V) := do
  let nd ← load h n
  store h n { nd with right := q }

/-- `MakeTree`: the empty tree, in an empty memory. -/
def MakeTree : Tree V := { mem := [], node := none }

/-- `Node.Recolor`: Black becomes Red, anything else becomes Black. -/
def Node.Recolor (h : Heap V) (n : Ptr) : Except Fault (Heap V) := do
  let nd ← load h n
  if nd.color = Color.Black then
    setColor h n Color.Red
  else
    setColor h n Color.Black

/-- `Node.Uncle`: the uncle pointer, the shape, and whether an uncle is present.
The zero value of `Relationship` returned with `false` is `Triangle`. -/
def Node.Uncle (h : Heap V) (n : Ptr) : Except Fault (Ptr × Relationship × Bool) := do
  let nd ← load h n
  let parent := nd.p
  if parent = none then
    pure (none, Relationship.Triangle, false)
  else do
    let pd ← load h parent
    let grandparent := pd.p
    if grandparent = none then
      pure (none, Relationship.Triangle, false)
    else do
      let gd ← load h grandparent
      let leftChild : Bool := decide (pd.left = n)
      let parentIsLeftChild : Bool := decide (gd.left = parent)
      let rel := if leftChild = parentIsLeftChild then Relationship.Line else Relationship.Triangle
      let uncle := if gd.left = parent then gd.right else gd.left
      pure (uncle, rel, decide (uncle ≠ none))

/-- The guarded assignment `if q != nil { q.p = r }`. -/
def setPIfPresent (h : Heap V) (q : Ptr) (r : Ptr) : Except Fault (Heap V) :=
  if q ≠ none then setP h q r else pure h

/-- `Node.LeftRotate`, statement by statement.  `newLeftChild` is a fresh record. -/
def Node.LeftRotate (h : Heap V) (n : Ptr) : Except Fault (Heap V) := do
  let nd ← load h n
  if nd.right = none then
    throw Fault.rotatePanic
  else do
    -- var newLeftChild Node[V] = *n
    let hm := alloc h nd
    let newLeftChild := hm.2
    -- *n = *n.right
    let rd ← load hm.1 nd.right
    let h ← store hm.1 n rd
    -- n.p = newLeftChild.p
    let ld ← load h newLeftChild
    let h ← setP h n ld.p
    -- newLeftChild.p = n
    let h ← setP h newLeftChild n
    let nd ← load h n
    let h ←
      (if nd.left = none then
        -- newLeftChild.right = nil
        setRight h newLeftChild none
      else do
        -- *newLeftChild.right = *n.left
        let ld ← load h newLeftChild
        let cd ← load h nd.left
        let h ← store h ld.right cd
        -- if newLeftChild.right.left != nil { newLeftChild.right.left.p = newLeftChild.right }
        let ld ← load h newLeftChild
        let xd ← load h ld.right
        let h ← setPIfPresent h xd.left ld.right
        -- if newLeftChild.right.right != nil { newLeftChild.right.right.p = newLeftChild.right }
        let ld ← load h newLeftChild
        let xd ← load h ld.right
        let h ← setPIfPresent h xd.right ld.right
        -- newLeftChild.right.p = &newLeftChild
        let ld ← load h newLeftChild
        setP h ld.right newLeftChild)
    -- n.left = &newLeftChild
    let h ← setLeft h n newLeftChild
    -- if n.right != nil { n.right.p = n }
    let nd ← load h n
    let h ← setPIfPresent h nd.right n
    -- if newLeftChild.left != nil { newLeftChild.left.p = &newLeftChild }
    let ld ← load h newLeftChild
    setPIfPresent h ld.left newLeftChild

/-- `Node.RightRotate`, statement by statement.  `newRightChild` is a fresh record. -/
def Node.RightRotate (h : Heap V) (n : Ptr) : Except Fault (Heap V) := do
  let nd ← load h n
  if nd.left = none then
    throw Fault.rotatePanic
  else do
    -- var newRightChild Node[V] = *n
    let hm := alloc h nd
    let newRightChild := hm.2
    -- *n = *n.left
    let cd ← load hm.1 nd.left
    let h ← store hm.1 n cd
    -- n.p = newRightChild.p
    let rd ← load h newRightChild
    let h ← setP h n rd.p
    -- newRightChild.p = n
    let h ← setP h newRightChild n
    let nd ← load h n
    let h ←
      (if nd.right = none then
        -- newRightChild.left = nil
        setLeft h newRightChild none
      else do
        -- *newRightChild.left = *n.right
        let rd ← load h newRightChild
        let cd ← load h nd.right
        let h ← store h rd.left cd
        -- if newRightChild.left.left != nil { newRightChild.left.left.p = newRightChild.left }
        let rd ← load h newRightChild
        let xd ← load h rd.left
        let h ← setPIfPresent h xd.left rd.left
        -- if newRightChild.left.right != nil { newRightChild.left.right.p = newRightChild.left }
        let rd ← load h newRightChild
        let xd ← load h rd.left
        let h ← setPIfPresent h xd.right rd.left
        -- newRightChild.left.p = &newRightChild
        let rd ← load h newRightChild
        setP h rd.left newRightChild)
    -- n.right = &newRightChild
    let h ← setRight h n newRightChild
    -- if n.left != nil { n.left.p = n }
    let nd ← load h n
    let h ← setPIfPresent h nd.left n
    -- if newRightChild.right != nil { newRightChild.right.p = &newRightChild }
    let rd ← load h newRightChild
    setPIfPresent h rd.right newRightChild

/-- `Node.FixViolations`.  Every `n.p`, `n.p.p` is read from memory where Go reads it. -/
def Node.FixViolations : Nat → Heap V → Ptr → Except Fault (Heap V)
  | 0, _, _ => .error .outOfFuel
  | fuel + 1, h, n => do
    -- if n.p == nil || n.p.p == nil || n.p.color != Red { return }
    let nd ← load h n
    if nd.p = none then
      pure h
    else do
      let pd ← load h nd.p
      if pd.p = none then
        pure h
      else if pd.color ≠ Color.Red then
        pure h
      else do
        let u ← Node.Uncle h n
        let uncle := u.1
        let rel := u.2.1
        let ok := u.2.2
        -- redUncle := ok && uncle.color == Red
        let redUncle ←
          (if ok then do
            let ud ← load h uncle
            pure (decide (ud.color = Color.Red))
          else pure false)
        if redUncle then do
          -- n.p.Recolor()
          let nd ← load h n
          let h ← Node.Recolor h nd.p
          -- n.p.p.Recolor()
          let nd ← load h n
          let pd ← load h nd.p
          let h ← Node.Recolor h pd.p
          -- uncle.color = Black
          let h ← setColor h uncle Color.Black
          -- n.p.p.FixViolations()
          let nd ← load h n
          let pd ← load h nd.p
          Node.FixViolations fuel h pd.p
        else do
          let hr ←
            (if rel = Relationship.Triangle then do
              -- rotateNode = n.p
              let nd ← load h n
              pure (h, nd.p)
            else do
              -- rotateNode = n.p.p
              let nd ← load h n
              let pd ← load h nd.p
              let rotateNode := pd.p
              -- n.p.Recolor()
              let nd ← load h n
              let h ← Node.Recolor h nd.p
              -- n.p.p.Recolor()
              let nd ← load h n
              let pd ← load h nd.p
              let h ← Node.Recolor h pd.p
              pure (h, rotateNode))
          let h := hr.1
          let rotateNode := hr.2
          let nd ← load h n
          let pd ← load h nd.p
          if pd.left = n then do
            let h ← Node.RightRotate h rotateNode
            let xd ← load h rotateNode
            Node.FixViolations fuel h xd.right
          else do
            let h ← Node.LeftRotate h rotateNode
            let xd ← load h rotateNode
            Node.FixViolations fuel h xd.left

variable [LinearOrder V]

/-- `Node.Insert`: descent by comparison; a new Red leaf is linked in and fixed up. -/
def Node.Insert (fix : Nat) : Nat → Heap V → Ptr → V → Except Fault (Heap V)
  | 0, _, _, _ => .error .outOfFuel
  | fuel + 1, h, n, v => do
    let nd ← load h n
    if v = nd.val then
      pure h
    else if v > nd.val then
      if nd.right = none then do
        -- n.right = &Node[V]{val: v, color: Red, p: n}
        let hm := alloc h { val := v, color := Color.Red, p := n, left := none, right := none }
        let h ← setRight hm.1 n hm.2
        -- n.right.FixViolations()
        let nd ← load h n
        Node.FixViolations fix h nd.right
      else
        Node.Insert fix fuel h nd.right v
    else
      if nd.left = none then do
        -- n.left = &Node[V]{val: v, color: Red, p: n}
        let hm := alloc h { val := v, color := Color.Red, p := n, left := none, right := none }
        let h ← setLeft hm.1 n hm.2
        -- n.left.FixViolations()
        let nd ← load h n
        Node.FixViolations fix h nd.left
      else
        Node.Insert fix fuel h nd.left v

/-- `Tree.Insert`: a Black root for the empty tree, else `Node.Insert`; then the
root is coloured Black. -/
def Tree.Insert (fuel : Nat) (t : Tree V) (v : V) : Except Fault (Tree V) := do
  let t : Tree V ←
    (if t.node = none then
      -- t.node = &Node[V]{val: v, color: Black}
      let hm := alloc t.mem { val := v, color := Color.Black, p := none, left := none, right := none }
      pure ({ mem := hm.1, node := hm.2 } : Tree V)
    else do
      let h ← Node.Insert fuel fuel t.mem t.node v
      pure ({ mem := h, node := t.node } : Tree V))
  -- t.node.color = Black
  let h ← setColor t.mem t.node Color.Black
  pure { mem := h, node := t.node }

/-- `Node.Contains`: descent by comparison; `false` at `nil`. -/
def Node.Contains : Nat → Heap V → Ptr → V → Except Fault Bool
  | 0, _, _, _ => .error .outOfFuel
  | fuel + 1, h, n, v => do
    if n = none then
      pure false
    else do
      let nd ← load h n
      if nd.val = v then
        pure true
      else if v > nd.val then
        Node.Contains fuel h nd.right v
      else
        Node.Contains fuel h nd.left v

/-- `Node.Height`: `depth` at `nil`, else the larger of the two children's results. -/
def Node.Height : Nat → Heap V → Ptr → Nat → Except Fault Nat
  | 0, _, _, _ => .error .outOfFuel
  | fuel + 1, h, n, depth => do
    if n = none then
      pure depth
    else do
      let nd ← load h n
      let l ← Node.Height fuel h nd.left (depth + 1)
      let r ← Node.Height fuel h nd.right (depth + 1)
      if l > r then
        pure l
      else
        pure r

/-- `Node.Size`: `0` at `nil`, else the children's sizes plus one. -/
def Node.Size : Nat → Heap V → Ptr → Except Fault Nat
  | 0, _, _ => .error .outOfFuel
  | fuel + 1, h, n => do
    if n = none then
      pure 0
    else do
      let nd ← load h n
      let l ← Node.Size fuel h nd.left
      let r ← Node.Size fuel h nd.right
      pure (l + r + 1)

/-- `Tree.Contains`. -/
def Tree.Contains (fuel : Nat) (t : Tree V) (v : V) : Except Fault Bool :=
  Node.Contains fuel t.mem t.node v

/-- `Tree.Height`. -/
def Tree.Height (fuel : Nat) (t : Tree V) : Except Fault Nat :=
  Node.Height fuel t.mem t.node 0

/-- `Tree.Size`. -/
def Tree.Size (fuel : Nat) (t : Tree V) : Except Fault Nat :=
  Node.Size fuel t.mem t.node

/-- A sequence of `Insert` calls, in order, starting from `t`. -/
def Tree.InsertAll (fuel : Nat) : Tree V → List V → Except Fault (Tree V)
  | t, [] => .ok t
  | t, v :: vs => do
    let t ← Tree.Insert fuel t v
    Tree.InsertAll fuel t vs

end RedBlack

/-! ## The renderings `String` and `Json` -/

namespace RedBlack

/-- Go's `string`. -/
abbrev Text := String

/-- `Color.String`: `"black"` for Black, `"red"` otherwise. -/
def Color.String (c : Color) : Text :=
  if c = Color.Black then "black" else "red"

variable {V : Type}

/-- `Node.String`.  `fmt` is the rendering of a value, `fmt.Sprintf("%v", v)` in Go's
`String[V]`. -/
def Node.String (fmt : V → Text) : Nat → Heap V → Ptr → Except Fault Text
  | 0, _, _ => .error .outOfFuel
  | fuel + 1, h, n => do
    if n = none then
      pure ""
    else do
      let nd ← load h n
      let acc := "L = \x7b"
      let l ← Node.String fmt fuel h nd.left
      let acc := acc ++ l
      let acc := acc ++ "\x7d "
      let acc := acc ++ fmt nd.val
      let acc := acc ++ " R = \x7b"
      let r ← Node.String fmt fuel h nd.right
      let acc := acc ++ r
      let acc := acc ++ "\x7d"
      pure acc

/-- `Node.Json`.  The parent is rendered by its value, or as `"nil"` when there is none. -/
def Node.Json (fmt : V → Text) : Nat → Heap V → Ptr → Except Fault Text
  | 0, _, _ => .error .outOfFuel
  | fuel + 1, h, n => do
    if n = none then
      pure "\x7b\x7d"
    else do
      let nd ← load h n
      let parent ←
        (if nd.p = none then
          pure "\"nil\""
        else do
          let pd ← load h nd.p
          pure (fmt pd.val))
      let acc := "\x7b"
      let acc := acc ++ ("\"value\": " ++ fmt nd.val ++ ",")
      let acc := acc ++ ("\"color\": \"" ++ nd.color.String ++ "\",")
      let acc := acc ++ ("\"parent\": " ++ parent ++ ",")
      let l ← Node.Json fmt fuel h nd.left
      let acc := acc ++ ("\"left\": " ++ l ++ ",")
      let r ← Node.Json fmt fuel h nd.right
      let acc := acc ++ ("\"right\": " ++ r)
      let acc := acc ++ "\x7d"
      pure acc

/-- `Tree.String`. -/
def Tree.String (fmt : V → Text) (fuel : Nat) (t : Tree V) : Except Fault Text :=
  if t.node = none then
    pure "EmptyTree"
  else
    Node.String fmt fuel t.mem t.node

/-- `Tree.Json`. -/
def Tree.Json (fmt : V → Text) (fuel : Nat) (t : Tree V) : Except Fault Text :=
  if t.node = none then
    pure "\x7b\x7d"
  else
    Node.Json fmt fuel t.mem t.node

end RedBlack

/-! ## The rotations once more, as runs that keep their memory

`Node.LeftRotate` and `Node.RightRotate` above give no memory when they stop on a
fault.  To say what a rotation leaves behind when it fails, the two methods are
embedded a second time, statement by statement, as runs that return the memory they
have reached together with the value or the fault. -/

namespace RedBlack

variable {V : Type}

/-- A run over memory that keeps the memory it has reached when it stops, be it with
a value or with a fault. -/
def Run (V : Type) (α : Type) : Type := Heap V → Heap V × Except Fault α

/-- A run that changes nothing and gives `a`. -/
def Run.unit {α : Type} (a : α) : Run V α := fun h => (h, .ok a)

/-- One run after another; a fault stops the run in the memory reached so far. -/
def Run.andThen {α β : Type} (x : Run V α) (f : α → Run V β) : Run V β :=
  fun h =>
    match x h with
    | (h1, .ok a) => f a h1
    | (h1, .error e) => (h1, .error e)

instance : Monad (Run V) where
  pure := Run.unit
  bind := Run.andThen

/-- A fault, in the memory reached so far. -/
def Run.fail {α : Type} (e : Fault) : Run V α := fun h => (h, .error e)

/-- Reading `*n`. -/
def Run.read (n : Ptr) : Run V (Node V) := fun h => (h, load h n)

/-- Writing `*n = nd`. -/
def Run.write (n : Ptr) (nd : Node V) : Run V Unit :=
  fun h =>
    match store h n nd with
    | .ok h1 => (h1, .ok ())
    | .error e => (h, .error e)

/-- Allocation of a fresh node record. -/
def Run.fresh (nd : Node V) : Run V Ptr := fun h => ((alloc h nd).1, .ok (alloc h nd).2)

/-- The assignment `n.p = q`. -/
def Run.assignP (n : Ptr) (q : Ptr) : Run V Unit := do
  let nd ← Run.read n
  Run.write n { nd with p := q }

/-- The assignment `n.left = q`. -/
def Run.assignLeft (n : Ptr) (q : Ptr) : Run V Unit := do
  let nd ← Run.read n
  Run.write n { nd with left := q }

/-- The assignment `n.right = q`. -/
def Run.assignRight (n : Ptr) (q : Ptr) : Run V Unit := do
  let nd ← Run.read n
  Run.write n { nd with right := q }

/-- The guarded assignment `if q != nil { q.p = r }`. -/
def Run.assignPIfPresent (q : Ptr) (r : Ptr) : Run V Unit :=
  if q ≠ none then Run.assignP q r else pure ()

/-- `Node.LeftRotate` as a run that keeps its memory, statement by statement. -/
def Node.LeftRotateRun (n : Ptr) : Run V Unit := do
  let nd ← Run.read n
  if nd.right = none then
    -- panic("Can't left-rotate if I don't have a right child")
    Run.fail Fault.rotatePanic
  else do
    -- var newLeftChild Node[V] = *n
    let newLeftChild ← Run.fresh nd
    -- *n = *n.right
    let rd ← Run.read nd.right
    Run.write n rd
    -- n.p = newLeftChild.p
    let ld ← Run.read newLeftChild
    Run.assignP n ld.p
    -- newLeftChild.p = n
    Run.assignP newLeftChild n
    let nd ← Run.read n
    (if nd.left = none then
      -- newLeftChild.right = nil
      Run.assignRight newLeftChild none
    else do
      -- *newLeftChild.right = *n.left
      let ld ← Run.read newLeftChild
      let cd ← Run.read nd.left
      Run.write ld.right cd
      -- if newLeftChild.right.left != nil { newLeftChild.right.left.p = newLeftChild.right }
      let ld ← Run.read newLeftChild
      let xd ← Run.read ld.right
      Run.assignPIfPresent xd.left ld.right
      -- if newLeftChild.right.right != nil { newLeftChild.right.right.p = newLeftChild.right }
      let ld ← Run.read newLeftChild
      let xd ← Run.read ld.right
      Run.assignPIfPresent xd.right ld.right
      -- newLeftChild.right.p = &newLeftChild
      let ld ← Run.read newLeftChild
      Run.assignP ld.right newLeftChild)
    -- n.left = &newLeftChild
    Run.assignLeft n newLeftChild
    -- if n.right != nil { n.right.p = n }
    let nd ← Run.read n
    Run.assignPIfPresent nd.right n
    -- if newLeftChild.left != nil { newLeftChild.left.p = &newLeftChild }
    let ld ← Run.read newLeftChild
    Run.assignPIfPresent ld.left newLeftChild

/-- `Node.RightRotate` as a run that keeps its memory, statement by statement. -/
def Node.RightRotateRun (n : Ptr) : Run V Unit := do
  let nd ← Run.read n
  if nd.left = none then
    -- panic("Can't right-rotate if I don't have a left child")
    Run.fail Fault.rotatePanic
  else do
    -- var newRightChild Node[V] = *n
    let newRightChild ← Run.fresh nd
    -- *n = *n.left
    let cd ← Run.read nd.left
    Run.write n cd
    -- n.p = newRightChild.p
    let rd ← Run.read newRightChild
    Run.assignP n rd.p
    -- newRightChild.p = n
    Run.assignP newRightChild n
    let nd ← Run.read n
    (if nd.right = none then
      -- newRightChild.left = nil
      Run.assignLeft newRightChild none
    else do
      -- *newRightChild.left = *n.right
      let rd ← Run.read newRightChild
      let cd ← Run.read nd.right
      Run.write rd.left cd
      -- if newRightChild.left.left != nil { newRightChild.left.left.p = newRightChild.left }
      let rd ← Run.read newRightChild
      let xd ← Run.read rd.left
      Run.assignPIfPresent xd.left rd.left
      -- if newRightChild.left.right != nil { newRightChild.left.right.p = newRightChild.left }
      let rd ← Run.read newRightChild
      let xd ← Run.read rd.left
      Run.assignPIfPresent xd.right rd.left
      -- newRightChild.left.p = &newRightChild
      let rd ← Run.read newRightChild
      Run.assignP rd.left newRightChild)
    -- n.right = &newRightChild
    Run.assignRight n newRightChild
    -- if n.left != nil { n.left.p = n }
    let nd ← Run.read n
    Run.assignPIfPresent nd.left n
    -- if newRightChild.right != nil { newRightChild.right.p = &newRightChild }
    let rd ← Run.read newRightChild
    Run.assignPIfPresent rd.right newRightChild

/-- What a run gives when the memory of a faulty run is forgotten. -/
def Run.result (x : Run V Unit) (h : Heap V) : Except Fault (Heap V) :=
  match x h with
  | (h1, .ok _) => .ok h1
  | (_, .error e) => .error e

end RedBlack

/-! ## The tree a memory holds -/

namespace RedBlack

variable {V : Type}

/-- A binary tree of coloured values in which every node also records the address
at which it is stored; used to say which tree a memory holds below a pointer. -/
inductive PTree (V : Type) where
  | nil
  | node (a : Nat) (c : Color) (l : PTree V) (v : V) (r : PTree V)
  deriving DecidableEq, Repr

namespace PTree

/-- The pointer to the root of the tree: `nil` for the empty tree. -/
def ptr : PTree V → Ptr
  | nil => none
  | node a _ _ _ _ => some a

/-- The addresses of all nodes. -/
def addrs : PTree V → List Nat
  | nil => []
  | node a _ l _ r => a :: (l.addrs ++ r.addrs)

/-- The same tree with its root record stored at address `b`. -/
def moveTo (b : Nat) : PTree V → PTree V
  | nil => nil
  | node _ c l v r => node b c l v r

/-- Colour of the root; an absent node counts as Black. -/
def rootColor : PTree V → Color
  | nil => Color.Black
  | node _ c _ _ _ => c

/-- The values in order: left subtree, value, right subtree. -/
def toList : PTree V → List V
  | nil => []
  | node _ _ l v r => l.toList ++ v :: r.toList

/-- Number of nodes. -/
def size : PTree V → Nat
  | nil => 0
  | node _ _ l _ r => l.size + r.size + 1

/-- Number of nodes on the longest path from the root down to a leaf. -/
def height : PTree V → Nat
  | nil => 0
  | node _ _ l _ r => max l.height r.height + 1

/-- Number of Black nodes on the leftmost path down to an absent child. -/
def blackCount : PTree V → Nat
  | nil => 0
  | node _ c l _ _ => l.blackCount + (if c = Color.Black then 1 else 0)

/-- At every node the black count of the left subtree equals that of the right one. -/
def Balanced : PTree V → Prop
  | nil => True
  | node _ _ l _ r => l.blackCount = r.blackCount ∧ l.Balanced ∧ r.Balanced

/-- No Red node has a Red left or right child. -/
def NoRedRed : PTree V → Prop
  | nil => True
  | node _ c l _ r =>
    (c = Color.Red → l.rootColor = Color.Black ∧ r.rootColor = Color.Black) ∧
    l.NoRedRed ∧ r.NoRedRed

/-- Binary-search order: at every node the values of the left subtree are smaller
and those of the right subtree are larger than the node's value. -/
def Ordered [LT V] : PTree V → Prop
  | nil => True
  | node _ _ l v r =>
    (∀ x ∈ l.toList, x < v) ∧ (∀ x ∈ r.toList, v < x) ∧ l.Ordered ∧ r.Ordered

/-- Result of `LeftRotate` on a stored tree; `m` is the address of the fresh record. -/
def rotL (m : Nat) : PTree V → PTree V
  | node n c A x (node ra d B y C) => node n d (node m c A x (B.moveTo ra)) y C
  | t => t

/-- Result of `RightRotate` on a stored tree; `m` is the address of the fresh record. -/
def rotR (m : Nat) : PTree V → PTree V
  | node n c (node la d A y B) x C => node n d A y (node m c (B.moveTo la) x C)
  | t => t

/-- The tree with its root coloured Black. -/
def blacken : PTree V → PTree V
  | nil => nil
  | node a _ l v r => node a Color.Black l v r

end PTree

/-- `Rep h par t`: below a node whose address is `par` (or below nothing, for the
root), memory `h` holds exactly the tree `t`: every node of `t` is stored at its
address with its value, its colour, its parent pointer and its child pointers. -/
def Rep (h : Heap V) : Ptr → PTree V → Prop
  | _, .nil => True
  | par, .node a c l v r =>
    h[a]? = some { val := v, color := c, p := par, left := l.ptr, right := r.ptr } ∧
    Rep h (some a) l ∧ Rep h (some a) r

/-- The tree `T` is the tree that `t` holds: the root pointer of `t` is the root of `T`,
and the memory stores `T` below it with no parent. -/
def Tree.Holds (t : Tree V) (T : PTree V) : Prop :=
  T.ptr = t.node ∧ Rep t.mem none T

/-- One step of the path from a node up to the root: the parent's address, colour
and value, whether the node is the parent's left child, and the parent's other subtree. -/
structure Frame (V : Type) where
  a : Nat
  c : Color
  v : V
  isLeft : Bool
  sib : PTree V
  deriving DecidableEq, Repr

/-- The parent with a subtree put back in the place of the child. -/
def Frame.fill (f : Frame V) (t : PTree V) : PTree V :=
  if f.isLeft then .node f.a f.c t f.v f.sib else .node f.a f.c f.sib f.v t

/-- The whole tree, from a subtree and the path from it up to the root. -/
def plug : List (Frame V) → PTree V → PTree V
  | [], t => t
  | f :: fs, t => plug fs (f.fill t)

/-- Address of the parent at the bottom of a path; `nil` for the empty path. -/
def ctxPtr : List (Frame V) → Ptr
  | [] => none
  | f :: _ => some f.a

/-- The addresses on a path and in the subtrees hanging off it. -/
def ctxAddrs : List (Frame V) → List Nat
  | [] => []
  | f :: fs => f.a :: (f.sib.addrs ++ ctxAddrs fs)

/-- Memory `h` holds the path `fs` above the node at `child`. -/
def RepCtx (h : Heap V) : List (Frame V) → Ptr → Prop
  | [], _ => True
  | f :: fs, child =>
    h[f.a]? = some { val := f.v, color := f.c, p := ctxPtr fs,
                     left := if f.isLeft then child else f.sib.ptr,
                     right := if f.isLeft then f.sib.ptr else child } ∧
    Rep h (some f.a) f.sib ∧ RepCtx h fs (some f.a)

/-- `Recolor` on a colour. -/
def Color.recolor : Color → Color
  | Color.Black => Color.Red
  | Color.Red => Color.Black

/-- The parent frame after a rotation at the parent away from the child's side: the
parent's record now holds the child's colour and value. -/
def Frame.rotUp (f : Frame V) : PTree V → Frame V
  | .nil => f
  | .node _ nc nl nv nr =>
    { a := f.a, c := nc, v := nv, isLeft := !f.isLeft, sib := if f.isLeft then nl else nr }

/-- The fresh record after that rotation, at address `m`: it holds the parent's former
colour and value. -/
def Frame.rotDown (m : Nat) (f : Frame V) : PTree V → PTree V
  | .nil => .nil
  | .node na _ nl _ nr =>
    if f.isLeft then .node m f.c (nr.moveTo na) f.v f.sib
    else .node m f.c f.sib f.v (nl.moveTo na)

/-- The Line step of the fixup for the subtree `t` below parent `f1` and grandparent
`f2`: both are recoloured and the grandparent is rotated away from the node's side. -/
def lineStep (m : Nat) (f1 f2 : Frame V) (t : PTree V) : PTree V :=
  let g := ({ f2 with c := f2.c.recolor } : Frame V).fill
    (({ f1 with c := f1.c.recolor } : Frame V).fill t)
  if f1.isLeft then g.rotR m else g.rotL m

/-- The fixup started at the root of subtree `t` below the path `ctx`, as a function
on trees; `m` is the first free address. -/
def fixF (m : Nat) : List (Frame V) → PTree V → PTree V
  | f1 :: f2 :: rest, t =>
    if f1.c ≠ Color.Red then plug (f1 :: f2 :: rest) t
    else if f2.sib.rootColor = Color.Red then
      -- Uncle Red
      fixF m rest (({ f2 with c := f2.c.recolor, sib := f2.sib.blacken } : Frame V).fill
        (({ f1 with c := f1.c.recolor } : Frame V).fill t))
    else if f1.isLeft = f2.isLeft then
      -- Uncle Black, Line
      plug rest (lineStep m f1 f2 t)
    else
      -- Uncle Black, Triangle: rotate the parent, then look again from the fresh record
      let f1' := f1.rotUp t
      let t' := f1.rotDown m t
      if f1'.c ≠ Color.Red then plug (f1' :: f2 :: rest) t'
      else plug rest (lineStep (m + 1) f1' f2 t')
  | ctx, t => plug ctx t

/-- `Node.Insert` as a function on trees: the subtree `t` below the path `ctx`; `m` is
the first free address. -/
def insF [LinearOrder V] (m : Nat) : List (Frame V) → PTree V → V → PTree V
  | ctx, .nil, _ => plug ctx .nil
  | ctx, .node a c l x r, v =>
    if v = x then plug ctx (.node a c l x r)
    else if v > x then
      match r with
      | .nil =>
        fixF (m + 1) ({ a := a, c := c, v := x, isLeft := false, sib := l } :: ctx)
          (.node m Color.Red .nil v .nil)
      | .node ra rc rl rx rr =>
        insF m ({ a := a, c := c, v := x, isLeft := false, sib := l } :: ctx)
          (.node ra rc rl rx rr) v
    else
      match l with
      | .nil =>
        fixF (m + 1) ({ a := a, c := c, v := x, isLeft := true, sib := r } :: ctx)
          (.node m Color.Red .nil v .nil)
      | .node la lc ll lx lr =>
        insF m ({ a := a, c := c, v := x, isLeft := true, sib := r } :: ctx)
          (.node la lc ll lx lr) v

/-- Insertion into a binary search tree without any rebalancing: the new value
becomes a Red leaf at address `m`; a value already present changes nothing. -/
def PTree.bstIns [LinearOrder V] (m : Nat) (v : V) : PTree V → PTree V
  | .nil => .node m Color.Red .nil v .nil
  | .node a c l x r =>
    if v = x then .node a c l x r
    else if v > x then .node a c l x (PTree.bstIns m v r)
    else .node a c (PTree.bstIns m v l) x r

/-- Colour of the parent at the bottom of a path; Black for the empty path. -/
def ctxColor : List (Frame V) → Color
  | [] => Color.Black
  | f :: _ => f.c

/-- The path is balanced around a hole whose black count is `k`. -/
def ctxBalanced : List (Frame V) → Nat → Prop
  | [], _ => True
  | f :: fs, k =>
    f.sib.blackCount = k ∧ f.sib.Balanced ∧
    ctxBalanced fs (k + (if f.c = Color.Black then 1 else 0))

/-- No Red node on the path has a Red parent or a Red other child (the hole aside). -/
def ctxNoRedRed : List (Frame V) → Prop
  | [] => True
  | f :: fs =>
    f.sib.NoRedRed ∧
    (f.c = Color.Red → f.sib.rootColor = Color.Black ∧ ctxColor fs = Color.Black) ∧
    ctxNoRedRed fs

/-- The top of a non-empty path, the root of the whole tree, is Black. -/
def ctxRootBlack : List (Frame V) → Prop
  | [] => True
  | [f] => f.c = Color.Black
  | _ :: f :: fs => ctxRootBlack (f :: fs)

/-- `BlackPath h n k`: some path in memory `h` from the node `n` down to an absent
child crosses exactly `k` Black nodes, the node `n` included. -/
inductive BlackPath (h : Heap V) : Ptr → Nat → Prop where
  | absent : BlackPath h none 0
  | left {a : Nat} {nd : Node V} {k : Nat} : h[a]? = some nd → BlackPath h nd.left k →
      BlackPath h (some a) (k + (if nd.color = Color.Black then 1 else 0))
  | right {a : Nat} {nd : Node V} {k : Nat} : h[a]? = some nd → BlackPath h nd.right k →
      BlackPath h (some a) (k + (if nd.color = Color.Black then 1 else 0))

/-- `Reach h root a`: the node at address `a` is reached from `root` by following
`left` and `right` pointers in memory `h`. -/
inductive Reach (h : Heap V) (root : Ptr) : Nat → Prop where
  | root {a : Nat} : root = some a → Reach h root a
  | left {a b : Nat} {nd : Node V} : Reach h root a → h[a]? = some nd → nd.left = some b →
      Reach h root b
  | right {a b : Nat} {nd : Node V} : Reach h root a → h[a]? = some nd → nd.right = some b →
      Reach h root b

/-- The trees that `Tree.Insert` keeps: Black root (or empty), no Red node with a Red
child, balanced black counts, search-tree order, and no address used twice. -/
def Good [LT V] (T : PTree V) : Prop :=
  T.addrs.Nodup ∧ T.rootColor = Color.Black ∧ T.NoRedRed ∧ T.Balanced ∧ T.Ordered

/-- `Tree.Insert` as a function on trees; `m` is the first free address. -/
def insertF [LinearOrder V] (m : Nat) (T : PTree V) (v : V) : PTree V :=
  match T with
  | .nil => .node m Color.Black .nil v .nil
  | .node a c l x r => (insF m [] (.node a c l x r) v).blacken

end RedBlack

namespace RedBlack

/-- A result other than the precondition failure of a rotation. -/
def Quiet {α : Type} (r : Except Fault α) : Prop := r ≠ .error Fault.rotatePanic

variable {V : Type}

/-- `LeafPath h n k`: in memory `h` some path from the node `n` down to a leaf (a node
without children) has `k` nodes, both ends counted. -/
inductive LeafPath (h : Heap V) : Ptr → Nat → Prop where
  | leaf {a : Nat} {nd : Node V} : h[a]? = some nd → nd.left = none → nd.right = none →
      LeafPath h (some a) 1
  | left {a : Nat} {nd : Node V} {k : Nat} : h[a]? = some nd → LeafPath h nd.left k →
      LeafPath h (some a) (k + 1)
  | right {a : Nat} {nd : Node V} {k : Nat} : h[a]? = some nd → LeafPath h nd.right k →
      LeafPath h (some a) (k + 1)

/-- The rendering `S` of the specification of `String`: the empty text for an absent
node, else `L = {S(left)} value R = {S(right)}`. -/
def PTree.S (fmt : V → Text) : PTree V → Text
  | .nil => ""
  | .node _ _ l v r =>
    "L = \x7b" ++ PTree.S fmt l ++ "\x7d " ++ fmt v ++ " R = \x7b" ++ PTree.S fmt r ++ "\x7d"

/-- The rendering of the specification of `Json`: `{}` for an absent node, else the
object with the keys `value`, `color`, `parent`, `left`, `right` in this order;
`parent` is the value of the parent, if there is one. -/
def PTree.J (fmt : V → Text) : Option V → PTree V → Text
  | _, .nil => "\x7b\x7d"
  | parent, .node _ c l v r =>
    "\x7b" ++ ("\"value\": " ++ fmt v ++ ",") ++
      ("\"color\": \"" ++ (if c = Color.Black then "black" else "red") ++ "\",") ++
      ("\"parent\": " ++ (match parent with
        | none => "\"nil\""
        | some pv => fmt pv) ++ ",") ++
      ("\"left\": " ++ PTree.J fmt (some v) l ++ ",") ++
      ("\"right\": " ++ PTree.J fmt (some v) r) ++ "\x7d"

/-- The memory after `Insert` of 2, 1, 4, 3 into the empty tree, as in
`TestUncleLeftTriangle`. -/
def mem2143 : Heap Nat :=
  [⟨2, Color.Black, none, some 1, some 2⟩, ⟨1, Color.Black, some 0, none, none⟩,
   ⟨4, Color.Black, some 0, some 3, none⟩, ⟨3, Color.Red, some 2, none, none⟩]

/-- The tree that `mem2143` holds at address `0`. -/
def tree2143 : PTree Nat :=
  .node 0 Color.Black (.node 1 Color.Black .nil 1 .nil) 2
    (.node 2 Color.Black (.node 3 Color.Red .nil 3 .nil) 4 .nil)

end RedBlack

namespace RedBlack

variable {V : Type}

/-- In-order traversal of the tree below `n` in memory: the values of the left subtree,
the value of the node, the values of the right subtree.  This is not a method of the
source; it reads off what a tree holds. -/
def inOrder : Nat → Heap V → Ptr → Except Fault (List V)
  | 0, _, _ => .error .outOfFuel
  | fuel + 1, h, n =>
    if n = none then
      pure []
    else do
      let nd ← load h n
      let l ← inOrder fuel h nd.left
      let r ← inOrder fuel h nd.right
      pure (l ++ nd.val :: r)

/-- A node record with its left and right child pointers exchanged; value, colour and
parent pointer are kept. -/
def Node.mirror (nd : Node V) : Node V :=
  { nd with left := nd.right, right := nd.left }

/-- The mirror image of a memory: left and right are exchanged at every node. -/
def mirror (h : Heap V) : Heap V := h.map Node.mirror

/-- Whether the pointer `q` is `nil` or the address of a record of `h`. -/
def inMem (h : Heap V) : Ptr → Bool
  | none => true
  | some a => decide (a < h.length)

/-- The memory after the guarded assignment `if q != nil { q.p = r }`, when it does not
fault. -/
def updP (h : Heap V) (q : Ptr) (r : Ptr) : Heap V :=
  match q with
  | none => h
  | some a =>
    match h[a]? with
    | some nd => h.set a { nd with p := r }
    | none => h

/-- Example memory: the Black root `5` at address `0`, its Red left child `1` at address
`1`, and the Red right child `3` of that child at address `2` (a Triangle). -/
def mem513 : Heap Nat :=
  [⟨5, Color.Black, none, some 1, none⟩, ⟨1, Color.Red, some 0, none, some 2⟩,
   ⟨3, Color.Red, some 1, none, none⟩]

end RedBlack

namespace RedBlack

variable {V : Type}

/-! ## Memory: loads, stores, allocation -/

@[simp]
theorem bind_ok {α β : Type} (a : α) (f : α → Except Fault β) :
    (Except.ok a >>= f) = f a := rfl

@[simp]
theorem bind_error {α β : Type} (e : Fault) (f : α → Except Fault β) :
    ((Except.error e : Except Fault α) >>= f) = Except.error e := rfl

@[simp]
theorem pure_eq_ok {α : Type} (a : α) : (pure a : Except Fault α) = Except.ok a := rfl

theorem lt_of_get {h : Heap V} {a : Nat} {nd : Node V} (hg : h[a]? = some nd) :
    a < h.length := by
  by_contra hc
  rw [List.getElem?_eq_none (Nat.le_of_not_lt hc)] at hg
  cases hg

theorem load_some {h : Heap V} {a : Nat} {nd : Node V} (hg : h[a]? = some nd) :
    load h (some a) = .ok nd := by
  simp [load, hg]

theorem store_some {h : Heap V} {a : Nat} {nd : Node V} (x : Node V) (hg : h[a]? = some nd) :
    store h (some a) x = .ok (h.set a x) := by
  simp [store, hg]

theorem get_set {h : Heap V} {a : Nat} {nd : Node V} (x : Node V) (b : Nat)
    (hg : h[a]? = some nd) :
    (h.set a x)[b]? = if b = a then some x else h[b]? := by
  rw [List.getElem?_set]
  by_cases hab : a = b
  · subst hab; simp [lt_of_get hg]
  · simp [hab, Ne.symm hab]

theorem get_alloc (h : Heap V) (x : Node V) (b : Nat) :
    (h ++ [x])[b]? = if b = h.length then some x else h[b]? := by
  by_cases hb : b = h.length
  · subst hb; simp
  · rw [if_neg hb]
    rcases Nat.lt_or_gt_of_ne hb with hlt | hgt
    · exact List.getElem?_append_left hlt
    · rw [List.getElem?_eq_none, List.getElem?_eq_none]
      · exact Nat.le_of_lt hgt
      · simp; omega

theorem setP_some {h : Heap V} {a : Nat} {nd : Node V} (q : Ptr) (hg : h[a]? = some nd) :
    setP h (some a) q = .ok (h.set a { nd with p := q }) := by
  simp [setP, load_some hg, store_some _ hg]

theorem setColor_some {h : Heap V} {a : Nat} {nd : Node V} (c : Color) (hg : h[a]? = some nd) :
    setColor h (some a) c = .ok (h.set a { nd with color := c }) := by
  simp [setColor, load_some hg, store_some _ hg]

theorem setLeft_some {h : Heap V} {a : Nat} {nd : Node V} (q : Ptr) (hg : h[a]? = some nd) :
    setLeft h (some a) q = .ok (h.set a { nd with left := q }) := by
  simp [setLeft, load_some hg, store_some _ hg]

theorem setRight_some {h : Heap V} {a : Nat} {nd : Node V} (q : Ptr) (hg : h[a]? = some nd) :
    setRight h (some a) q = .ok (h.set a { nd with right := q }) := by
  simp [setRight, load_some hg, store_some _ hg]

/-! ## Frame lemmas for `Rep` -/

theorem Rep.lt {h : Heap V} : ∀ {t : PTree V} {par : Ptr}, Rep h par t →
    ∀ a ∈ t.addrs, a < h.length
  | .nil, _, _, a, ha => by simp [PTree.addrs] at ha
  | .node b c l v r, par, hr, a, ha => by
    simp only [Rep] at hr
    simp only [PTree.addrs, List.mem_cons, List.mem_append] at ha
    rcases ha with rfl | ha | ha
    · exact lt_of_get hr.1
    · exact Rep.lt hr.2.1 a ha
    · exact Rep.lt hr.2.2 a ha

theorem Rep.congr {h h' : Heap V} : ∀ {t : PTree V} {par : Ptr}, Rep h par t →
    (∀ a ∈ t.addrs, h'[a]? = h[a]?) → Rep h' par t
  | .nil, _, _, _ => trivial
  | .node b c l v r, par, hr, hf => by
    simp only [Rep] at hr ⊢
    simp only [PTree.addrs, List.mem_cons, List.mem_append] at hf
    refine ⟨?_, Rep.congr hr.2.1 ?_, Rep.congr hr.2.2 ?_⟩
    · rw [hf b (Or.inl rfl)]; exact hr.1
    · intro a ha; exact hf a (Or.inr (Or.inl ha))
    · intro a ha; exact hf a (Or.inr (Or.inr ha))

theorem Rep.set {h : Heap V} {t : PTree V} {par : Ptr} (hr : Rep h par t) (a : Nat)
    (x : Node V) (ha : a ∉ t.addrs) : Rep (h.set a x) par t := by
  refine hr.congr ?_
  intro b hb
  rw [List.getElem?_set_ne]
  rintro rfl; exact ha hb

theorem Rep.append {h : Heap V} {t : PTree V} {par : Ptr} (hr : Rep h par t)
    (l : List (Node V)) : Rep (h ++ l) par t := by
  refine hr.congr ?_
  intro b hb
  exact List.getElem?_append_left (hr.lt b hb)

/-- Changing only the parent pointer of the root record moves the tree below
another parent. -/
theorem Rep.reparent {h : Heap V} {a : Nat} {c : Color} {l r : PTree V} {v : V} {par : Ptr}
    (hr : Rep h par (.node a c l v r)) (q : Ptr) (hnd : (PTree.node a c l v r).addrs.Nodup) :
    Rep (h.set a { val := v, color := c, p := q, left := l.ptr, right := r.ptr }) q
      (.node a c l v r) := by
  simp only [Rep] at hr ⊢
  simp only [PTree.addrs, List.nodup_cons, List.mem_append, not_or] at hnd
  refine ⟨?_, hr.2.1.set _ _ hnd.1.1, hr.2.2.set _ _ hnd.1.2⟩
  rw [get_set _ _ hr.1]; simp

end RedBlack

namespace RedBlack

variable {V : Type}

@[simp]
theorem PTree.ptr_node (a : Nat) (c : Color) (l : PTree V) (v : V) (r : PTree V) :
    (PTree.node a c l v r).ptr = some a := rfl

@[simp]
theorem PTree.ptr_nil : (PTree.nil : PTree V).ptr = none := rfl

theorem ptr_ne_of_not_mem {t : PTree V} {k : Nat} (hk : k ∉ t.addrs) : t.ptr ≠ some k := by
  cases t with
  | nil => simp
  | node a c l v r =>
    simp only [PTree.addrs, List.mem_cons, not_or] at hk
    simp only [PTree.ptr_node, ne_eq, Option.some.injEq]
    exact fun e => hk.1 e.symm

theorem store_spec {h : Heap V} {a : Nat} {nd : Node V} (x : Node V) (hg : h[a]? = some nd) :
    ∃ g, store h (some a) x = .ok g ∧ g.length = h.length ∧
      ∀ k, g[k]? = if k = a then some x else h[k]? :=
  ⟨_, store_some x hg, by simp, fun k => get_set x k hg⟩

theorem setP_spec {h : Heap V} {a : Nat} {nd : Node V} (q : Ptr) (hg : h[a]? = some nd) :
    ∃ g, setP h (some a) q = .ok g ∧ g.length = h.length ∧
      ∀ k, g[k]? = if k = a then some { nd with p := q } else h[k]? :=
  ⟨_, setP_some q hg, by simp, fun k => get_set _ k hg⟩

theorem setLeft_spec {h : Heap V} {a : Nat} {nd : Node V} (q : Ptr) (hg : h[a]? = some nd) :
    ∃ g, setLeft h (some a) q = .ok g ∧ g.length = h.length ∧
      ∀ k, g[k]? = if k = a then some { nd with left := q } else h[k]? :=
  ⟨_, setLeft_some q hg, by simp, fun k => get_set _ k hg⟩

theorem setRight_spec {h : Heap V} {a : Nat} {nd : Node V} (q : Ptr) (hg : h[a]? = some nd) :
    ∃ g, setRight h (some a) q = .ok g ∧ g.length = h.length ∧
      ∀ k, g[k]? = if k = a then some { nd with right := q } else h[k]? :=
  ⟨_, setRight_some q hg, by simp, fun k => get_set _ k hg⟩

theorem setColor_spec {h : Heap V} {a : Nat} {nd : Node V} (c : Color) (hg : h[a]? = some nd) :
    ∃ g, setColor h (some a) c = .ok g ∧ g.length = h.length ∧
      ∀ k, g[k]? = if k = a then some { nd with color := c } else h[k]? :=
  ⟨_, setColor_some c hg, by simp, fun k => get_set _ k hg⟩

theorem alloc_spec (h : Heap V) (x : Node V) :
    ∃ g, alloc h x = (g, some h.length) ∧ g.length = h.length + 1 ∧
      ∀ k, g[k]? = if k = h.length then some x else h[k]? :=
  ⟨_, rfl, by simp, get_alloc h x⟩

/-- The guarded assignment `if t != nil { t.p = q }` on the root of a stored tree. -/
theorem setPIfPresent_root {h : Heap V} {t : PTree V} {par : Ptr} (hr : Rep h par t) (q : Ptr)
    (hnd : t.addrs.Nodup) :
    ∃ h', setPIfPresent h t.ptr q = .ok h' ∧ Rep h' q t ∧
      h'.length = h.length ∧ ∀ k, k ∉ t.addrs → h'[k]? = h[k]? := by
  cases t with
  | nil => exact ⟨h, by simp [setPIfPresent], trivial, rfl, fun _ _ => rfl⟩
  | node a c l v r =>
    have hg := hr.1
    refine ⟨_, by simp [setPIfPresent, setP_some q hg], hr.reparent q hnd, by simp, ?_⟩
    intro k hk
    simp only [PTree.addrs, List.mem_cons, not_or] at hk
    rw [List.getElem?_set_ne (Ne.symm hk.1)]

theorem LeftRotate_spec {h : Heap V} {par : Ptr} {n ra : Nat} {c d : Color} {A B C : PTree V}
    {x y : V}
    (hr : Rep h par (.node n c A x (.node ra d B y C)))
    (hnd : (PTree.node n c A x (.node ra d B y C)).addrs.Nodup) :
    ∃ h', Node.LeftRotate h (some n) = .ok h' ∧
      Rep h' par (.node n d (.node h.length c A x (B.moveTo ra)) y C) ∧
      h'.length = h.length + 1 ∧
      ∀ k, k < h.length → k ∉ (PTree.node n c A x (.node ra d B y C)).addrs → h'[k]? = h[k]? := by
  obtain ⟨hn, hA, hra, hB, hC⟩ := hr
  simp only [PTree.addrs, List.nodup_cons, List.mem_append, List.mem_cons, not_or,
    List.nodup_append, List.cons_append, List.disjoint_cons_right,
    List.disjoint_append_right] at hnd
  obtain ⟨⟨hnA, hnra, hnB, hnC⟩, hAnd, ⟨⟨hraB, hraC⟩, hBnd, hCnd, hBC⟩, hraA, hAB, hAC⟩ := hnd
  have hnlt := lt_of_get hn
  have hralt := lt_of_get hra
  have hmn : ¬ h.length = n := Nat.ne_of_gt hnlt
  have hmra : ¬ h.length = ra := Nat.ne_of_gt hralt
  have hnm : ¬ n = h.length := Nat.ne_of_lt hnlt
  have hram : ¬ ra = h.length := Nat.ne_of_lt hralt
  have hran : ¬ ra = n := fun e => hnra e.symm
  simp only [PTree.ptr_node] at hn
  -- var newLeftChild = *n
  obtain ⟨g1, e1, l1, f1⟩ := alloc_spec h
    ({ val := x, color := c, p := par, left := A.ptr, right := some ra } : Node V)
  simp only [Node.LeftRotate, load_some hn, bind_ok, e1, reduceCtorEq, if_false]
  -- *n = *n.right
  have g1ra := f1 ra; rw [if_neg hram, hra] at g1ra
  have g1n := f1 n; rw [if_neg hnm, hn] at g1n
  obtain ⟨g2, e2, l2, f2⟩ := store_spec
    ({ val := y, color := d, p := some n, left := B.ptr, right := C.ptr } : Node V) g1n
  simp only [load_some g1ra, bind_ok, e2]
  -- n.p = newLeftChild.p
  have g2m := f2 h.length; rw [if_neg hmn, f1, if_pos rfl] at g2m
  have g2n := f2 n; rw [if_pos rfl] at g2n
  obtain ⟨g3, e3, l3, f3⟩ := setP_spec par g2n
  simp only [load_some g2m, bind_ok, e3]
  -- newLeftChild.p = n
  have g3m := f3 h.length; rw [if_neg hmn, g2m] at g3m
  obtain ⟨g4, e4, l4, f4⟩ := setP_spec (some n) g3m
  have g4n := f4 n; rw [if_neg hnm, f3, if_pos rfl] at g4n
  have g4m := f4 h.length; rw [if_pos rfl] at g4m
  simp only [e4, load_some g4n, bind_ok]
  -- what the memory holds away from `n` and the new record
  have f4' : ∀ k, k ≠ n → k < h.length → g4[k]? = h[k]? := by
    intro k hkn hk
    rw [f4, if_neg (Nat.ne_of_lt hk), f3, if_neg hkn, f2, if_neg hkn, f1, if_neg (Nat.ne_of_lt hk)]
  have frame4 : ∀ {t : PTree V} {q : Ptr}, Rep h q t → n ∉ t.addrs → Rep g4 q t := by
    intro t q ht hnt
    exact ht.congr (fun k hk => f4' k (fun e => hnt (e ▸ hk)) (ht.lt k hk))
  have hA4 := frame4 hA hnA
  have hC4 := frame4 hC hnC
  have hB4 := frame4 hB hnB
  have hBlt := hB.lt
  -- the two cases of `n.left == nil`
  obtain ⟨g5, e5, l5, g5n, g5m, hB5, f5⟩ : ∃ g5,
      (if B.ptr = none then setRight g4 (some h.length) none
        else do
          let ld ← load g4 (some h.length)
          let cd ← load g4 B.ptr
          let h_4 ← store g4 ld.right cd
          let ld ← load h_4 (some h.length)
          let xd ← load h_4 ld.right
          let h_5 ← setPIfPresent h_4 xd.left ld.right
          let ld ← load h_5 (some h.length)
          let xd ← load h_5 ld.right
          let h_6 ← setPIfPresent h_5 xd.right ld.right
          let ld ← load h_6 (some h.length)
          setP h_6 ld.right (some h.length)) = .ok g5 ∧
      g5.length = h.length + 1 ∧
      g5[n]? = some { val := y, color := d, p := par, left := B.ptr, right := C.ptr } ∧
      g5[h.length]? = some (Node.mk x c (some n) A.ptr (B.moveTo ra).ptr) ∧
      Rep g5 (some h.length) (B.moveTo ra) ∧
      ∀ k, k < h.length → k ≠ n → k ≠ ra → k ∉ B.addrs → g5[k]? = h[k]? := by
    cases B with
    | nil =>
      obtain ⟨g5, e5, l5, f5⟩ := setRight_spec none g4m
      refine ⟨g5, by simp only [PTree.ptr_nil, if_true, e5], by omega, ?_, ?_, trivial, ?_⟩
      · rw [f5, if_neg hnm, g4n]
      · rw [f5, if_pos rfl]; rfl
      · intro k hk hkn _ _
        rw [f5, if_neg (Nat.ne_of_lt hk), f4' k hkn hk]
    | node b bc Bl bv Br =>
      obtain ⟨g4b, hBl4, hBr4⟩ := hB4
      simp only [PTree.addrs, List.mem_cons, List.mem_append, not_or, List.nodup_cons,
        List.nodup_append] at hnB hraB hBnd
      obtain ⟨⟨hbBl, hbBr⟩, hBlnd, hBrnd, hBlBr⟩ := hBnd
      have hmBl : h.length ∉ Bl.addrs := fun hm =>
        absurd (hBlt h.length (by simp [PTree.addrs, hm])) (by omega)
      have hmBr : h.length ∉ Br.addrs := fun hm =>
        absurd (hBlt h.length (by simp [PTree.addrs, hm])) (by omega)
      have g4ra := f4' ra hran hralt; rw [hra] at g4ra
      obtain ⟨g5a, e5a, l5a, f5a⟩ := store_spec
        ({ val := bv, color := bc, p := some ra, left := Bl.ptr, right := Br.ptr } : Node V) g4ra
      have g5am := f5a h.length; rw [if_neg hmra, g4m] at g5am
      have g5ara := f5a ra; rw [if_pos rfl] at g5ara
      have hBl5a : Rep g5a (some b) Bl :=
        hBl4.congr (fun k hk => by rw [f5a, if_neg (fun e : k = ra => hraB.2.1 (e ▸ hk))])
      have hBr5a : Rep g5a (some b) Br :=
        hBr4.congr (fun k hk => by rw [f5a, if_neg (fun e : k = ra => hraB.2.2 (e ▸ hk))])
      obtain ⟨g5b, e5b, hBl5b, l5b, f5b⟩ := setPIfPresent_root hBl5a (some ra) hBlnd
      have g5bm := f5b h.length hmBl; rw [g5am] at g5bm
      have g5bra := f5b ra hraB.2.1; rw [g5ara] at g5bra
      have hBr5b : Rep g5b (some b) Br :=
        hBr5a.congr (fun k hk => f5b k (fun hk' => hBlBr hk' hk))
      obtain ⟨g5c, e5c, hBr5c, l5c, f5c⟩ := setPIfPresent_root hBr5b (some ra) hBrnd
      have g5cm := f5c h.length hmBr; rw [g5bm] at g5cm
      have g5cra := f5c ra hraB.2.2; rw [g5bra] at g5cra
      have hBl5c : Rep g5c (some ra) Bl :=
        hBl5b.congr (fun k hk => f5c k (fun hk' => hBlBr hk hk'))
      obtain ⟨g5, e5, l5, f5⟩ := setP_spec (some h.length) g5cra
      refine ⟨g5, ?_, by omega, ?_, ?_, ⟨?_, ?_, ?_⟩, ?_⟩
      · simp only [PTree.ptr_node, reduceCtorEq, if_false, load_some g4m, load_some g4b, bind_ok,
          e5a, load_some g5am, load_some g5ara, e5b, load_some g5bm, load_some g5bra, e5c,
          load_some g5cm, e5]
      · rw [f5, if_neg hnra, f5c n hnB.2.2, f5b n hnB.2.1, f5a, if_neg hnra, g4n]
      · rw [f5, if_neg hmra, g5cm]; rfl
      · rw [f5, if_pos rfl]
      · exact hBl5c.congr (fun k hk => by rw [f5, if_neg (fun e : k = ra => hraB.2.1 (e ▸ hk))])
      · exact hBr5c.congr (fun k hk => by rw [f5, if_neg (fun e : k = ra => hraB.2.2 (e ▸ hk))])
      · intro k hk hkn hkra hkB
        simp only [PTree.addrs, List.mem_cons, List.mem_append, not_or] at hkB
        rw [f5, if_neg hkra, f5c k hkB.2.2, f5b k hkB.2.1, f5a, if_neg hkra, f4' k hkn hk]
  have hB'addrs : ∀ k, k ∈ (B.moveTo ra).addrs → k = ra ∨ k ∈ B.addrs := by
    intro k hk
    cases B with
    | nil => simp [PTree.moveTo, PTree.addrs] at hk
    | node b bc Bl bv Br =>
      simp only [PTree.moveTo, PTree.addrs, List.mem_cons, List.mem_append] at hk ⊢
      tauto
  simp only [e5, bind_ok]
  -- n.left = &newLeftChild
  obtain ⟨g6, e6, l6, f6⟩ := setLeft_spec (some h.length) g5n
  have g6n := f6 n; rw [if_pos rfl] at g6n
  simp only [e6, bind_ok, load_some g6n]
  -- if n.right != nil { n.right.p = n }
  have f6' : ∀ k, k < h.length → k ≠ n → k ≠ ra → k ∉ B.addrs → g6[k]? = h[k]? := by
    intro k hk hkn hkra hkB
    rw [f6, if_neg hkn, f5 k hk hkn hkra hkB]
  have hC6 : Rep g6 (some ra) C :=
    hC.congr (fun k hk => f6' k (hC.lt k hk) (fun e => hnC (e ▸ hk)) (fun e => hraC (e ▸ hk))
      (fun hk' => hBC hk' hk))
  obtain ⟨g7, e7, hC7, l7, f7⟩ := setPIfPresent_root hC6 (some n) hCnd
  have hmC : h.length ∉ C.addrs := fun hm => absurd (hC.lt _ hm) (by omega)
  have hmA : h.length ∉ A.addrs := fun hm => absurd (hA.lt _ hm) (by omega)
  have g7m := f7 h.length hmC; rw [f6, if_neg hmn, g5m] at g7m
  simp only [e7, bind_ok, load_some g7m]
  -- if newLeftChild.left != nil { newLeftChild.left.p = &newLeftChild }
  have hA7 : Rep g7 (some n) A :=
    hA.congr (fun k hk => by
      rw [f7 k (fun hk' => hAC hk hk')]
      exact f6' k (hA.lt k hk) (fun e => hnA (e ▸ hk)) (fun e => hraA (e ▸ hk))
        (fun hk' => hAB hk hk'))
  obtain ⟨g8, e8, hA8, l8, f8⟩ := setPIfPresent_root hA7 (some h.length) hAnd
  refine ⟨g8, e8, ⟨?_, ⟨?_, hA8, ?_⟩, ?_⟩, by omega, ?_⟩
  · rw [f8 n hnA, f7 n hnC, g6n]; rfl
  · rw [f8 _ hmA, g7m]
  · refine hB5.congr (fun k hk => ?_)
    have hk' := hB'addrs k hk
    have hkA : k ∉ A.addrs := by
      rcases hk' with rfl | hk'
      · exact hraA
      · exact fun hkA => hAB hkA hk'
    have hkC : k ∉ C.addrs := by
      rcases hk' with rfl | hk'
      · exact hraC
      · exact fun hkC => hBC hk' hkC
    have hkn : k ≠ n := by
      rcases hk' with rfl | hk'
      · exact hran
      · exact fun e => hnB (e ▸ hk')
    rw [f8 k hkA, f7 k hkC, f6, if_neg hkn]
  · exact hC7.congr (fun k hk => f8 k (fun hk' => hAC hk' hk))
  · intro k hk hkT
    simp only [PTree.addrs, List.mem_cons, List.mem_append, not_or] at hkT
    rw [f8 k hkT.2.1, f7 k hkT.2.2.2.2, f6' k hk hkT.1 hkT.2.2.1 hkT.2.2.2.1]

end RedBlack

namespace RedBlack

variable {V : Type}

theorem RightRotate_spec {h : Heap V} {par : Ptr} {n ra : Nat} {c d : Color} {A B C : PTree V}
    {x y : V}
    (hr : Rep h par (.node n c (.node ra d C y B) x A))
    (hnd : (PTree.node n c (.node ra d C y B) x A).addrs.Nodup) :
    ∃ h', Node.RightRotate h (some n) = .ok h' ∧
      Rep h' par (.node n d C y (.node h.length c (B.moveTo ra) x A)) ∧
      h'.length = h.length + 1 ∧
      ∀ k, k < h.length → k ∉ (PTree.node n c (.node ra d C y B) x A).addrs → h'[k]? = h[k]? := by
  obtain ⟨hn, ⟨hra, hC, hB⟩, hA⟩ := hr
  simp only [PTree.addrs, List.nodup_cons, List.mem_append, List.mem_cons, not_or,
    List.nodup_append, List.cons_append, List.disjoint_cons_right,
    List.disjoint_append_right] at hnd
  simp only [List.disjoint_append_left] at hnd
  obtain ⟨⟨hnra, ⟨hnC, hnB⟩, hnA⟩, ⟨⟨hraC, hraB⟩, hraA⟩, ⟨hCnd, hBnd, hCB⟩, hAnd, hCA, hBA⟩ := hnd
  have hBC : B.addrs.Disjoint C.addrs := hCB.symm
  have hAB : A.addrs.Disjoint B.addrs := hBA.symm
  have hAC : A.addrs.Disjoint C.addrs := hCA.symm
  have hnlt := lt_of_get hn
  have hralt := lt_of_get hra
  have hmn : ¬ h.length = n := Nat.ne_of_gt hnlt
  have hmra : ¬ h.length = ra := Nat.ne_of_gt hralt
  have hnm : ¬ n = h.length := Nat.ne_of_lt hnlt
  have hram : ¬ ra = h.length := Nat.ne_of_lt hralt
  have hran : ¬ ra = n := fun e => hnra e.symm
  simp only [PTree.ptr_node] at hn
  -- var newRightChild = *n
  obtain ⟨g1, e1, l1, f1⟩ := alloc_spec h
    ({ val := x, color := c, p := par, right := A.ptr, left := some ra } : Node V)
  simp only [Node.RightRotate, load_some hn, bind_ok, e1, reduceCtorEq, if_false]
  -- *n = *n.left
  have g1ra := f1 ra; rw [if_neg hram, hra] at g1ra
  have g1n := f1 n; rw [if_neg hnm, hn] at g1n
  obtain ⟨g2, e2, l2, f2⟩ := store_spec
    ({ val := y, color := d, p := some n, right := B.ptr, left := C.ptr } : Node V) g1n
  simp only [load_some g1ra, bind_ok, e2]
  -- n.p = newRightChild.p
  have g2m := f2 h.length; rw [if_neg hmn, f1, if_pos rfl] at g2m
  have g2n := f2 n; rw [if_pos rfl] at g2n
  obtain ⟨g3, e3, l3, f3⟩ := setP_spec par g2n
  simp only [load_some g2m, bind_ok, e3]
  -- newRightChild.p = n
  have g3m := f3 h.length; rw [if_neg hmn, g2m] at g3m
  obtain ⟨g4, e4, l4, f4⟩ := setP_spec (some n) g3m
  have g4n := f4 n; rw [if_neg hnm, f3, if_pos rfl] at g4n
  have g4m := f4 h.length; rw [if_pos rfl] at g4m
  simp only [e4, load_some g4n, bind_ok]
  -- what the memory holds away from `n` and the new record
  have f4' : ∀ k, k ≠ n → k < h.length → g4[k]? = h[k]? := by
    intro k hkn hk
    rw [f4, if_neg (Nat.ne_of_lt hk), f3, if_neg hkn, f2, if_neg hkn, f1, if_neg (Nat.ne_of_lt hk)]
  have frame4 : ∀ {t : PTree V} {q : Ptr}, Rep h q t → n ∉ t.addrs → Rep g4 q t := by
    intro t q ht hnt
    exact ht.congr (fun k hk => f4' k (fun e => hnt (e ▸ hk)) (ht.lt k hk))
  have hA4 := frame4 hA hnA
  have hC4 := frame4 hC hnC
  have hB4 := frame4 hB hnB
  have hBlt := hB.lt
  -- the two cases of `n.right == nil`
  obtain ⟨g5, e5, l5, g5n, g5m, hB5, f5⟩ : ∃ g5,
      (if B.ptr = none then setLeft g4 (some h.length) none
        else do
          let ld ← load g4 (some h.length)
          let cd ← load g4 B.ptr
          let h_4 ← store g4 ld.left cd
          let ld ← load h_4 (some h.length)
          let xd ← load h_4 ld.left
          let h_5 ← setPIfPresent h_4 xd.left ld.left
          let ld ← load h_5 (some h.length)
          let xd ← load h_5 ld.left
          let h_6 ← setPIfPresent h_5 xd.right ld.left
          let ld ← load h_6 (some h.length)
          setP h_6 ld.left (some h.length)) = .ok g5 ∧
      g5.length = h.length + 1 ∧
      g5[n]? = some { val := y, color := d, p := par, right := B.ptr, left := C.ptr } ∧
      g5[h.length]? = some (Node.mk x c (some n) (B.moveTo ra).ptr A.ptr) ∧
      Rep g5 (some h.length) (B.moveTo ra) ∧
      ∀ k, k < h.length → k ≠ n → k ≠ ra → k ∉ B.addrs → g5[k]? = h[k]? := by
    cases B with
    | nil =>
      obtain ⟨g5, e5, l5, f5⟩ := setLeft_spec none g4m
      refine ⟨g5, by simp only [PTree.ptr_nil, if_true, e5], by omega, ?_, ?_, trivial, ?_⟩
      · rw [f5, if_neg hnm, g4n]
      · rw [f5, if_pos rfl]; rfl
      · intro k hk hkn _ _
        rw [f5, if_neg (Nat.ne_of_lt hk), f4' k hkn hk]
    | node b bc Bl bv Br =>
      obtain ⟨g4b, hBl4, hBr4⟩ := hB4
      simp only [PTree.addrs, List.mem_cons, List.mem_append, not_or, List.nodup_cons,
        List.nodup_append] at hnB hraB hBnd
      obtain ⟨⟨hbBl, hbBr⟩, hBlnd, hBrnd, hBlBr⟩ := hBnd
      have hmBl : h.length ∉ Bl.addrs := fun hm =>
        absurd (hBlt h.length (by simp [PTree.addrs, hm])) (by omega)
      have hmBr : h.length ∉ Br.addrs := fun hm =>
        absurd (hBlt h.length (by simp [PTree.addrs, hm])) (by omega)
      have g4ra := f4' ra hran hralt; rw [hra] at g4ra
      obtain ⟨g5a, e5a, l5a, f5a⟩ := store_spec
        ({ val := bv, color := bc, p := some ra, left := Bl.ptr, right := Br.ptr } : Node V) g4ra
      have g5am := f5a h.length; rw [if_neg hmra, g4m] at g5am
      have g5ara := f5a ra; rw [if_pos rfl] at g5ara
      have hBl5a : Rep g5a (some b) Bl :=
        hBl4.congr (fun k hk => by rw [f5a, if_neg (fun e : k = ra => hraB.2.1 (e ▸ hk))])
      have hBr5a : Rep g5a (some b) Br :=
        hBr4.congr (fun k hk => by rw [f5a, if_neg (fun e : k = ra => hraB.2.2 (e ▸ hk))])
      obtain ⟨g5b, e5b, hBl5b, l5b, f5b⟩ := setPIfPresent_root hBl5a (some ra) hBlnd
      have g5bm := f5b h.length hmBl; rw [g5am] at g5bm
      have g5bra := f5b ra hraB.2.1; rw [g5ara] at g5bra
      have hBr5b : Rep g5b (some b) Br :=
        hBr5a.congr (fun k hk => f5b k (fun hk' => hBlBr hk' hk))
      obtain ⟨g5c, e5c, hBr5c, l5c, f5c⟩ := setPIfPresent_root hBr5b (some ra) hBrnd
      have g5cm := f5c h.length hmBr; rw [g5bm] at g5cm
      have g5cra := f5c ra hraB.2.2; rw [g5bra] at g5cra
      have hBl5c : Rep g5c (some ra) Bl :=
        hBl5b.congr (fun k hk => f5c k (fun hk' => hBlBr hk hk'))
      obtain ⟨g5, e5, l5, f5⟩ := setP_spec (some h.length) g5cra
      refine ⟨g5, ?_, by omega, ?_, ?_, ⟨?_, ?_, ?_⟩, ?_⟩
      · simp only [PTree.ptr_node, reduceCtorEq, if_false, load_some g4m, load_some g4b, bind_ok,
          e5a, load_some g5am, load_some g5ara, e5b, load_some g5bm, load_some g5bra, e5c,
          load_some g5cm, e5]
      · rw [f5, if_neg hnra, f5c n hnB.2.2, f5b n hnB.2.1, f5a, if_neg hnra, g4n]
      · rw [f5, if_neg hmra, g5cm]; rfl
      · rw [f5, if_pos rfl]
      · exact hBl5c.congr (fun k hk => by rw [f5, if_neg (fun e : k = ra => hraB.2.1 (e ▸ hk))])
      · exact hBr5c.congr (fun k hk => by rw [f5, if_neg (fun e : k = ra => hraB.2.2 (e ▸ hk))])
      · intro k hk hkn hkra hkB
        simp only [PTree.addrs, List.mem_cons, List.mem_append, not_or] at hkB
        rw [f5, if_neg hkra, f5c k hkB.2.2, f5b k hkB.2.1, f5a, if_neg hkra, f4' k hkn hk]
  have hB'addrs : ∀ k, k ∈ (B.moveTo ra).addrs → k = ra ∨ k ∈ B.addrs := by
    intro k hk
    cases B with
    | nil => simp [PTree.moveTo, PTree.addrs] at hk
    | node b bc Bl bv Br =>
      simp only [PTree.moveTo, PTree.addrs, List.mem_cons, List.mem_append] at hk ⊢
      tauto
  simp only [e5, bind_ok]
  -- n.right = &newRightChild
  obtain ⟨g6, e6, l6, f6⟩ := setRight_spec (some h.length) g5n
  have g6n := f6 n; rw [if_pos rfl] at g6n
  simp only [e6, bind_ok, load_some g6n]
  -- if n.left != nil { n.left.p = n }
  have f6' : ∀ k, k < h.length → k ≠ n → k ≠ ra → k ∉ B.addrs → g6[k]? = h[k]? := by
    intro k hk hkn hkra hkB
    rw [f6, if_neg hkn, f5 k hk hkn hkra hkB]
  have hC6 : Rep g6 (some ra) C :=
    hC.congr (fun k hk => f6' k (hC.lt k hk) (fun e => hnC (e ▸ hk)) (fun e => hraC (e ▸ hk))
      (fun hk' => hBC hk' hk))
  obtain ⟨g7, e7, hC7, l7, f7⟩ := setPIfPresent_root hC6 (some n) hCnd
  have hmC : h.length ∉ C.addrs := fun hm => absurd (hC.lt _ hm) (by omega)
  have hmA : h.length ∉ A.addrs := fun hm => absurd (hA.lt _ hm) (by omega)
  have g7m := f7 h.length hmC; rw [f6, if_neg hmn, g5m] at g7m
  simp only [e7, bind_ok, load_some g7m]
  -- if newRightChild.right != nil { newRightChild.right.p = &newRightChild }
  have hA7 : Rep g7 (some n) A :=
    hA.congr (fun k hk => by
      rw [f7 k (fun hk' => hAC hk hk')]
      exact f6' k (hA.lt k hk) (fun e => hnA (e ▸ hk)) (fun e => hraA (e ▸ hk))
        (fun hk' => hAB hk hk'))
  obtain ⟨g8, e8, hA8, l8, f8⟩ := setPIfPresent_root hA7 (some h.length) hAnd
  refine ⟨g8, e8, ⟨?_, ?_, ⟨?_, ?_, hA8⟩⟩, by omega, ?_⟩
  · rw [f8 n hnA, f7 n hnC, g6n]; rfl
  · exact hC7.congr (fun k hk => f8 k (fun hk' => hAC hk' hk))
  · rw [f8 _ hmA, g7m]
  · refine hB5.congr (fun k hk => ?_)
    have hk' := hB'addrs k hk
    have hkA : k ∉ A.addrs := by
      rcases hk' with rfl | hk'
      · exact hraA
      · exact fun hkA => hAB hkA hk'
    have hkC : k ∉ C.addrs := by
      rcases hk' with rfl | hk'
      · exact hraC
      · exact fun hkC => hBC hk' hkC
    have hkn : k ≠ n := by
      rcases hk' with rfl | hk'
      · exact hran
      · exact fun e => hnB (e ▸ hk')
    rw [f8 k hkA, f7 k hkC, f6, if_neg hkn]
  · intro k hk hkT
    simp only [PTree.addrs, List.mem_cons, List.mem_append, not_or] at hkT
    obtain ⟨hkn, ⟨hkra, hkC, hkB⟩, hkA⟩ := hkT
    rw [f8 k hkA, f7 k hkC, f6' k hk hkn hkra hkB]

end RedBlack

namespace RedBlack

variable {V : Type}

/-! ## Paths: filling, plugging, and what memory holds along a path -/

@[simp]
theorem Frame.fill_ptr (f : Frame V) (t : PTree V) : (f.fill t).ptr = some f.a := by
  unfold Frame.fill; split <;> rfl

theorem Frame.fill_addrs_perm (f : Frame V) (t : PTree V) :
    List.Perm (f.fill t).addrs (t.addrs ++ (f.a :: f.sib.addrs)) := by
  unfold Frame.fill
  split
  · simp only [PTree.addrs]
    exact (@List.perm_middle _ f.a t.addrs f.sib.addrs).symm
  · simp only [PTree.addrs]
    refine List.Perm.trans (List.Perm.cons _ List.perm_append_comm) ?_
    exact (@List.perm_middle _ f.a t.addrs f.sib.addrs).symm

theorem plug_addrs_perm : ∀ (ctx : List (Frame V)) (t : PTree V),
    List.Perm (plug ctx t).addrs (t.addrs ++ ctxAddrs ctx)
  | [], t => by simp [plug, ctxAddrs]
  | f :: fs, t => by
    simp only [plug, ctxAddrs]
    refine (plug_addrs_perm fs (f.fill t)).trans ?_
    refine ((f.fill_addrs_perm t).append_right _).trans ?_
    simp [List.append_assoc]

theorem Rep_fill {h : Heap V} {par : Ptr} (f : Frame V) (t : PTree V) :
    Rep h par (f.fill t) ↔
      h[f.a]? = some { val := f.v, color := f.c, p := par,
                       left := if f.isLeft then t.ptr else f.sib.ptr,
                       right := if f.isLeft then f.sib.ptr else t.ptr } ∧
      Rep h (some f.a) f.sib ∧ Rep h (some f.a) t := by
  unfold Frame.fill
  cases hf : f.isLeft
  · simp only [Bool.false_eq_true, if_false, Rep]
  · simp only [if_true, Rep]; tauto

theorem Rep_plug {h : Heap V} : ∀ (ctx : List (Frame V)) (t : PTree V),
    Rep h none (plug ctx t) ↔ RepCtx h ctx t.ptr ∧ Rep h (ctxPtr ctx) t
  | [], t => by simp [plug, RepCtx, ctxPtr]
  | f :: fs, t => by
    simp only [plug, RepCtx, ctxPtr]
    rw [Rep_plug fs (f.fill t), Rep_fill, Frame.fill_ptr]
    tauto

theorem RepCtx.congrCtx {h h' : Heap V} : ∀ {ctx : List (Frame V)} {child : Ptr},
    RepCtx h ctx child → (∀ k ∈ ctxAddrs ctx, h'[k]? = h[k]?) → RepCtx h' ctx child
  | [], _, _, _ => trivial
  | f :: fs, child, hr, hf => by
    simp only [RepCtx] at hr ⊢
    simp only [ctxAddrs, List.mem_cons, List.mem_append] at hf
    refine ⟨?_, hr.2.1.congr ?_, RepCtx.congrCtx hr.2.2 ?_⟩
    · rw [hf _ (Or.inl rfl)]; exact hr.1
    · intro k hk; exact hf k (Or.inr (Or.inl hk))
    · intro k hk; exact hf k (Or.inr (Or.inr hk))

theorem RepCtx.ltCtx {h : Heap V} : ∀ {ctx : List (Frame V)} {child : Ptr},
    RepCtx h ctx child → ∀ k ∈ ctxAddrs ctx, k < h.length
  | [], _, _, k, hk => by simp [ctxAddrs] at hk
  | f :: fs, child, hr, k, hk => by
    simp only [RepCtx] at hr
    simp only [ctxAddrs, List.mem_cons, List.mem_append] at hk
    rcases hk with rfl | hk | hk
    · exact lt_of_get hr.1
    · exact hr.2.1.lt k hk
    · exact RepCtx.ltCtx hr.2.2 k hk

theorem PTree.moveTo_ptr (b : Nat) (t : PTree V) :
    (t.moveTo b).ptr = if t.ptr = none then none else some b := by
  cases t <;> simp [PTree.moveTo]

theorem Recolor_spec {h : Heap V} {a : Nat} {nd : Node V} (hg : h[a]? = some nd) :
    ∃ g, Node.Recolor h (some a) = .ok g ∧ g.length = h.length ∧
      ∀ k, g[k]? = if k = a then some { nd with color := nd.color.recolor } else h[k]? := by
  unfold Node.Recolor
  rw [load_some hg]
  simp only [bind_ok]
  cases hc : nd.color
  · obtain ⟨g, e, l, f⟩ := setColor_spec Color.Red hg
    exact ⟨g, by simp [e], l, by simpa [Color.recolor] using f⟩
  · obtain ⟨g, e, l, f⟩ := setColor_spec Color.Black hg
    exact ⟨g, by simp [e], l, by simpa [Color.recolor] using f⟩

theorem Uncle_spec {h : Heap V} {na pa ga : Nat} {nd pd gd : Node V}
    (hn : h[na]? = some nd) (hp : h[pa]? = some pd) (hg : h[ga]? = some gd)
    (hnp : nd.p = some pa) (hpg : pd.p = some ga) :
    Node.Uncle h (some na) =
      .ok (if gd.left = some pa then gd.right else gd.left,
           if decide (pd.left = some na) = decide (gd.left = some pa) then Relationship.Line
           else Relationship.Triangle,
           decide ((if gd.left = some pa then gd.right else gd.left) ≠ none)) := by
  unfold Node.Uncle
  simp [load_some hn, hnp, load_some hp, hpg, load_some hg]

end RedBlack

namespace RedBlack

variable {V : Type}

/-! ## The rotation used by the fixup: at a parent, away from the child's side -/

theorem rot_fill (m : Nat) (f : Frame V) (na : Nat) (nc : Color) (nl : PTree V) (nv : V)
    (nr : PTree V) :
    (if f.isLeft then (f.fill (.node na nc nl nv nr)).rotR m
      else (f.fill (.node na nc nl nv nr)).rotL m) =
    (f.rotUp (.node na nc nl nv nr)).fill (f.rotDown m (.node na nc nl nv nr)) := by
  obtain ⟨a, c, v, il, S⟩ := f
  cases il <;> simp [Frame.fill, Frame.rotUp, Frame.rotDown, PTree.rotL, PTree.rotR]

theorem rot_child_spec {h : Heap V} {par : Ptr} (f : Frame V) (na : Nat) (nc : Color)
    (nl : PTree V) (nv : V) (nr : PTree V)
    (hr : Rep h par (f.fill (.node na nc nl nv nr)))
    (hnd : (f.fill (.node na nc nl nv nr)).addrs.Nodup) :
    ∃ h', (if f.isLeft then Node.RightRotate h (some f.a) else Node.LeftRotate h (some f.a))
        = .ok h' ∧
      Rep h' par ((f.rotUp (.node na nc nl nv nr)).fill
        (f.rotDown h.length (.node na nc nl nv nr))) ∧
      h'.length = h.length + 1 ∧
      ∀ k, k < h.length → k ∉ (f.fill (.node na nc nl nv nr)).addrs → h'[k]? = h[k]? := by
  rw [← rot_fill]
  obtain ⟨a, c, v, il, S⟩ := f
  cases il
  · simp only [Frame.fill, Bool.false_eq_true, if_false] at hr hnd ⊢
    exact LeftRotate_spec hr hnd
  · simp only [Frame.fill, if_true] at hr hnd ⊢
    exact RightRotate_spec hr hnd

end RedBlack

namespace RedBlack

variable {V : Type}

/-! ## The fixup on memory, one call at a time -/

theorem nodup_plug {ctx : List (Frame V)} {t : PTree V} :
    (plug ctx t).addrs.Nodup ↔ (t.addrs ++ ctxAddrs ctx).Nodup :=
  (plug_addrs_perm ctx t).nodup_iff

/-- The entry guard: no parent, no grandparent, or a parent that is not Red. -/
theorem fix_exit {h : Heap V} {ctx : List (Frame V)} {t : PTree V} {na : Nat}
    (hr : Rep h none (plug ctx t)) (hna : t.ptr = some na)
    (hc : ∀ f1 f2 rest, ctx = f1 :: f2 :: rest → f1.c ≠ Color.Red) (fuel : Nat) :
    Node.FixViolations (fuel + 1) h (some na) = .ok h := by
  rw [Rep_plug] at hr
  obtain ⟨hctx, ht⟩ := hr
  cases t with
  | nil => simp at hna
  | node a nc nl nv nr =>
    simp only [PTree.ptr_node, Option.some.injEq] at hna
    subst hna
    have hn := ht.1
    match ctx, hctx, hn, hc with
    | [], _, hn, _ =>
      simp [Node.FixViolations, load_some hn, ctxPtr]
    | [f1], hctx, hn, _ =>
      have hp := hctx.1
      simp [Node.FixViolations, load_some hn, load_some hp, ctxPtr]
    | f1 :: f2 :: rest, hctx, hn, hc =>
      have hp := hctx.1
      have hcol := hc f1 f2 rest rfl
      simp [Node.FixViolations, load_some hn, load_some hp, ctxPtr, hcol]

end RedBlack

namespace RedBlack

variable {V : Type}

@[simp]
theorem ctxPtr_cons (f : Frame V) (fs : List (Frame V)) : ctxPtr (f :: fs) = some f.a :=
  rfl

theorem other_child {il : Bool} {pa : Nat} {sp : Ptr} (hs : sp ≠ some pa) :
    (if (if il then some pa else sp) = some pa then (if il then sp else some pa)
      else (if il then some pa else sp)) = sp := by
  cases il <;> simp [hs]

theorem side_eq {il : Bool} {na : Nat} {sp : Ptr} (hs : sp ≠ some na) :
    ((if il then some na else sp) = some na) ↔ il = true := by
  cases il <;> simp [hs]

/-- What the absence of repeated addresses says about a node, its parent, its
grandparent and the subtrees around them. -/
theorem nodup_config {f1 f2 : Frame V} {rest : List (Frame V)} {t : PTree V}
    (hnd : (plug (f1 :: f2 :: rest) t).addrs.Nodup) :
    (t.addrs.Nodup ∧ f1.sib.addrs.Nodup ∧ f2.sib.addrs.Nodup ∧ (ctxAddrs rest).Nodup) ∧
    (f1.a ≠ f2.a ∧ f1.a ∉ t.addrs ∧ f1.a ∉ f1.sib.addrs ∧ f1.a ∉ f2.sib.addrs ∧
      f1.a ∉ ctxAddrs rest) ∧
    (f2.a ∉ t.addrs ∧ f2.a ∉ f1.sib.addrs ∧ f2.a ∉ f2.sib.addrs ∧ f2.a ∉ ctxAddrs rest) ∧
    (t.addrs.Disjoint f1.sib.addrs ∧ t.addrs.Disjoint f2.sib.addrs ∧
      t.addrs.Disjoint (ctxAddrs rest)) ∧
    (f1.sib.addrs.Disjoint f2.sib.addrs ∧ f1.sib.addrs.Disjoint (ctxAddrs rest) ∧
      f2.sib.addrs.Disjoint (ctxAddrs rest)) := by
  simp only [nodup_plug, ctxAddrs, List.nodup_append, List.nodup_cons,
    List.mem_append, List.mem_cons, not_or, List.disjoint_cons_right, List.disjoint_cons_left,
    List.disjoint_append_right, List.disjoint_append_left, List.cons_append] at hnd
  tauto

end RedBlack

namespace RedBlack

variable {V : Type}

theorem mem_addrs_of_ptr {t : PTree V} {a : Nat} (h : t.ptr = some a) : a ∈ t.addrs := by
  cases t with
  | nil => simp at h
  | node b c l v r =>
    simp only [PTree.ptr_node, Option.some.injEq] at h
    simp [PTree.addrs, h]

theorem PTree.blacken_ptr (t : PTree V) : t.blacken.ptr = t.ptr := by
  cases t <;> rfl

theorem PTree.blacken_addrs (t : PTree V) : t.blacken.addrs = t.addrs := by
  cases t <;> rfl

/-- The Uncle-Red branch: three colour changes, then the fixup goes on at the grandparent. -/
theorem fix_red_step {h : Heap V} {f1 f2 : Frame V} {rest : List (Frame V)} {t : PTree V}
    {na : Nat}
    (hr : Rep h none (plug (f1 :: f2 :: rest) t)) (hna : t.ptr = some na)
    (hnd : (plug (f1 :: f2 :: rest) t).addrs.Nodup)
    (hc : f1.c = Color.Red) (hu : f2.sib.rootColor = Color.Red) (fuel : Nat) :
    ∃ h', Node.FixViolations (fuel + 1) h (some na) = Node.FixViolations fuel h' (some f2.a) ∧
      Rep h' none (plug rest
        (({ f2 with c := f2.c.recolor, sib := f2.sib.blacken } : Frame V).fill
          (({ f1 with c := f1.c.recolor } : Frame V).fill t))) ∧
      h'.length = h.length := by
  obtain ⟨⟨htnd, hS1nd, hS2nd, hrnd⟩, ⟨hpg, hpt, hpS1, hpS2, hpr⟩, ⟨hgt, hgS1, hgS2, hgr⟩,
    ⟨htS1, htS2, htr⟩, ⟨hS12, hS1r, hS2r⟩⟩ := nodup_config hnd
  have hnat := mem_addrs_of_ptr hna
  obtain ⟨pa, pc, pv, il1, S1⟩ := f1
  obtain ⟨ga, gc, gv, il2, S2⟩ := f2
  simp only at hc hu hpg hpt hpS1 hpS2 hpr hgt hgS1 hgS2 hgr htS1 htS2 hS12 hS1r hS2r hS1nd hS2nd
  subst hc
  rw [Rep_plug] at hr
  obtain ⟨⟨hp, hS1, hg, hS2, hrest⟩, ht⟩ := hr
  simp only [ctxPtr_cons, hna] at hp hg hS1 hS2 hrest ht
  -- the uncle is a Red node
  obtain ⟨ua, ul, uv, ur, rfl⟩ : ∃ ua ul uv ur, S2 = .node ua Color.Red ul uv ur := by
    cases S2 with
    | nil => simp [PTree.rootColor] at hu
    | node ua uc ul uv ur => simp only [PTree.rootColor] at hu; subst hu; exact ⟨_, _, _, _, rfl⟩
  have huaS2 : ua ∈ (PTree.node ua Color.Red ul uv ur).addrs := by simp [PTree.addrs]
  obtain ⟨hua, hul, hur⟩ := hS2
  simp only [PTree.ptr_node] at hg
  have hnp : na ≠ pa := fun e => hpt (e ▸ hnat)
  have hng : na ≠ ga := fun e => hgt (e ▸ hnat)
  have hup : ua ≠ pa := fun e => hpS2 (e ▸ huaS2)
  have hug : ua ≠ ga := fun e => hgS2 (e ▸ huaS2)
  have hun : ua ≠ na := fun e => htS2 hnat (e ▸ huaS2)
  obtain ⟨nd, hn, hndp⟩ : ∃ nd, h[na]? = some nd ∧ nd.p = some pa := by
    cases t with
    | nil => simp at hna
    | node a nc nl nv nr =>
      simp only [PTree.ptr_node, Option.some.injEq] at hna
      subst hna
      exact ⟨_, ht.1, rfl⟩
  -- n.p.Recolor()
  obtain ⟨h1, e1, l1, f1⟩ := Recolor_spec hp
  dsimp only at f1
  have h1n := f1 na; rw [if_neg hnp, hn] at h1n
  have h1p := f1 pa; rw [if_pos rfl] at h1p
  have h1g := f1 ga; rw [if_neg (Ne.symm hpg), hg] at h1g
  -- n.p.p.Recolor()
  obtain ⟨h2, e2, l2, f2⟩ := Recolor_spec h1g
  dsimp only at f2
  have h2u := f2 ua; rw [if_neg hug, f1, if_neg hup, hua] at h2u
  -- uncle.color = Black
  obtain ⟨h3, e3, l3, f3⟩ := setColor_spec Color.Black h2u
  dsimp only at f3
  have h3n := f3 na; rw [if_neg (Ne.symm hun), f2, if_neg hng, h1n] at h3n
  have h3p := f3 pa; rw [if_neg (Ne.symm hup), f2, if_neg hpg, h1p] at h3p
  have h3g := f3 ga; rw [if_neg (Ne.symm hug), f2, if_pos rfl] at h3g
  have h3u := f3 ua; rw [if_pos rfl] at h3u
  have h2n := f2 na; rw [if_neg hng, h1n] at h2n
  have h2p := f2 pa; rw [if_neg hpg, h1p] at h2p
  have F : ∀ k, k ≠ pa → k ≠ ga → k ≠ ua → h3[k]? = h[k]? := by
    intro k k1 k2 k3
    rw [f3, if_neg k3, f2, if_neg k2, f1, if_neg k1]
  have FR : ∀ {X : PTree V} {q : Ptr}, Rep h q X → pa ∉ X.addrs → ga ∉ X.addrs →
      ua ∉ X.addrs → Rep h3 q X := by
    intro X q hX x1 x2 x3
    exact hX.congr (fun k hk => F k (fun e => x1 (e ▸ hk)) (fun e => x2 (e ▸ hk))
      (fun e => x3 (e ▸ hk)))
  refine ⟨h3, ?_, ?_, by omega⟩
  · have hsp : (some ua : Ptr) ≠ some pa := by simpa using hup
    have hU := Uncle_spec hn hp hg hndp rfl
    dsimp only at hU
    rw [other_child hsp] at hU
    simp only [Node.FixViolations, load_some hn, bind_ok, hndp, reduceCtorEq, if_false,
      load_some hp, ne_eq, not_true_eq_false, hU, decide_True, decide_not, Bool.not_eq_true',
      decide_eq_false_iff_not, if_true, load_some hua, pure_eq_ok, e1, load_some h1n,
      load_some h1p, e2, e3, load_some h2n, load_some h2p, load_some h3n, load_some h3p,
      not_false_eq_true, Bool.not_false, Bool.not_true]
  · rw [Rep_plug]
    simp only [Frame.fill_ptr]
    refine ⟨hrest.congrCtx (fun k hk => F k (fun e => hpr (e ▸ hk)) (fun e => hgr (e ▸ hk))
      (fun e => hS2r huaS2 (e ▸ hk))), ?_⟩
    rw [Rep_fill]
    simp only [Frame.fill_ptr, PTree.blacken, PTree.ptr_node]
    simp only [PTree.addrs, List.mem_cons, List.mem_append, not_or, List.nodup_cons,
      List.nodup_append, List.disjoint_cons_right, List.disjoint_cons_left,
      List.disjoint_append_right, List.disjoint_append_left] at hpS2 hgS2 hS2nd hS12 htS2
    refine ⟨h3g, ⟨h3u, ?_, ?_⟩, ?_⟩
    · exact FR hul hpS2.2.1 hgS2.2.1 hS2nd.1.1
    · exact FR hur hpS2.2.2 hgS2.2.2 hS2nd.1.2
    · rw [Rep_fill]
      dsimp only
      rw [hna]
      exact ⟨h3p, FR hS1 hpS1 hgS1 hS12.1, FR ht hpt hgt htS2.1⟩

end RedBlack

namespace RedBlack

variable {V : Type}

theorem PTree.moveTo_addrs_mem {b k : Nat} {t : PTree V} (hk : k ∈ (t.moveTo b).addrs) :
    k = b ∨ k ∈ t.addrs := by
  cases t with
  | nil => simp [PTree.moveTo, PTree.addrs] at hk
  | node a c l v r =>
    simp only [PTree.moveTo, PTree.addrs, List.mem_cons, List.mem_append] at hk ⊢
    tauto

theorem PTree.moveTo_nodup {b : Nat} {t : PTree V} (hnd : t.addrs.Nodup)
    (hb : b ∉ t.addrs) : (t.moveTo b).addrs.Nodup := by
  cases t with
  | nil => simp [PTree.moveTo, PTree.addrs]
  | node a c l v r =>
    simp only [PTree.moveTo, PTree.addrs, List.mem_cons, List.mem_append, List.nodup_cons,
      not_or] at hnd hb ⊢
    tauto

theorem rot_addrs_mem {m : Nat} (f : Frame V) (na : Nat) (nc : Color) (nl : PTree V) (nv : V)
    (nr : PTree V) {k : Nat}
    (hk : k ∈ ((f.rotUp (.node na nc nl nv nr)).fill
      (f.rotDown m (.node na nc nl nv nr))).addrs) :
    k = m ∨ k ∈ (f.fill (.node na nc nl nv nr)).addrs := by
  obtain ⟨a, c, v, il, S⟩ := f
  cases il
  · simp only [Frame.rotUp, Frame.rotDown, Frame.fill, Bool.false_eq_true, if_false,
      Bool.not_false, if_true, PTree.addrs, List.mem_cons, List.mem_append] at hk ⊢
    rcases hk with hk | ⟨hk | hk | hk⟩ | hk
    · tauto
    · tauto
    · tauto
    · rcases PTree.moveTo_addrs_mem hk with hk | hk <;> tauto
    · tauto
  · simp only [Frame.rotUp, Frame.rotDown, Frame.fill, if_true, Bool.not_true,
      Bool.false_eq_true, if_false, PTree.addrs, List.mem_cons, List.mem_append] at hk ⊢
    rcases hk with hk | hk | hk | hk | hk
    · tauto
    · tauto
    · tauto
    · rcases PTree.moveTo_addrs_mem hk with hk | hk <;> tauto
    · tauto

theorem rot_addrs_nodup {m : Nat} (f : Frame V) (na : Nat) (nc : Color) (nl : PTree V) (nv : V)
    (nr : PTree V) (hnd : (f.fill (.node na nc nl nv nr)).addrs.Nodup)
    (hm : m ∉ (f.fill (.node na nc nl nv nr)).addrs) :
    ((f.rotUp (.node na nc nl nv nr)).fill (f.rotDown m (.node na nc nl nv nr))).addrs.Nodup := by
  obtain ⟨a, c, v, il, S⟩ := f
  cases il
  · cases nl <;>
    · simp only [Frame.rotUp, Frame.rotDown, Frame.fill, Bool.false_eq_true, if_false,
        Bool.not_false, if_true, PTree.addrs, PTree.moveTo, List.mem_cons, List.mem_append,
        List.nodup_cons, List.nodup_append, not_or, List.disjoint_cons_right,
        List.disjoint_cons_left, List.disjoint_append_right, List.disjoint_append_left,
        List.append_nil, List.nil_append, List.not_mem_nil, not_false_eq_true, true_and,
        List.nodup_nil, List.disjoint_nil_left, List.disjoint_nil_right, and_true,
        @List.disjoint_comm _ S.addrs _] at hnd hm ⊢
      tauto
  · cases nr <;>
    · simp only [Frame.rotUp, Frame.rotDown, Frame.fill, Bool.false_eq_true, if_false,
        Bool.not_true, if_true, PTree.addrs, PTree.moveTo, List.mem_cons, List.mem_append,
        List.nodup_cons, List.nodup_append, not_or, List.disjoint_cons_right,
        List.disjoint_cons_left, List.disjoint_append_right, List.disjoint_append_left,
        List.append_nil, List.nil_append, List.not_mem_nil, not_false_eq_true, true_and,
        List.nodup_nil, List.disjoint_nil_left, List.disjoint_nil_right, and_true,
        @List.disjoint_comm _ S.addrs _] at hnd hm ⊢
      tauto

end RedBlack

namespace RedBlack

variable {V : Type}

/-- Addresses stay without repetition when the parent of a node is rotated. -/
theorem nodup_plug_rot {m : Nat} {f : Frame V} {ctx : List (Frame V)} {na : Nat} {nc : Color}
    {nl : PTree V} {nv : V} {nr : PTree V}
    (hnd : (plug (f :: ctx) (.node na nc nl nv nr)).addrs.Nodup)
    (hm : ∀ k ∈ (plug (f :: ctx) (.node na nc nl nv nr)).addrs, k < m) :
    (plug (f.rotUp (.node na nc nl nv nr) :: ctx)
      (f.rotDown m (.node na nc nl nv nr))).addrs.Nodup := by
  simp only [plug] at hnd hm ⊢
  have hperm := plug_addrs_perm ctx (f.fill (.node na nc nl nv nr))
  rw [nodup_plug] at hnd ⊢
  have hmG : m ∉ (f.fill (.node na nc nl nv nr)).addrs := fun hk =>
    absurd (hm m (hperm.symm.subset (List.mem_append_left _ hk))) (lt_irrefl m)
  have hmC : m ∉ ctxAddrs ctx := fun hk =>
    absurd (hm m (hperm.symm.subset (List.mem_append_right _ hk))) (lt_irrefl m)
  rw [List.nodup_append] at hnd ⊢
  refine ⟨rot_addrs_nodup f na nc nl nv nr hnd.1 hmG, hnd.2.1, ?_⟩
  intro k hk hk'
  rcases rot_addrs_mem f na nc nl nv nr hk with rfl | hk
  · exact hmC hk'
  · exact hnd.2.2 hk hk'

end RedBlack

namespace RedBlack

variable {V : Type}

theorem Frame.fill_node (f : Frame V) (t : PTree V) :
    ∃ l r, f.fill t = .node f.a f.c l f.v r := by
  unfold Frame.fill
  split
  · exact ⟨_, _, rfl⟩
  · exact ⟨_, _, rfl⟩

theorem Frame.fill_addrs_congr {f f' : Frame V} (t : PTree V) (ha : f'.a = f.a)
    (hl : f'.isLeft = f.isLeft) (hs : f'.sib.addrs = f.sib.addrs) :
    (f'.fill t).addrs = (f.fill t).addrs := by
  unfold Frame.fill
  rw [hl, ha]
  split <;> simp [PTree.addrs, hs]

theorem Frame.fill_addrs_congr' {f f' : Frame V} {t t' : PTree V} (ha : f'.a = f.a)
    (hl : f'.isLeft = f.isLeft) (hs : f'.sib.addrs = f.sib.addrs) (ht : t'.addrs = t.addrs) :
    (f'.fill t').addrs = (f.fill t).addrs := by
  unfold Frame.fill
  rw [hl, ha]
  split <;> simp [PTree.addrs, hs, ht]

/-- The test `ok && uncle.color == Red` when the uncle is absent or not Red. -/
theorem redUncle_false {h : Heap V} {S : PTree V} {q : Ptr} (hS : Rep h q S)
    (hu : S.rootColor ≠ Color.Red) :
    (if decide (S.ptr ≠ none) = true then
        (load h S.ptr >>= fun ud => pure (decide (ud.color = Color.Red)))
      else pure false : Except Fault Bool) = .ok false := by
  cases S with
  | nil => simp
  | node ua uc ul uv ur =>
    simp only [PTree.rootColor] at hu
    simp [load_some hS.1, hu]

/-- The Line branch: two colour changes, one rotation at the grandparent, and the
follow-up call stops at the entry guard. -/
theorem fix_line {h : Heap V} {f1 f2 : Frame V} {rest : List (Frame V)} {t : PTree V}
    {na : Nat}
    (hr : Rep h none (plug (f1 :: f2 :: rest) t)) (hna : t.ptr = some na)
    (hnd : (plug (f1 :: f2 :: rest) t).addrs.Nodup)
    (hc : f1.c = Color.Red) (hu : f2.sib.rootColor ≠ Color.Red)
    (hl : f1.isLeft = f2.isLeft) (fuel : Nat) :
    ∃ h', Node.FixViolations (fuel + 2) h (some na) = .ok h' ∧
      Rep h' none (plug rest (lineStep h.length f1 f2 t)) ∧
      h'.length = h.length + 1 ∧
      (plug rest (lineStep h.length f1 f2 t)).addrs.Nodup := by
  obtain ⟨⟨htnd, hS1nd, hS2nd, hrnd⟩, ⟨hpg, hpt, hpS1, hpS2, hpr⟩, ⟨hgt, hgS1, hgS2, hgr⟩,
    ⟨htS1, htS2, htr⟩, ⟨hS12, hS1r, hS2r⟩⟩ := nodup_config hnd
  have hnat := mem_addrs_of_ptr hna
  have hGnd : (f2.fill (f1.fill t)).addrs.Nodup := by
    have := (@nodup_plug _ rest (f2.fill (f1.fill t))).1 hnd
    exact this.of_append_left
  have hGr : ∀ k ∈ ctxAddrs rest, k ∉ (f2.fill (f1.fill t)).addrs := by
    have := (@nodup_plug _ rest (f2.fill (f1.fill t))).1 hnd
    intro k hk hk'
    exact (List.nodup_append.1 this).2.2 hk' hk
  obtain ⟨pa, pc, pv, il1, S1⟩ := f1
  obtain ⟨ga, gc, gv, il2, S2⟩ := f2
  simp only at hc hu hl hpg hpt hpS1 hpS2 hpr hgt hgS1 hgS2 hgr htS1 htS2 hS12 hS1r hS2r hS1nd hS2nd
  subst hc hl
  rw [Rep_plug] at hr
  obtain ⟨⟨hp, hS1, hg, hS2, hrest⟩, ht⟩ := hr
  simp only [ctxPtr_cons, hna] at hp hg hS1 hS2 hrest ht
  have hnp : na ≠ pa := fun e => hpt (e ▸ hnat)
  have hng : na ≠ ga := fun e => hgt (e ▸ hnat)
  have hS1n : S1.ptr ≠ some na := ptr_ne_of_not_mem (fun hm => htS1 hnat hm)
  have hS2p : S2.ptr ≠ some pa := ptr_ne_of_not_mem hpS2
  obtain ⟨nd, hn, hndp⟩ : ∃ nd, h[na]? = some nd ∧ nd.p = some pa := by
    cases t with
    | nil => simp at hna
    | node a nc nl nv nr =>
      simp only [PTree.ptr_node, Option.some.injEq] at hna
      subst hna
      exact ⟨_, ht.1, rfl⟩
  -- n.p.Recolor()
  obtain ⟨h1, e1, l1, f1⟩ := Recolor_spec hp
  dsimp only at f1
  have h1n := f1 na; rw [if_neg hnp, hn] at h1n
  have h1p := f1 pa; rw [if_pos rfl] at h1p
  have h1g := f1 ga; rw [if_neg (Ne.symm hpg), hg] at h1g
  -- n.p.p.Recolor()
  obtain ⟨h2, e2, l2, f2⟩ := Recolor_spec h1g
  dsimp only at f2
  have h2n := f2 na; rw [if_neg hng, h1n] at h2n
  have h2p := f2 pa; rw [if_neg hpg, h1p] at h2p
  have h2g := f2 ga; rw [if_pos rfl] at h2g
  have F : ∀ k, k ≠ pa → k ≠ ga → h2[k]? = h[k]? := by
    intro k k1 k2
    rw [f2, if_neg k2, f1, if_neg k1]
  have FR : ∀ {X : PTree V} {q : Ptr}, Rep h q X → pa ∉ X.addrs → ga ∉ X.addrs →
      Rep h2 q X := by
    intro X q hX x1 x2
    exact hX.congr (fun k hk => F k (fun e => x1 (e ▸ hk)) (fun e => x2 (e ▸ hk)))
  -- the recoloured subtree below the grandparent
  have hG2 : Rep h2 (ctxPtr rest)
      (({ a := ga, c := gc.recolor, v := gv, isLeft := il1, sib := S2 } : Frame V).fill
        (({ a := pa, c := Color.Red.recolor, v := pv, isLeft := il1, sib := S1 } : Frame V).fill
          t)) := by
    rw [Rep_fill]
    simp only [Frame.fill_ptr]
    refine ⟨h2g, FR hS2 hpS2 hgS2, ?_⟩
    rw [Rep_fill]
    dsimp only
    rw [hna]
    exact ⟨h2p, FR hS1 hpS1 hgS1, FR ht hpt hgt⟩
  obtain ⟨l, r, hX⟩ := Frame.fill_node
    ({ a := pa, c := Color.Red.recolor, v := pv, isLeft := il1, sib := S1 } : Frame V) t
  dsimp only at hX
  have hGaddrs : (({ a := ga, c := gc.recolor, v := gv, isLeft := il1, sib := S2 } : Frame V).fill
        (({ a := pa, c := Color.Red.recolor, v := pv, isLeft := il1, sib := S1 } : Frame V).fill
          t)).addrs = (({ a := ga, c := gc, v := gv, isLeft := il1, sib := S2 } : Frame V).fill
        (({ a := pa, c := Color.Red, v := pv, isLeft := il1, sib := S1 } : Frame V).fill
          t)).addrs := by
    cases il1 <;> simp [Frame.fill, PTree.addrs]
  have hGnd2 := hGnd
  rw [← hGaddrs] at hGnd2
  rw [hX] at hG2 hGnd2 hGaddrs
  obtain ⟨h3, e3, hG3, l3, f3⟩ := rot_child_spec _ _ _ _ _ _ hG2 hGnd2
  dsimp only at e3
  rw [hGaddrs] at f3
  -- the tree after the rotation
  have hline : lineStep h.length { a := pa, c := Color.Red, v := pv, isLeft := il1, sib := S1 }
      { a := ga, c := gc, v := gv, isLeft := il1, sib := S2 } t =
      (({ a := ga, c := gc.recolor, v := gv, isLeft := il1, sib := S2 } : Frame V).rotUp
        (.node pa Color.Red.recolor l pv r)).fill
      (({ a := ga, c := gc.recolor, v := gv, isLeft := il1, sib := S2 } : Frame V).rotDown
        h.length (.node pa Color.Red.recolor l pv r)) := by
    unfold lineStep
    dsimp only
    rw [hX, ← rot_fill]
  have hlen : h2.length = h.length := by omega
  rw [hlen] at hG3
  have hrest3 : RepCtx h3 rest (some ga) := by
    refine hrest.congrCtx (fun k hk => ?_)
    rw [f3 k (by rw [hlen]; exact hrest.ltCtx k hk) (hGr k hk)]
    exact F k (fun e => hpr (e ▸ hk)) (fun e => hgr (e ▸ hk))
  have hfinal : Rep h3 none (plug
      ((({ a := ga, c := gc.recolor, v := gv, isLeft := il1, sib := S2 } : Frame V).rotUp
        (.node pa Color.Red.recolor l pv r)) :: rest)
      (({ a := ga, c := gc.recolor, v := gv, isLeft := il1, sib := S2 } : Frame V).rotDown
        h.length (.node pa Color.Red.recolor l pv r))) := by
    simp only [plug]
    rw [Rep_plug]
    simp only [Frame.fill_ptr]
    exact ⟨hrest3, hG3⟩
  have hexit := @fix_exit _ _ _ _ h.length hfinal (by cases il1 <;> simp [Frame.rotDown])
    (by
      intro a b c habc
      simp only [List.cons.injEq] at habc
      rw [← habc.1]
      simp [Frame.rotUp, Color.recolor]) fuel
  have hm : load h3 (some ga) = .ok
      { val := pv, color := Color.Red.recolor, p := ctxPtr rest,
        left := if il1 then l.ptr else some h.length,
        right := if il1 then some h.length else r.ptr } := by
    rw [Rep_fill] at hG3
    have h3g := hG3.1
    cases il1 <;> simp [Frame.rotUp, Frame.rotDown] at h3g <;> simp [load_some h3g]
  have hndfinal : (plug rest (lineStep h.length
      { a := pa, c := Color.Red, v := pv, isLeft := il1, sib := S1 }
      { a := ga, c := gc, v := gv, isLeft := il1, sib := S2 } t)).addrs.Nodup := by
    rw [hline]
    refine @nodup_plug_rot _ _
      ({ a := ga, c := gc.recolor, v := gv, isLeft := il1, sib := S2 } : Frame V) rest
      _ _ _ _ _ ?_ ?_
    · show (plug rest (({ a := ga, c := gc.recolor, v := gv, isLeft := il1, sib := S2 } :
        Frame V).fill (.node pa Color.Red.recolor l pv r))).addrs.Nodup
      rw [nodup_plug, hGaddrs]
      exact nodup_plug.1 hnd
    · intro k hk
      have hk' := (plug_addrs_perm rest _).subset hk
      rcases List.mem_append.1 hk' with hk' | hk'
      · have := hG2.lt k hk'
        omega
      · exact hrest.ltCtx k hk'
  refine ⟨h3, ?_, ?_, by omega, hndfinal⟩
  · have hU := Uncle_spec hn hp hg hndp rfl
    dsimp only at hU
    rw [other_child hS2p] at hU
    have hRel : (decide ((if il1 = true then some na else S1.ptr) = some na) =
        decide ((if il1 = true then some pa else S2.ptr) = some pa)) := by
      cases il1 <;> simp [hS1n, hS2p]
    rw [if_pos hRel] at hU
    have hRU := redUncle_false hS2 hu
    have hside : ((if il1 = true then some na else S1.ptr) = some na) ↔ il1 = true :=
      side_eq hS1n
    simp only [ne_eq, pure_eq_ok] at hRU hU
    rw [Node.FixViolations]
    simp only [load_some hn, bind_ok, hndp, reduceCtorEq, if_false,
      load_some hp, ne_eq, not_true_eq_false, hU, hRU, pure_eq_ok, e1, load_some h1n,
      load_some h1p, e2, load_some h2n, load_some h2p, Bool.false_eq_true, hside]
    cases il1
    · simp only [Bool.false_eq_true, if_false] at e3 hm ⊢
      simp only [e3, bind_ok, hm]
      exact hexit
    · simp only [if_true] at e3 hm ⊢
      simp only [e3, bind_ok, hm]
      exact hexit
  · rw [hline]
    simpa only [plug] using hfinal

end RedBlack

namespace RedBlack

variable {V : Type}

/-- The Triangle branch: one rotation at the parent, away from the node's side, and
nothing else; then the fixup looks again from the fresh record. -/
theorem fix_tri_rot {h : Heap V} {f1 f2 : Frame V} {rest : List (Frame V)} {na : Nat}
    {nc : Color} {nl : PTree V} {nv : V} {nr : PTree V}
    (hr : Rep h none (plug (f1 :: f2 :: rest) (.node na nc nl nv nr)))
    (hnd : (plug (f1 :: f2 :: rest) (.node na nc nl nv nr)).addrs.Nodup)
    (hc : f1.c = Color.Red) (hu : f2.sib.rootColor ≠ Color.Red)
    (hl : f1.isLeft ≠ f2.isLeft) (fuel : Nat) :
    ∃ h', Node.FixViolations (fuel + 1) h (some na) =
        Node.FixViolations fuel h' (some h.length) ∧
      Rep h' none (plug (f1.rotUp (.node na nc nl nv nr) :: f2 :: rest)
        (f1.rotDown h.length (.node na nc nl nv nr))) ∧
      h'.length = h.length + 1 ∧
      (if f1.isLeft then Node.RightRotate h (some f1.a) else Node.LeftRotate h (some f1.a))
        = .ok h' := by
  obtain ⟨⟨htnd, hS1nd, hS2nd, hrnd⟩, ⟨hpg, hpt, hpS1, hpS2, hpr⟩, ⟨hgt, hgS1, hgS2, hgr⟩,
    ⟨htS1, htS2, htr⟩, ⟨hS12, hS1r, hS2r⟩⟩ := nodup_config hnd
  have hnat : na ∈ (PTree.node na nc nl nv nr).addrs := by simp [PTree.addrs]
  have hGnd : (f1.fill (.node na nc nl nv nr)).addrs.Nodup := by
    have := (@nodup_plug _ (f2 :: rest) (f1.fill (.node na nc nl nv nr))).1 hnd
    exact this.of_append_left
  have hGr : ∀ k ∈ ctxAddrs (f2 :: rest), k ∉ (f1.fill (.node na nc nl nv nr)).addrs := by
    have := (@nodup_plug _ (f2 :: rest) (f1.fill (.node na nc nl nv nr))).1 hnd
    intro k hk hk'
    exact (List.nodup_append.1 this).2.2 hk' hk
  have hr' : Rep h none (plug (f2 :: rest) (f1.fill (.node na nc nl nv nr))) := hr
  rw [Rep_plug] at hr hr'
  obtain ⟨hctx2, hG⟩ := hr'
  simp only [ctxPtr_cons, Frame.fill_ptr] at hctx2 hG
  obtain ⟨⟨hp, hS1, hg, hS2, hrest⟩, ht⟩ := hr
  simp only [ctxPtr_cons, PTree.ptr_node] at hp hg hS1 hS2 hrest ht
  have hn := ht.1
  have hS1n : f1.sib.ptr ≠ some na := ptr_ne_of_not_mem (fun hm => htS1 hnat hm)
  have hS2p : f2.sib.ptr ≠ some f1.a := ptr_ne_of_not_mem hpS2
  -- rotateNode.RightRotate() or rotateNode.LeftRotate()
  obtain ⟨h1, e1, hG1, l1, fr1⟩ := rot_child_spec f1 na nc nl nv nr hG hGnd
  have hctx1 : RepCtx h1 (f2 :: rest) (some f1.a) :=
    hctx2.congrCtx (fun k hk => fr1 k (hctx2.ltCtx k hk) (hGr k hk))
  have hfinal : Rep h1 none (plug (f1.rotUp (.node na nc nl nv nr) :: f2 :: rest)
      (f1.rotDown h.length (.node na nc nl nv nr))) := by
    show Rep h1 none (plug (f2 :: rest) ((f1.rotUp (.node na nc nl nv nr)).fill
      (f1.rotDown h.length (.node na nc nl nv nr))))
    rw [Rep_plug]
    simp only [Frame.fill_ptr, ctxPtr_cons]
    exact ⟨hctx1, hG1⟩
  have hm : ∃ xd, load h1 (some f1.a) = .ok xd ∧
      (if f1.isLeft then xd.right else xd.left) = some h.length := by
    rw [Rep_fill] at hG1
    have h1p := hG1.1
    refine ⟨_, load_some h1p, ?_⟩
    cases hil : f1.isLeft <;> simp [Frame.rotUp, Frame.rotDown, hil]
  obtain ⟨xd, hxd, hxm⟩ := hm
  refine ⟨h1, ?_, hfinal, l1, e1⟩
  have hU := Uncle_spec hn hp hg rfl rfl
  dsimp only at hU
  rw [other_child hS2p] at hU
  have hRel : ¬ (decide ((if f1.isLeft = true then some na else f1.sib.ptr) = some na) =
      decide ((if f2.isLeft = true then some f1.a else f2.sib.ptr) = some f1.a)) := by
    revert hl
    cases f1.isLeft <;> cases f2.isLeft <;> simp [hS1n, hS2p]
  rw [if_neg hRel] at hU
  have hRU := redUncle_false hS2 hu
  have hside : ((if f1.isLeft = true then some na else f1.sib.ptr) = some na) ↔
      f1.isLeft = true := side_eq hS1n
  simp only [ne_eq, pure_eq_ok] at hRU hU
  rw [Node.FixViolations]
  simp only [load_some hn, bind_ok, reduceCtorEq, if_false, load_some hp, hc, ne_eq,
    not_true_eq_false, hU, hRU, pure_eq_ok, Bool.false_eq_true, if_true, hside]
  cases hil : f1.isLeft
  · simp only [hil, Bool.false_eq_true, if_false] at e1 hxm ⊢
    simp only [e1, bind_ok, hxd, hxm]
  · simp only [hil, if_true] at e1 hxm ⊢
    simp only [e1, bind_ok, hxd, hxm]

/-- The Triangle branch: one rotation at the parent, then the fixup looks again from
the fresh record. -/
theorem fix_tri_step {h : Heap V} {f1 f2 : Frame V} {rest : List (Frame V)} {na : Nat}
    {nc : Color} {nl : PTree V} {nv : V} {nr : PTree V}
    (hr : Rep h none (plug (f1 :: f2 :: rest) (.node na nc nl nv nr)))
    (hnd : (plug (f1 :: f2 :: rest) (.node na nc nl nv nr)).addrs.Nodup)
    (hc : f1.c = Color.Red) (hu : f2.sib.rootColor ≠ Color.Red)
    (hl : f1.isLeft ≠ f2.isLeft) (fuel : Nat) :
    ∃ h', Node.FixViolations (fuel + 1) h (some na) =
        Node.FixViolations fuel h' (some h.length) ∧
      Rep h' none (plug (f1.rotUp (.node na nc nl nv nr) :: f2 :: rest)
        (f1.rotDown h.length (.node na nc nl nv nr))) ∧
      h'.length = h.length + 1 := by
  obtain ⟨h', e, hr', l, _⟩ := fix_tri_rot hr hnd hc hu hl fuel
  exact ⟨h', e, hr', l⟩

end RedBlack

namespace RedBlack

variable {V : Type}

theorem fixF_nil (m : Nat) (t : PTree V) : fixF m [] t = plug [] t := by
  simp [fixF]

theorem fixF_single (m : Nat) (f : Frame V) (t : PTree V) : fixF m [f] t = plug [f] t := by
  simp [fixF]

/-- The fixup on memory computes `fixF`: it ends without a fault, and the memory then
holds the tree that `fixF` gives. -/
theorem fix_refines : ∀ (ctx : List (Frame V)) (t : PTree V) (na : Nat) (h : Heap V)
    (fuel : Nat), Rep h none (plug ctx t) → t.ptr = some na → (plug ctx t).addrs.Nodup →
    ctx.length + 3 ≤ fuel →
    ∃ h', Node.FixViolations fuel h (some na) = .ok h' ∧
      Rep h' none (fixF h.length ctx t) ∧ h.length ≤ h'.length ∧
      (fixF h.length ctx t).addrs.Nodup
  | [], t, na, h, fuel, hr, hna, hnd, hf => by
    obtain ⟨fuel, rfl⟩ : ∃ k, fuel = k + 1 := ⟨fuel - 1, by simp at hf; omega⟩
    exact ⟨h, fix_exit hr hna (by intro a b c e; cases e) fuel, by rw [fixF_nil]; exact hr,
      le_refl _, by rw [fixF_nil]; exact hnd⟩
  | [f], t, na, h, fuel, hr, hna, hnd, hf => by
    obtain ⟨fuel, rfl⟩ : ∃ k, fuel = k + 1 := ⟨fuel - 1, by simp at hf; omega⟩
    exact ⟨h, fix_exit hr hna (by intro a b c e; cases e) fuel, by rw [fixF_single]; exact hr,
      le_refl _, by rw [fixF_single]; exact hnd⟩
  | f1 :: f2 :: rest, t, na, h, fuel, hr, hna, hnd, hf => by
    simp only [List.length_cons] at hf
    obtain ⟨fuel, rfl⟩ : ∃ k, fuel = k + 3 := ⟨fuel - 3, by omega⟩
    by_cases hc : f1.c = Color.Red
    swap
    · refine ⟨h, fix_exit hr hna ?_ (fuel + 2), ?_, le_refl _, ?_⟩
      · intro a b c e
        simp only [List.cons.injEq] at e
        rw [← e.1]; exact hc
      · rw [fixF, if_pos hc]; exact hr
      · rw [fixF, if_pos hc]; exact hnd
    by_cases hu : f2.sib.rootColor = Color.Red
    · -- Uncle Red
      obtain ⟨h1, e1, hr1, l1⟩ := fix_red_step hr hna hnd hc hu (fuel + 2)
      have hnd1 : (plug rest
          (({ f2 with c := f2.c.recolor, sib := f2.sib.blacken } : Frame V).fill
            (({ f1 with c := f1.c.recolor } : Frame V).fill t))).addrs.Nodup := by
        have hnd' : (plug rest (f2.fill (f1.fill t))).addrs.Nodup := hnd
        rw [nodup_plug] at hnd' ⊢
        have hEq : (({ f2 with c := f2.c.recolor, sib := f2.sib.blacken } : Frame V).fill
            (({ f1 with c := f1.c.recolor } : Frame V).fill t)).addrs =
            (f2.fill (f1.fill t)).addrs := by
          unfold Frame.fill
          cases f1.isLeft <;> cases f2.isLeft <;> simp [PTree.addrs, PTree.blacken_addrs]
        rw [hEq]
        exact hnd'
      obtain ⟨h2, e2, hr2, l2, hnd2⟩ := fix_refines rest _ f2.a h1 (fuel + 2) hr1
        (Frame.fill_ptr _ _) hnd1 (by omega)
      refine ⟨h2, by rw [e1]; exact e2, ?_, by omega, ?_⟩
      · rw [fixF, if_neg (not_not.2 hc), if_pos hu, ← l1]
        exact hr2
      · rw [fixF, if_neg (not_not.2 hc), if_pos hu, ← l1]
        exact hnd2
    by_cases hl : f1.isLeft = f2.isLeft
    · -- Uncle Black, Line
      obtain ⟨h1, e1, hr1, l1, hnd1⟩ := fix_line hr hna hnd hc hu hl (fuel + 1)
      refine ⟨h1, e1, ?_, by omega, ?_⟩
      · rw [fixF, if_neg (not_not.2 hc), if_neg hu, if_pos hl]
        exact hr1
      · rw [fixF, if_neg (not_not.2 hc), if_neg hu, if_pos hl]
        exact hnd1
    · -- Uncle Black, Triangle
      cases t with
      | nil => simp at hna
      | node a nc nl nv nr =>
        simp only [PTree.ptr_node, Option.some.injEq] at hna
        subst hna
        have hlt : ∀ k ∈ (plug (f1 :: f2 :: rest) (.node a nc nl nv nr)).addrs, k < h.length :=
          hr.lt
        obtain ⟨h1, e1, hr1, l1⟩ := fix_tri_step hr hnd hc hu hl (fuel + 2)
        have hnd1 := nodup_plug_rot hnd hlt
        have hptr : (f1.rotDown h.length (.node a nc nl nv nr)).ptr = some h.length := by
          simp only [Frame.rotDown]; split <;> rfl
        rw [fixF, if_neg (not_not.2 hc), if_neg hu, if_neg hl]
        dsimp only
        by_cases hc' : (f1.rotUp (.node a nc nl nv nr)).c = Color.Red
        · have hl' : (f1.rotUp (.node a nc nl nv nr)).isLeft = f2.isLeft := by
            simp only [Frame.rotUp]
            revert hl
            cases f1.isLeft <;> cases f2.isLeft <;> simp
          obtain ⟨h2, e2, hr2, l2, hnd2⟩ := fix_line hr1 hptr hnd1 hc' hu hl' fuel
          refine ⟨h2, by rw [e1]; exact e2, ?_, by omega, ?_⟩
          · rw [if_neg (not_not.2 hc'), ← l1]
            exact hr2
          · rw [if_neg (not_not.2 hc'), ← l1]
            exact hnd2
        · refine ⟨h1, ?_, ?_, by omega, ?_⟩
          · rw [e1]
            refine fix_exit hr1 hptr ?_ (fuel + 1)
            intro x y z e
            simp only [List.cons.injEq] at e
            rw [← e.1]; exact hc'
          · rw [if_pos hc']
            exact hr1
          · rw [if_pos hc']
            exact hnd1

end RedBlack

namespace RedBlack

variable {V : Type}

/-- Linking a fresh Red leaf below a node that has no child on that side. -/
theorem attach_leaf {h : Heap V} {ctx : List (Frame V)} {f : Frame V} (v : V)
    (hr : Rep h none (plug ctx (f.fill .nil)))
    (hnd : (plug ctx (f.fill .nil)).addrs.Nodup) :
    ∃ h', (if f.isLeft then
          setLeft (alloc h (Node.mk v Color.Red (some f.a) none none)).1 (some f.a) (some h.length)
        else
          setRight (alloc h (Node.mk v Color.Red (some f.a) none none)).1 (some f.a) (some h.length)) = .ok h' ∧
      Rep h' none (plug (f :: ctx) (.node h.length Color.Red .nil v .nil)) ∧
      (plug (f :: ctx) (.node h.length Color.Red .nil v .nil)).addrs.Nodup ∧
      h'.length = h.length + 1 ∧
      (∃ nd, load h' (some f.a) = .ok nd ∧
        (if f.isLeft then nd.left else nd.right) = some h.length) := by
  have hlt := hr.lt
  rw [Rep_plug, Rep_fill] at hr
  obtain ⟨hctx, hp, hS, -⟩ := hr
  simp only [Frame.fill_ptr, PTree.ptr_nil] at hctx hp
  obtain ⟨g1, e1, l1, f1⟩ := alloc_spec h
    ({ val := v, color := Color.Red, p := some f.a, left := none, right := none } : Node V)
  have hplt := lt_of_get hp
  have g1p := f1 f.a; rw [if_neg (Nat.ne_of_lt hplt), hp] at g1p
  have hndp := nodup_plug.1 hnd
  have hperm := plug_addrs_perm ctx (f.fill .nil)
  have hfa : (f.fill (.nil : PTree V)).addrs = f.a :: f.sib.addrs := by
    unfold Frame.fill; split <;> simp [PTree.addrs]
  rw [hfa] at hndp
  simp only [List.cons_append, List.nodup_cons, List.mem_append, not_or, List.nodup_append]
    at hndp
  obtain ⟨⟨hpS, hpC⟩, hSnd, hCnd, hSC⟩ := hndp
  have hmlt : ∀ k, k ∈ f.sib.addrs ∨ k ∈ ctxAddrs ctx → k < h.length := by
    intro k hk
    apply hlt k
    apply hperm.symm.subset
    rw [hfa]
    simp only [List.cons_append, List.mem_cons, List.mem_append]
    tauto
  have key : ∀ g2 : Heap V, (∀ k, g2[k]? = if k = f.a then
        some (Node.mk f.v f.c (ctxPtr ctx) (if f.isLeft then some h.length else f.sib.ptr)
          (if f.isLeft then f.sib.ptr else some h.length)) else g1[k]?) →
      g2.length = g1.length →
      Rep g2 none (plug (f :: ctx) (.node h.length Color.Red .nil v .nil)) ∧
      (∃ nd, load g2 (some f.a) = .ok nd ∧
        (if f.isLeft then nd.left else nd.right) = some h.length) := by
    intro g2 f2 l2
    have F : ∀ k, k ≠ f.a → k < h.length → g2[k]? = h[k]? := by
      intro k k1 k2
      rw [f2, if_neg k1, f1, if_neg (Nat.ne_of_lt k2)]
    have g2p := f2 f.a; rw [if_pos rfl] at g2p
    refine ⟨?_, _, load_some g2p, by cases f.isLeft <;> rfl⟩
    show Rep g2 none (plug ctx (f.fill (.node h.length Color.Red .nil v .nil)))
    rw [Rep_plug, Rep_fill]
    simp only [Frame.fill_ptr, PTree.ptr_node]
    refine ⟨hctx.congrCtx (fun k hk => F k (fun e => hpC (e ▸ hk)) (hmlt k (Or.inr hk))), g2p,
      hS.congr (fun k hk => F k (fun e => hpS (e ▸ hk)) (hmlt k (Or.inl hk))), ?_, trivial,
      trivial⟩
    rw [f2, if_neg (Nat.ne_of_gt hplt), f1, if_pos rfl]
    rfl
  have hnd' : (plug (f :: ctx) (.node h.length Color.Red .nil v .nil)).addrs.Nodup := by
    rw [nodup_plug]
    simp only [PTree.addrs, ctxAddrs, List.append_nil, List.singleton_append, List.nodup_cons,
      List.mem_cons, List.mem_append, not_or, List.nodup_append]
    refine ⟨⟨Nat.ne_of_gt hplt, fun hk => absurd (hmlt _ (Or.inl hk)) (lt_irrefl _),
      fun hk => absurd (hmlt _ (Or.inr hk)) (lt_irrefl _)⟩, ⟨hpS, hpC⟩, hSnd, hCnd, hSC⟩
  cases hil : f.isLeft
  · obtain ⟨g2, e2, l2, f2⟩ := setRight_spec (some h.length) g1p
    simp only [hil, Bool.false_eq_true, if_false] at f2 key ⊢
    rw [e1]
    obtain ⟨k1, k2⟩ := key g2 f2 l2
    exact ⟨g2, e2, k1, hnd', by omega, k2⟩
  · obtain ⟨g2, e2, l2, f2⟩ := setLeft_spec (some h.length) g1p
    simp only [hil, if_true] at f2 key ⊢
    rw [e1]
    obtain ⟨k1, k2⟩ := key g2 f2 l2
    exact ⟨g2, e2, k1, hnd', by omega, k2⟩

end RedBlack

namespace RedBlack

variable {V : Type} [LinearOrder V]

theorem insF_node (m : Nat) (ctx : List (Frame V)) (a : Nat) (c : Color) (l : PTree V) (x : V)
    (r : PTree V) (v : V) :
    insF m ctx (.node a c l x r) v =
      if v = x then plug ctx (.node a c l x r)
      else if v > x then
        match r with
        | .nil =>
          fixF (m + 1) ({ a := a, c := c, v := x, isLeft := false, sib := l } :: ctx)
            (.node m Color.Red .nil v .nil)
        | .node ra rc rl rx rr =>
          insF m ({ a := a, c := c, v := x, isLeft := false, sib := l } :: ctx)
            (.node ra rc rl rx rr) v
      else
        match l with
        | .nil =>
          fixF (m + 1) ({ a := a, c := c, v := x, isLeft := true, sib := r } :: ctx)
            (.node m Color.Red .nil v .nil)
        | .node la lc ll lx lr =>
          insF m ({ a := a, c := c, v := x, isLeft := true, sib := r } :: ctx)
            (.node la lc ll lx lr) v := by
  conv_lhs => rw [insF.eq_def]

/-- `Node.Insert` on memory computes `insF`. -/
theorem ins_refines : ∀ (t : PTree V) (ctx : List (Frame V)) (h : Heap V) (v : V)
    (fix fuel na : Nat), Rep h none (plug ctx t) → t.ptr = some na →
    (plug ctx t).addrs.Nodup → ctx.length + t.height + 3 ≤ fix → t.height ≤ fuel →
    ∃ h', Node.Insert fix fuel h (some na) v = .ok h' ∧
      Rep h' none (insF h.length ctx t v) ∧ h.length ≤ h'.length ∧
      (insF h.length ctx t v).addrs.Nodup
  | .nil, _, _, _, _, _, _, _, hna, _, _, _ => by simp at hna
  | .node a c l x r, ctx, h, v, fix, fuel, na, hr, hna, hnd, hfix, hfuel => by
    simp only [PTree.ptr_node, Option.some.injEq] at hna
    subst hna
    simp only [PTree.height] at hfix hfuel
    obtain ⟨fuel, rfl⟩ : ∃ k, fuel = k + 1 := ⟨fuel - 1, by omega⟩
    have hn : h[a]? = some _ := ((Rep_plug ctx _).1 hr).2.1
    rw [Node.Insert]
    simp only [load_some hn, bind_ok]
    by_cases hvx : v = x
    · rw [if_pos hvx]
      exact ⟨h, rfl, by rw [insF_node, if_pos hvx]; exact hr, le_refl _,
        by rw [insF_node, if_pos hvx]; exact hnd⟩
    rw [if_neg hvx]
    by_cases hgt : v > x
    · rw [if_pos hgt]
      cases r with
      | nil =>
        simp only [PTree.ptr_nil, if_true]
        have hr' : Rep h none (plug ctx
            (({ a := a, c := c, v := x, isLeft := false, sib := l } : Frame V).fill .nil)) := hr
        obtain ⟨h1, e1, hr1, hnd1, l1, nd, hld, hnd2⟩ := attach_leaf v hr' hnd
        simp only [Bool.false_eq_true, if_false] at e1 hnd2
        obtain ⟨h2, e2, hr2, l2, hndF⟩ := fix_refines _ _ h.length h1 fix hr1 rfl hnd1
          (by simp only [List.length_cons]; omega)
        refine ⟨h2, ?_, ?_, by omega, ?_⟩
        rotate_right
        · rw [insF_node, if_neg hvx, if_pos hgt, ← l1]
          exact hndF
        · have ha : (alloc h (Node.mk v Color.Red (some a) none none)).2 = some h.length := rfl
          rw [ha]
          have e1' : setRight (alloc h (Node.mk v Color.Red (some a) none none)).1 (some a)
              (some h.length) = .ok h1 := e1
          rw [e1']
          simp only [bind_ok, hld, hnd2]
          exact e2
        · rw [insF_node, if_neg hvx, if_pos hgt, ← l1]
          exact hr2
      | node ra rc rl rx rr =>
        simp only [PTree.ptr_node, reduceCtorEq, if_false]
        have hr' : Rep h none (plug
            (({ a := a, c := c, v := x, isLeft := false, sib := l } : Frame V) :: ctx)
            (.node ra rc rl rx rr)) := hr
        obtain ⟨h1, e1, hr1, l1, hndI⟩ := ins_refines (.node ra rc rl rx rr)
          (({ a := a, c := c, v := x, isLeft := false, sib := l } : Frame V) :: ctx) h v fix
          fuel ra hr' rfl hnd
          (by simp only [List.length_cons]
              have := Nat.le_max_right l.height (PTree.node ra rc rl rx rr).height
              omega)
          (by have := Nat.le_max_right l.height (PTree.node ra rc rl rx rr).height
              omega)
        refine ⟨h1, e1, ?_, l1, ?_⟩
        · rw [insF_node, if_neg hvx, if_pos hgt]
          exact hr1
        · rw [insF_node, if_neg hvx, if_pos hgt]
          exact hndI
    · rw [if_neg hgt]
      cases l with
      | nil =>
        simp only [PTree.ptr_nil, if_true]
        have hr' : Rep h none (plug ctx
            (({ a := a, c := c, v := x, isLeft := true, sib := r } : Frame V).fill .nil)) := hr
        obtain ⟨h1, e1, hr1, hnd1, l1, nd, hld, hnd2⟩ := attach_leaf v hr' hnd
        simp only [if_true] at e1 hnd2
        obtain ⟨h2, e2, hr2, l2, hndF⟩ := fix_refines _ _ h.length h1 fix hr1 rfl hnd1
          (by simp only [List.length_cons]; omega)
        refine ⟨h2, ?_, ?_, by omega, ?_⟩
        rotate_right
        · rw [insF_node, if_neg hvx, if_neg hgt, ← l1]
          exact hndF
        · have ha : (alloc h (Node.mk v Color.Red (some a) none none)).2 = some h.length := rfl
          rw [ha]
          have e1' : setLeft (alloc h (Node.mk v Color.Red (some a) none none)).1 (some a)
              (some h.length) = .ok h1 := e1
          rw [e1']
          simp only [bind_ok, hld, hnd2]
          exact e2
        · rw [insF_node, if_neg hvx, if_neg hgt, ← l1]
          exact hr2
      | node la lc ll lx lr =>
        simp only [PTree.ptr_node, reduceCtorEq, if_false]
        have hr' : Rep h none (plug
            (({ a := a, c := c, v := x, isLeft := true, sib := r } : Frame V) :: ctx)
            (.node la lc ll lx lr)) := hr
        obtain ⟨h1, e1, hr1, l1, hndI⟩ := ins_refines (.node la lc ll lx lr)
          (({ a := a, c := c, v := x, isLeft := true, sib := r } : Frame V) :: ctx) h v fix
          fuel la hr' rfl hnd
          (by simp only [List.length_cons]
              have := Nat.le_max_left (PTree.node la lc ll lx lr).height r.height
              omega)
          (by have := Nat.le_max_left (PTree.node la lc ll lx lr).height r.height
              omega)
        refine ⟨h1, e1, ?_, l1, ?_⟩
        · rw [insF_node, if_neg hvx, if_neg hgt]
          exact hr1
        · rw [insF_node, if_neg hvx, if_neg hgt]
          exact hndI

end RedBlack

namespace RedBlack

variable {V : Type}

/-! ## The fixup as a function: root address and in-order values -/

@[simp]
theorem PTree.moveTo_toList (b : Nat) (t : PTree V) : (t.moveTo b).toList = t.toList := by
  cases t <;> rfl

@[simp]
theorem PTree.moveTo_blackCount (b : Nat) (t : PTree V) :
    (t.moveTo b).blackCount = t.blackCount := by
  cases t <;> rfl

@[simp]
theorem PTree.moveTo_rootColor (b : Nat) (t : PTree V) :
    (t.moveTo b).rootColor = t.rootColor := by
  cases t <;> rfl

@[simp]
theorem PTree.moveTo_balanced (b : Nat) (t : PTree V) :
    (t.moveTo b).Balanced ↔ t.Balanced := by
  cases t <;> rfl

@[simp]
theorem PTree.moveTo_noRedRed (b : Nat) (t : PTree V) :
    (t.moveTo b).NoRedRed ↔ t.NoRedRed := by
  cases t <;> rfl

@[simp]
theorem PTree.blacken_toList (t : PTree V) : t.blacken.toList = t.toList := by
  cases t <;> rfl

@[simp]
theorem PTree.rotL_ptr (m : Nat) (t : PTree V) : (t.rotL m).ptr = t.ptr := by
  unfold PTree.rotL; split <;> rfl

@[simp]
theorem PTree.rotR_ptr (m : Nat) (t : PTree V) : (t.rotR m).ptr = t.ptr := by
  unfold PTree.rotR; split <;> rfl

@[simp]
theorem PTree.rotL_toList (m : Nat) (t : PTree V) : (t.rotL m).toList = t.toList := by
  unfold PTree.rotL; split <;> simp [PTree.toList]

@[simp]
theorem PTree.rotR_toList (m : Nat) (t : PTree V) : (t.rotR m).toList = t.toList := by
  unfold PTree.rotR; split <;> simp [PTree.toList]

theorem Frame.fill_toList (f : Frame V) (t : PTree V) :
    (f.fill t).toList =
      if f.isLeft then t.toList ++ f.v :: f.sib.toList else f.sib.toList ++ f.v :: t.toList := by
  unfold Frame.fill; split <;> rfl

theorem plug_ptr_congr : ∀ (ctx : List (Frame V)) {t t' : PTree V}, t.ptr = t'.ptr →
    (plug ctx t).ptr = (plug ctx t').ptr
  | [], _, _, h => h
  | f :: fs, t, t', _ => by
    simp only [plug]
    exact plug_ptr_congr fs (by simp)

theorem plug_toList_congr : ∀ (ctx : List (Frame V)) {t t' : PTree V}, t.toList = t'.toList →
    (plug ctx t).toList = (plug ctx t').toList
  | [], _, _, h => h
  | f :: fs, t, t', h => by
    simp only [plug]
    exact plug_toList_congr fs (by simp [Frame.fill_toList, h])

@[simp]
theorem lineStep_ptr (m : Nat) (f1 f2 : Frame V) (t : PTree V) :
    (lineStep m f1 f2 t).ptr = some f2.a := by
  unfold lineStep
  dsimp only
  split <;> simp

theorem lineStep_toList (m : Nat) (f1 f2 : Frame V) (t : PTree V) :
    (lineStep m f1 f2 t).toList = (f2.fill (f1.fill t)).toList := by
  unfold lineStep
  dsimp only
  split <;> simp [Frame.fill_toList]

theorem rot_toList (m : Nat) (f : Frame V) (t : PTree V) :
    ((f.rotUp t).fill (f.rotDown m t)).toList = (f.fill t).toList := by
  cases t with
  | nil => cases hf : f.isLeft <;> simp [Frame.rotUp, Frame.rotDown, Frame.fill, hf, PTree.toList]
  | node na nc nl nv nr =>
    rw [← rot_fill]
    split <;> simp

@[simp]
theorem Frame.rotUp_a (f : Frame V) (t : PTree V) : (f.rotUp t).a = f.a := by
  cases t <;> rfl

theorem fixF_ptr (m : Nat) (ctx : List (Frame V)) (t : PTree V) :
    (fixF m ctx t).ptr = (plug ctx t).ptr := by
  induction ctx, t using fixF.induct m with
  | case1 f1 f2 rest t hc => rw [fixF, if_pos hc]
  | case2 f1 f2 rest t hc hu ih =>
    rw [fixF, if_neg hc, if_pos hu, ih]
    exact plug_ptr_congr rest (by simp)
  | case3 f1 f2 rest t hc hu hl =>
    rw [fixF, if_neg hc, if_neg hu, if_pos hl]
    exact plug_ptr_congr rest (by simp)
  | case4 f1 f2 rest t hc hu hl f1' hc' =>
    rw [fixF, if_neg hc, if_neg hu, if_neg hl]
    dsimp only
    rw [if_pos hc']
    exact plug_ptr_congr rest (by simp [f1'])
  | case5 f1 f2 rest t hc hu hl f1' hc' =>
    rw [fixF, if_neg hc, if_neg hu, if_neg hl]
    dsimp only
    rw [if_neg hc']
    exact plug_ptr_congr rest (by simp)
  | case6 ctx t hctx =>
    rw [fixF]
    intro f1 f2 rest e
    exact hctx f1 f2 rest e

theorem fixF_toList (m : Nat) (ctx : List (Frame V)) (t : PTree V) :
    (fixF m ctx t).toList = (plug ctx t).toList := by
  induction ctx, t using fixF.induct m with
  | case1 f1 f2 rest t hc => rw [fixF, if_pos hc]
  | case2 f1 f2 rest t hc hu ih =>
    rw [fixF, if_neg hc, if_pos hu, ih]
    exact plug_toList_congr rest (by simp [Frame.fill_toList])
  | case3 f1 f2 rest t hc hu hl =>
    rw [fixF, if_neg hc, if_neg hu, if_pos hl]
    exact plug_toList_congr rest (lineStep_toList _ _ _ _)
  | case4 f1 f2 rest t hc hu hl f1' hc' =>
    rw [fixF, if_neg hc, if_neg hu, if_neg hl]
    dsimp only
    rw [if_pos hc']
    exact plug_toList_congr (f2 :: rest) (rot_toList _ _ _)
  | case5 f1 f2 rest t hc hu hl f1' hc' =>
    rw [fixF, if_neg hc, if_neg hu, if_neg hl]
    dsimp only
    rw [if_neg hc']
    refine plug_toList_congr rest ?_
    rw [lineStep_toList, Frame.fill_toList f2, Frame.fill_toList f2, rot_toList]
  | case6 ctx t hctx =>
    rw [fixF]
    intro f1 f2 rest e
    exact hctx f1 f2 rest e

end RedBlack

namespace RedBlack

variable {V : Type}

/-! ## The fixup as a function: colours and black counts -/

theorem Color.ne_red {c : Color} : c ≠ Color.Red ↔ c = Color.Black := by
  cases c <;> simp

theorem Color.ne_black {c : Color} : c ≠ Color.Black ↔ c = Color.Red := by
  cases c <;> simp

@[simp]
theorem PTree.rootColor_node (a : Nat) (c : Color) (l : PTree V) (v : V)
    (r : PTree V) : (PTree.node a c l v r).rootColor = c := rfl

@[simp]
theorem Frame.fill_rootColor (f : Frame V) (t : PTree V) :
    (f.fill t).rootColor = f.c := by
  unfold Frame.fill; split <;> rfl

theorem Frame.fill_balanced (f : Frame V) (t : PTree V) :
    (f.fill t).Balanced ↔ f.sib.blackCount = t.blackCount ∧ f.sib.Balanced ∧ t.Balanced := by
  unfold Frame.fill
  split
  · simp only [PTree.Balanced]
    constructor
    · rintro ⟨h1, h2, h3⟩; exact ⟨h1.symm, h3, h2⟩
    · rintro ⟨h1, h2, h3⟩; exact ⟨h1.symm, h3, h2⟩
  · simp only [PTree.Balanced]

theorem Frame.fill_blackCount (f : Frame V) (t : PTree V)
    (h : f.sib.blackCount = t.blackCount) :
    (f.fill t).blackCount = t.blackCount + (if f.c = Color.Black then 1 else 0) := by
  unfold Frame.fill
  split <;> simp [PTree.blackCount, h]

theorem Frame.fill_noRedRed (f : Frame V) (t : PTree V) :
    (f.fill t).NoRedRed ↔
      (f.c = Color.Red → t.rootColor = Color.Black ∧ f.sib.rootColor = Color.Black) ∧
      t.NoRedRed ∧ f.sib.NoRedRed := by
  unfold Frame.fill
  split
  · simp only [PTree.NoRedRed]
  · simp only [PTree.NoRedRed]
    tauto

theorem plug_balanced : ∀ (ctx : List (Frame V)) (t : PTree V),
    (plug ctx t).Balanced ↔ t.Balanced ∧ ctxBalanced ctx t.blackCount
  | [], t => by simp [plug, ctxBalanced]
  | f :: fs, t => by
    simp only [plug, ctxBalanced]
    rw [plug_balanced fs (f.fill t), Frame.fill_balanced]
    constructor
    · rintro ⟨⟨h1, h2, h3⟩, h4⟩
      rw [Frame.fill_blackCount f t h1] at h4
      exact ⟨h3, h1, h2, h4⟩
    · rintro ⟨h3, h1, h2, h4⟩
      rw [← Frame.fill_blackCount f t h1] at h4
      exact ⟨⟨h1, h2, h3⟩, h4⟩

theorem plug_noRedRed : ∀ (ctx : List (Frame V)) (t : PTree V),
    (plug ctx t).NoRedRed ↔
      t.NoRedRed ∧ ctxNoRedRed ctx ∧ (t.rootColor = Color.Red → ctxColor ctx = Color.Black)
  | [], t => by simp [plug, ctxNoRedRed, ctxColor]
  | f :: fs, t => by
    simp only [plug, ctxNoRedRed, ctxColor]
    rw [plug_noRedRed fs (f.fill t), Frame.fill_noRedRed, Frame.fill_rootColor]
    have hd : ∀ c : Color, c = Color.Red ∨ c = Color.Black := by intro c; cases c <;> simp
    rcases hd f.c with hc | hc <;> rcases hd t.rootColor with ht | ht <;>
      simp [hc, ht] <;> tauto

theorem ctxRootBlack_tail {f1 f2 : Frame V} {rest : List (Frame V)}
    (h : ctxRootBlack (f1 :: f2 :: rest)) : ctxRootBlack rest := by
  simp only [ctxRootBlack] at h
  cases rest with
  | nil => trivial
  | cons f3 fs => exact h

/-- What the Line step produces, in the configuration in which the fixup takes it. -/
theorem lineStep_inv (m : Nat) (f1 f2 : Frame V) (t : PTree V)
    (hc1 : f1.c = Color.Red) (hc2 : f2.c = Color.Black) (hl : f1.isLeft = f2.isLeft)
    (htc : t.rootColor = Color.Red) (htr : t.NoRedRed) (htb : t.Balanced)
    (h1c : f1.sib.rootColor = Color.Black) (h1r : f1.sib.NoRedRed) (h1b : f1.sib.Balanced)
    (h1k : f1.sib.blackCount = t.blackCount)
    (h2c : f2.sib.rootColor ≠ Color.Red) (h2r : f2.sib.NoRedRed) (h2b : f2.sib.Balanced)
    (h2k : f2.sib.blackCount = t.blackCount) :
    (lineStep m f1 f2 t).Balanced ∧ (lineStep m f1 f2 t).NoRedRed ∧
    (lineStep m f1 f2 t).rootColor = Color.Black ∧
    (lineStep m f1 f2 t).blackCount = t.blackCount + 1 := by
  obtain ⟨pa, pc, pv, il1, S1⟩ := f1
  obtain ⟨ga, gc, gv, il2, S2⟩ := f2
  simp only at hc1 hc2 hl h1c h1r h1b h1k h2c h2r h2b h2k
  subst hc1 hc2 hl
  rw [Color.ne_red] at h2c
  cases il1 <;>
    simp [lineStep, Frame.fill, PTree.rotL, PTree.rotR, Color.recolor, PTree.Balanced,
      PTree.NoRedRed, PTree.blackCount, htc, htr, htb, h1c, h1r, h1b, h1k,
      h2c, h2r, h2b, h2k]

end RedBlack

namespace RedBlack

variable {V : Type}

theorem PTree.blacken_rootColor (t : PTree V) : t.blacken.rootColor = Color.Black := by
  cases t <;> rfl

theorem PTree.blacken_noRedRed {t : PTree V} (h : t.NoRedRed) : t.blacken.NoRedRed := by
  cases t with
  | nil => trivial
  | node a c l v r => exact ⟨by simp, h.2.1, h.2.2⟩

theorem PTree.blacken_balanced {t : PTree V} (h : t.Balanced) : t.blacken.Balanced := by
  cases t with
  | nil => trivial
  | node a c l v r => exact h

theorem PTree.blacken_blackCount {t : PTree V} (h : t.rootColor = Color.Red) :
    t.blacken.blackCount = t.blackCount + 1 := by
  cases t with
  | nil => simp [PTree.rootColor] at h
  | node a c l v r =>
    simp only [PTree.rootColor_node] at h
    subst h
    simp [PTree.blacken, PTree.blackCount]

/-- The fixup keeps the black counts balanced and leaves no Red node with a Red child,
when it starts at a Red node that is the only possible offender. -/
theorem fixF_inv (m : Nat) (ctx : List (Frame V)) (t : PTree V) :
    t.rootColor = Color.Red → t.NoRedRed → t.Balanced → ctxBalanced ctx t.blackCount →
    ctxNoRedRed ctx → ctxRootBlack ctx →
    (fixF m ctx t).Balanced ∧ (fixF m ctx t).NoRedRed := by
  induction ctx, t using fixF.induct m with
  | case1 f1 f2 rest t hc =>
    intro htc htr htb hcb hcr _
    rw [fixF, if_pos hc]
    rw [plug_balanced, plug_noRedRed]
    exact ⟨⟨htb, hcb⟩, htr, hcr, fun _ => Color.ne_red.1 hc⟩
  | case2 f1 f2 rest t hc hu ih =>
    intro htc htr htb hcb hcr hrb
    rw [fixF, if_neg hc, if_pos hu]
    have hc1 : f1.c = Color.Red := not_not.1 hc
    obtain ⟨h1r, h1c, h2r, -, hrr⟩ := hcr
    obtain ⟨h1c, h2c⟩ := h1c hc1
    simp only [ctxColor] at h2c
    obtain ⟨h1k, h1b, h2k, h2b, hrk⟩ := hcb
    simp only [hc1, h2c, reduceCtorEq, if_false, if_true, Nat.add_zero] at h2k hrk
    apply ih
    · simp [h2c, Color.recolor]
    · rw [Frame.fill_noRedRed, Frame.fill_noRedRed]
      simp [hc1, Color.recolor, PTree.blacken_rootColor, htr, h1r, PTree.blacken_noRedRed h2r]
    · rw [Frame.fill_balanced, Frame.fill_balanced]
      dsimp only
      rw [Frame.fill_blackCount _ _ (by exact h1k), PTree.blacken_blackCount hu]
      simp [hc1, Color.recolor, h2k, h1k, h1b, htb, PTree.blacken_balanced h2b]
    · rw [Frame.fill_blackCount, Frame.fill_blackCount _ _ (by exact h1k)]
      · simpa [hc1, h2c, Color.recolor] using hrk
      · dsimp only
        rw [Frame.fill_blackCount _ _ (by exact h1k), PTree.blacken_blackCount hu]
        simp [hc1, Color.recolor, h2k]
    · exact hrr
    · exact ctxRootBlack_tail hrb
  | case3 f1 f2 rest t hc hu hl =>
    intro htc htr htb hcb hcr hrb
    rw [fixF, if_neg hc, if_neg hu, if_pos hl]
    have hc1 : f1.c = Color.Red := not_not.1 hc
    obtain ⟨h1r, h1c, h2r, -, hrr⟩ := hcr
    obtain ⟨h1c, h2c⟩ := h1c hc1
    simp only [ctxColor] at h2c
    obtain ⟨h1k, h1b, h2k, h2b, hrk⟩ := hcb
    simp only [hc1, h2c, reduceCtorEq, if_false, if_true, Nat.add_zero] at h2k hrk
    obtain ⟨lb, lr, lc, lk⟩ := lineStep_inv m f1 f2 t hc1 h2c hl htc htr htb h1c h1r h1b h1k
      hu h2r h2b h2k
    rw [plug_balanced, plug_noRedRed, lk, lc]
    exact ⟨⟨lb, hrk⟩, lr, hrr, by simp⟩
  | case4 f1 f2 rest t hc hu hl f1' hc' =>
    intro htc
    exfalso
    apply hc'
    cases t with
    | nil => simp [PTree.rootColor] at htc
    | node na nc nl nv nr => simpa [f1', Frame.rotUp] using htc
  | case5 f1 f2 rest t hc hu hl f1' hc' =>
    intro htc htr htb hcb hcr hrb
    rw [fixF, if_neg hc, if_neg hu, if_neg hl]
    dsimp only
    rw [if_neg hc']
    have hc1 : f1.c = Color.Red := not_not.1 hc
    obtain ⟨h1r, h1c, h2r, -, hrr⟩ := hcr
    obtain ⟨h1c, h2c⟩ := h1c hc1
    simp only [ctxColor] at h2c
    obtain ⟨h1k, h1b, h2k, h2b, hrk⟩ := hcb
    simp only [hc1, h2c, reduceCtorEq, if_false, if_true, Nat.add_zero] at h2k hrk
    cases t with
    | nil => simp [PTree.rootColor] at htc
    | node na nc nl nv nr =>
      simp only [PTree.rootColor_node] at htc
      subst htc
      obtain ⟨hch, hnl, hnr⟩ := htr
      obtain ⟨hclb, hcrb⟩ := hch rfl
      obtain ⟨hbk, hbl, hbr⟩ := htb
      simp only [PTree.blackCount, reduceCtorEq, if_false, Nat.add_zero] at h1k h2k hrk
      have hl' : (f1.rotUp (.node na Color.Red nl nv nr)).isLeft = f2.isLeft := by
        simp only [Frame.rotUp]
        revert hl
        cases f1.isLeft <;> cases f2.isLeft <;> simp
      have key := lineStep_inv (m + 1) (f1.rotUp (.node na Color.Red nl nv nr)) f2
        (f1.rotDown m (.node na Color.Red nl nv nr)) rfl h2c hl'
      have hk' : (f1.rotDown m (.node na Color.Red nl nv nr)).blackCount = nl.blackCount := by
        cases hf : f1.isLeft <;> simp [Frame.rotDown, hf, PTree.blackCount, hc1, h1k, hbk]
      rw [hk'] at key
      obtain ⟨lb, lr, lc, lk⟩ := key
        (by cases hf : f1.isLeft <;> simp [Frame.rotDown, hf, hc1])
        (by cases hf : f1.isLeft <;>
              simp [Frame.rotDown, hf, PTree.NoRedRed, hc1, h1c, h1r, hnl, hnr, hclb, hcrb])
        (by cases hf : f1.isLeft <;>
              simp [Frame.rotDown, hf, PTree.Balanced, h1k, h1b, hbl, hbr, hbk])
        (by cases hf : f1.isLeft <;> simp [Frame.rotUp, hf, hclb, hcrb])
        (by cases hf : f1.isLeft <;> simp [Frame.rotUp, hf, hnl, hnr])
        (by cases hf : f1.isLeft <;> simp [Frame.rotUp, hf, hbl, hbr])
        (by cases hf : f1.isLeft <;> simp [Frame.rotUp, hf, hbk])
        hu h2r h2b h2k
      rw [plug_balanced, plug_noRedRed, lk, lc]
      exact ⟨⟨lb, hrk⟩, lr, hrr, by simp⟩
  | case6 ctx t hctx =>
    intro htc htr htb hcb hcr hrb
    rw [fixF]
    · rw [plug_balanced, plug_noRedRed]
      refine ⟨⟨htb, hcb⟩, htr, hcr, fun _ => ?_⟩
      match ctx, hctx, hrb with
      | [], _, _ => rfl
      | [f], _, hrb => exact hrb
      | f1 :: f2 :: rest, hctx, _ => exact absurd rfl (fun e => hctx f1 f2 rest e)
    · intro f1 f2 rest e
      exact hctx f1 f2 rest e

end RedBlack

namespace RedBlack

variable {V : Type}

theorem plug_rootColor_congr : ∀ (ctx : List (Frame V)) {t t' : PTree V},
    t.rootColor = t'.rootColor → (plug ctx t).rootColor = (plug ctx t').rootColor
  | [], _, _, h => h
  | f :: fs, t, t', _ => by
    simp only [plug]
    exact plug_rootColor_congr fs (by simp)

theorem ctxRootBlack_of_plug : ∀ (fs : List (Frame V)) (f : Frame V) (t : PTree V),
    (plug (f :: fs) t).rootColor = Color.Black → ctxRootBlack (f :: fs)
  | [], f, t, h => by simpa [plug, ctxRootBlack] using h
  | g :: gs, f, t, h => by
    simp only [ctxRootBlack]
    exact ctxRootBlack_of_plug gs g (f.fill t) h

variable [LinearOrder V]

/-- `insF` keeps the black counts balanced and leaves no Red node with a Red child. -/
theorem insF_inv (m : Nat) (v : V) : ∀ (t : PTree V) (ctx : List (Frame V)),
    t.Balanced → t.NoRedRed → ctxBalanced ctx t.blackCount → ctxNoRedRed ctx →
    (t.rootColor = Color.Red → ctxColor ctx = Color.Black) →
    (plug ctx t).rootColor = Color.Black →
    (insF m ctx t v).Balanced ∧ (insF m ctx t v).NoRedRed
  | .nil, ctx, hb, hr, hcb, hcr, hcc, _ => by
    rw [insF.eq_def]
    show (plug ctx .nil).Balanced ∧ (plug ctx .nil).NoRedRed
    rw [plug_balanced, plug_noRedRed]
    exact ⟨⟨hb, hcb⟩, hr, hcr, hcc⟩
  | .node a c l x r, ctx, hb, hr, hcb, hcr, hcc, hroot => by
    rw [insF_node]
    obtain ⟨hk, hlb, hrb⟩ := hb
    obtain ⟨hch, hlr, hrr⟩ := hr
    simp only [PTree.rootColor_node] at hcc
    simp only [PTree.blackCount] at hcb
    by_cases hvx : v = x
    · rw [if_pos hvx, plug_balanced, plug_noRedRed]
      exact ⟨⟨⟨hk, hlb, hrb⟩, hcb⟩, ⟨hch, hlr, hrr⟩, hcr, hcc⟩
    rw [if_neg hvx]
    by_cases hgt : v > x
    · rw [if_pos hgt]
      have hcr' : ctxNoRedRed (({ a := a, c := c, v := x, isLeft := false, sib := l } :
          Frame V) :: ctx) :=
        ⟨hlr, fun hc => ⟨(hch hc).1, hcc hc⟩, hcr⟩
      cases r with
      | nil =>
        simp only
        apply fixF_inv
        · rfl
        · simp [PTree.NoRedRed, PTree.rootColor]
        · simp [PTree.Balanced]
        · simp only [PTree.blackCount] at hk ⊢
          exact ⟨by simpa using hk, hlb, by simpa [hk] using hcb⟩
        · exact hcr'
        · exact ctxRootBlack_of_plug _ _ (.node a c l x .nil)
            (by rw [← hroot]; exact plug_rootColor_congr ctx (by simp [Frame.fill]))
      | node ra rc rl rx rr =>
        simp only
        apply insF_inv m v (.node ra rc rl rx rr) _ hrb hrr
        · exact ⟨hk, hlb, by rw [← hk]; exact hcb⟩
        · exact hcr'
        · intro hc
          simp only [ctxColor]
          by_contra hcc'
          exact absurd (hch (Color.ne_black.1 hcc')).2 (by rw [hc]; simp)
        · rw [← hroot]
          exact plug_rootColor_congr ctx (by simp [Frame.fill])
    · rw [if_neg hgt]
      have hcr' : ctxNoRedRed (({ a := a, c := c, v := x, isLeft := true, sib := r } :
          Frame V) :: ctx) :=
        ⟨hrr, fun hc => ⟨(hch hc).2, hcc hc⟩, hcr⟩
      cases l with
      | nil =>
        simp only
        apply fixF_inv
        · rfl
        · simp [PTree.NoRedRed, PTree.rootColor]
        · simp [PTree.Balanced]
        · simp only [PTree.blackCount] at hk hcb ⊢
          exact ⟨by simpa using hk.symm, hrb, by simpa using hcb⟩
        · exact hcr'
        · exact ctxRootBlack_of_plug _ _ (.node a c .nil x r)
            (by rw [← hroot]; exact plug_rootColor_congr ctx (by simp [Frame.fill]))
      | node la lc ll lx lr =>
        simp only
        apply insF_inv m v (.node la lc ll lx lr) _ hlb hlr
        · exact ⟨hk.symm, hrb, hcb⟩
        · exact hcr'
        · intro hc
          simp only [ctxColor]
          by_contra hcc'
          exact absurd (hch (Color.ne_black.1 hcc')).1 (by rw [hc]; simp)
        · rw [← hroot]
          exact plug_rootColor_congr ctx (by simp [Frame.fill])

/-- In-order, `insF` gives what plain search-tree insertion gives. -/
theorem insF_toList (m : Nat) (v : V) : ∀ (t : PTree V) (ctx : List (Frame V)), t ≠ .nil →
    (insF m ctx t v).toList = (plug ctx (t.bstIns m v)).toList
  | .nil, _, h => absurd rfl h
  | .node a c l x r, ctx, _ => by
    rw [insF_node]
    simp only [PTree.bstIns]
    by_cases hvx : v = x
    · rw [if_pos hvx, if_pos hvx]
    rw [if_neg hvx, if_neg hvx]
    by_cases hgt : v > x
    · rw [if_pos hgt, if_pos hgt]
      cases r with
      | nil =>
        simp only
        rw [fixF_toList]
        simp [plug, Frame.fill, PTree.bstIns]
      | node ra rc rl rx rr =>
        simp only
        rw [insF_toList m v (.node ra rc rl rx rr) _ (by simp)]
        simp [plug, Frame.fill]
    · rw [if_neg hgt, if_neg hgt]
      cases l with
      | nil =>
        simp only
        rw [fixF_toList]
        simp [plug, Frame.fill, PTree.bstIns]
      | node la lc ll lx lr =>
        simp only
        rw [insF_toList m v (.node la lc ll lx lr) _ (by simp)]
        simp [plug, Frame.fill]

/-- `insF` leaves the root of the whole tree at its address. -/
theorem insF_ptr (m : Nat) (v : V) : ∀ (t : PTree V) (ctx : List (Frame V)),
    (insF m ctx t v).ptr = (plug ctx t).ptr
  | .nil, ctx => by rw [insF.eq_def]
  | .node a c l x r, ctx => by
    rw [insF_node]
    by_cases hvx : v = x
    · rw [if_pos hvx]
    rw [if_neg hvx]
    by_cases hgt : v > x
    · rw [if_pos hgt]
      cases r with
      | nil =>
        simp only
        rw [fixF_ptr]
        exact plug_ptr_congr ctx (by simp)
      | node ra rc rl rx rr =>
        simp only
        rw [insF_ptr m v (.node ra rc rl rx rr)]
        exact plug_ptr_congr ctx (by simp)
    · rw [if_neg hgt]
      cases l with
      | nil =>
        simp only
        rw [fixF_ptr]
        exact plug_ptr_congr ctx (by simp)
      | node la lc ll lx lr =>
        simp only
        rw [insF_ptr m v (.node la lc ll lx lr)]
        exact plug_ptr_congr ctx (by simp)

end RedBlack

namespace RedBlack

variable {V : Type}

theorem PTree.size_eq_length : ∀ t : PTree V, t.size = t.toList.length
  | .nil => rfl
  | .node a c l x r => by
    simp only [PTree.size, PTree.toList, List.length_append, List.length_cons,
      PTree.size_eq_length l, PTree.size_eq_length r]
    omega

theorem PTree.height_le_size : ∀ t : PTree V, t.height ≤ t.size
  | .nil => le_refl _
  | .node a c l x r => by
    have := PTree.height_le_size l
    have := PTree.height_le_size r
    simp only [PTree.height, PTree.size]
    omega

variable [LinearOrder V]

/-! ## Search-tree order and the in-order list -/

theorem PTree.mem_bstIns (m : Nat) (v y : V) : ∀ t : PTree V,
    y ∈ (t.bstIns m v).toList ↔ y = v ∨ y ∈ t.toList
  | .nil => by simp [PTree.bstIns, PTree.toList]
  | .node a c l x r => by
    simp only [PTree.bstIns]
    by_cases hvx : v = x
    · rw [if_pos hvx]
      simp only [PTree.toList, List.mem_append, List.mem_cons]
      subst hvx
      tauto
    rw [if_neg hvx]
    by_cases hgt : v > x
    · rw [if_pos hgt]
      simp only [PTree.toList, List.mem_append, List.mem_cons, PTree.mem_bstIns m v y r]
      tauto
    · rw [if_neg hgt]
      simp only [PTree.toList, List.mem_append, List.mem_cons, PTree.mem_bstIns m v y l]
      tauto

theorem PTree.ordered_bstIns (m : Nat) (v : V) : ∀ t : PTree V, t.Ordered →
    (t.bstIns m v).Ordered
  | .nil, _ => by simp [PTree.bstIns, PTree.Ordered, PTree.toList]
  | .node a c l x r, h => by
    obtain ⟨hl, hr, hol, hor⟩ := h
    simp only [PTree.bstIns]
    by_cases hvx : v = x
    · rw [if_pos hvx]; exact ⟨hl, hr, hol, hor⟩
    rw [if_neg hvx]
    by_cases hgt : v > x
    · rw [if_pos hgt]
      refine ⟨hl, ?_, hol, PTree.ordered_bstIns m v r hor⟩
      intro y hy
      rcases (PTree.mem_bstIns m v y r).1 hy with rfl | hy
      · exact hgt
      · exact hr y hy
    · rw [if_neg hgt]
      refine ⟨?_, hr, PTree.ordered_bstIns m v l hol, hor⟩
      intro y hy
      rcases (PTree.mem_bstIns m v y l).1 hy with rfl | hy
      · exact lt_of_le_of_ne (not_lt.1 hgt) hvx
      · exact hl y hy

theorem PTree.ordered_iff_sorted : ∀ t : PTree V, t.Ordered ↔ t.toList.Sorted (· < ·)
  | .nil => by simp [PTree.Ordered, PTree.toList]
  | .node a c l x r => by
    simp only [PTree.Ordered, PTree.toList, List.Sorted, List.pairwise_append,
      List.pairwise_cons, List.mem_cons]
    rw [PTree.ordered_iff_sorted l, PTree.ordered_iff_sorted r]
    simp only [List.Sorted]
    constructor
    · rintro ⟨hl, hr, hol, hor⟩
      refine ⟨hol, ⟨hr, hor⟩, ?_⟩
      intro y hy z hz
      rcases hz with rfl | hz
      · exact hl y hy
      · exact lt_trans (hl y hy) (hr z hz)
    · rintro ⟨hol, ⟨hr, hor⟩, h⟩
      exact ⟨fun y hy => h y hy x (Or.inl rfl), hr, hol, hor⟩

theorem PTree.size_bstIns (m : Nat) (v : V) : ∀ t : PTree V, t.Ordered →
    (t.bstIns m v).size = t.size + (if v ∈ t.toList then 0 else 1)
  | .nil, _ => by simp [PTree.bstIns, PTree.size, PTree.toList]
  | .node a c l x r, h => by
    obtain ⟨hl, hr, hol, hor⟩ := h
    simp only [PTree.bstIns]
    by_cases hvx : v = x
    · rw [if_pos hvx]
      simp [PTree.toList, hvx]
    rw [if_neg hvx]
    by_cases hgt : v > x
    · rw [if_pos hgt]
      have hvl : v ∉ l.toList := fun hm => absurd (hl v hm) (not_lt.2 (le_of_lt hgt))
      simp only [PTree.size, PTree.size_bstIns m v r hor, PTree.toList, List.mem_append,
        List.mem_cons, hvl, hvx, false_or]
      split <;> omega
    · rw [if_neg hgt]
      have hvr : v ∉ r.toList := fun hm => hgt (hr v hm)
      simp only [PTree.size, PTree.size_bstIns m v l hol, PTree.toList, List.mem_append,
        List.mem_cons, hvr, hvx, or_false]
      split <;> omega

/-! ## What `Tree.Insert` does, as a function on trees -/

theorem insertF_toList (m : Nat) (T : PTree V) (v : V) :
    (insertF m T v).toList = (T.bstIns m v).toList := by
  cases T with
  | nil => rfl
  | node a c l x r =>
    simp only [insertF, PTree.blacken_toList]
    rw [insF_toList m v _ [] (by simp)]
    rfl

theorem insertF_rootColor (m : Nat) (T : PTree V) (v : V) :
    (insertF m T v).rootColor = Color.Black := by
  cases T with
  | nil => rfl
  | node a c l x r => exact PTree.blacken_rootColor _

theorem insertF_inv (m : Nat) (T : PTree V) (v : V) (hc : T.rootColor = Color.Black)
    (hr : T.NoRedRed) (hb : T.Balanced) :
    (insertF m T v).NoRedRed ∧ (insertF m T v).Balanced := by
  cases T with
  | nil => simp [insertF, PTree.NoRedRed, PTree.Balanced]
  | node a c l x r =>
    simp only [insertF]
    obtain ⟨h1, h2⟩ := insF_inv m v (.node a c l x r) [] hb hr trivial trivial
      (fun _ => rfl) hc
    exact ⟨PTree.blacken_noRedRed h2, PTree.blacken_balanced h1⟩

theorem insertF_ordered (m : Nat) (T : PTree V) (v : V) (ho : T.Ordered) :
    (insertF m T v).Ordered := by
  rw [PTree.ordered_iff_sorted, insertF_toList, ← PTree.ordered_iff_sorted]
  exact PTree.ordered_bstIns m v T ho

theorem insertF_mem (m : Nat) (T : PTree V) (v y : V) :
    y ∈ (insertF m T v).toList ↔ y = v ∨ y ∈ T.toList := by
  rw [insertF_toList]; exact PTree.mem_bstIns m v y T

theorem insertF_size (m : Nat) (T : PTree V) (v : V) (ho : T.Ordered) :
    (insertF m T v).size = T.size + (if v ∈ T.toList then 0 else 1) := by
  rw [PTree.size_eq_length, insertF_toList, ← PTree.size_eq_length]
  exact PTree.size_bstIns m v T ho

theorem insertF_ptr (m : Nat) (T : PTree V) (v : V) :
    (insertF m T v).ptr = if T.ptr = none then some m else T.ptr := by
  cases T with
  | nil => rfl
  | node a c l x r =>
    simp only [insertF, PTree.blacken_ptr, PTree.ptr_node, reduceCtorEq, if_false]
    rw [insF_ptr]
    rfl

end RedBlack

namespace RedBlack

variable {V : Type}

/-! ## `Tree.Insert` and sequences of insertions on memory -/

/-- The assignment `t.node.color = Black` on the root of a stored tree. -/
theorem setColor_root {h : Heap V} {par : Ptr} {X : PTree V} {a : Nat} (hr : Rep h par X)
    (ha : X.ptr = some a) (hnd : X.addrs.Nodup) :
    ∃ h', setColor h (some a) Color.Black = .ok h' ∧ Rep h' par X.blacken ∧
      h'.length = h.length := by
  cases X with
  | nil => simp at ha
  | node b c l v r =>
    simp only [PTree.ptr_node, Option.some.injEq] at ha
    subst ha
    obtain ⟨hb, hl, hr'⟩ := hr
    simp only [PTree.addrs, List.nodup_cons, List.mem_append, not_or] at hnd
    obtain ⟨g, e, len, f⟩ := setColor_spec Color.Black hb
    refine ⟨g, e, ⟨?_, ?_, ?_⟩, len⟩
    · rw [f, if_pos rfl]
    · exact hl.congr (fun k hk => by rw [f, if_neg (fun e : k = b => hnd.1.1 (e ▸ hk))])
    · exact hr'.congr (fun k hk => by rw [f, if_neg (fun e : k = b => hnd.1.2 (e ▸ hk))])

theorem MakeTree_holds : (MakeTree : Tree V).Holds .nil := ⟨rfl, trivial⟩

variable [LinearOrder V]

/-- `Tree.Insert` on memory computes `insertF`: it ends without a fault, and the tree
then held is the one `insertF` gives. -/
theorem Insert_refines (t : Tree V) (T : PTree V) (v : V) (fuel : Nat) (hH : t.Holds T)
    (hnd : T.addrs.Nodup) (hf : T.height + 3 ≤ fuel) :
    ∃ t', Tree.Insert fuel t v = .ok t' ∧ t'.Holds (insertF t.mem.length T v) ∧
      (insertF t.mem.length T v).addrs.Nodup := by
  obtain ⟨hptr, hrep⟩ := hH
  unfold Tree.Insert
  cases T with
  | nil =>
    simp only [PTree.ptr_nil] at hptr
    obtain ⟨g1, e1, l1, f1⟩ := alloc_spec t.mem
      ({ val := v, color := Color.Black, p := none, left := none, right := none } : Node V)
    have g1m := f1 t.mem.length; rw [if_pos rfl] at g1m
    obtain ⟨g2, e2, l2, f2⟩ := setColor_spec Color.Black g1m
    have g2m := f2 t.mem.length; rw [if_pos rfl] at g2m
    refine ⟨{ mem := g2, node := some t.mem.length }, ?_, ⟨rfl, ?_⟩, ?_⟩
    · simp only [← hptr, if_true, pure_eq_ok, bind_ok, e1, e2]
    · exact ⟨g2m, trivial, trivial⟩
    · simp [insertF, PTree.addrs]
  | node a c l x r =>
    simp only [PTree.ptr_node] at hptr
    obtain ⟨h1, e1, hr1, l1, hnd1⟩ := ins_refines (.node a c l x r) [] t.mem v fuel fuel a
      hrep rfl hnd (by simp only [List.length_nil]; omega) (by omega)
    have hp1 : (insF t.mem.length [] (.node a c l x r) v).ptr = some a := by
      rw [insF_ptr]; rfl
    obtain ⟨h2, e2, hr2, l2⟩ := setColor_root hr1 hp1 hnd1
    refine ⟨{ mem := h2, node := some a }, ?_, ⟨?_, hr2⟩, ?_⟩
    · simp only [← hptr, reduceCtorEq, if_false, e1, bind_ok, pure_eq_ok, e2]
    · simp only [insertF, PTree.blacken_ptr, hp1]
    · simp only [insertF, PTree.blacken_addrs]
      exact hnd1

theorem insertF_good (m : Nat) (T : PTree V) (v : V) (hg : Good T)
    (hnd : (insertF m T v).addrs.Nodup) : Good (insertF m T v) := by
  obtain ⟨_, hc, hr, hb, ho⟩ := hg
  obtain ⟨h1, h2⟩ := insertF_inv m T v hc hr hb
  exact ⟨hnd, insertF_rootColor m T v, h1, h2, insertF_ordered m T v ho⟩

/-- A sequence of insertions ends without a fault, in a tree of the kind described by
`Good` whose values are the old ones and the inserted ones. -/
theorem InsertAll_spec : ∀ (xs : List V) (t : Tree V) (T : PTree V) (fuel : Nat),
    t.Holds T → Good T → T.size + xs.length + 3 ≤ fuel →
    ∃ t' T', Tree.InsertAll fuel t xs = .ok t' ∧ t'.Holds T' ∧ Good T' ∧
      (∀ y, y ∈ T'.toList ↔ y ∈ xs ∨ y ∈ T.toList) ∧ T'.size ≤ T.size + xs.length
  | [], t, T, fuel, hH, hg, _ =>
    ⟨t, T, rfl, hH, hg, by simp, by simp⟩
  | v :: vs, t, T, fuel, hH, hg, hf => by
    simp only [List.length_cons] at hf
    have hhs := PTree.height_le_size T
    obtain ⟨t1, e1, hH1, hnd1⟩ := Insert_refines t T v fuel hH hg.1 (by omega)
    have hg1 := insertF_good t.mem.length T v hg hnd1
    have hs1 := insertF_size t.mem.length T v hg.2.2.2.2
    have hs1' : (insertF t.mem.length T v).size ≤ T.size + 1 := by
      rw [hs1]; split <;> omega
    obtain ⟨t2, T2, e2, hH2, hg2, hm2, hs2⟩ := InsertAll_spec vs t1 _ fuel hH1 hg1 (by omega)
    refine ⟨t2, T2, ?_, hH2, hg2, ?_, ?_⟩
    · simp only [Tree.InsertAll, e1, bind_ok, e2]
    · intro y
      rw [hm2, insertF_mem]
      simp only [List.mem_cons]
      tauto
    · simp only [List.length_cons]; omega

theorem good_nil : Good (PTree.nil : PTree V) := by
  simp [Good, PTree.addrs, PTree.rootColor, PTree.NoRedRed, PTree.Balanced, PTree.Ordered]

/-- Every sequence of insertions into the empty tree. -/
theorem build_spec (xs : List V) (fuel : Nat) (hf : xs.length + 3 ≤ fuel) :
    ∃ t T, Tree.InsertAll fuel MakeTree xs = .ok t ∧ t.Holds T ∧ Good T ∧
      (∀ y, y ∈ T.toList ↔ y ∈ xs) ∧ T.size ≤ xs.length := by
  obtain ⟨t, T, e, hH, hg, hm, hs⟩ := InsertAll_spec xs MakeTree .nil fuel MakeTree_holds
    good_nil (by simp only [PTree.size]; omega)
  refine ⟨t, T, e, hH, hg, ?_, ?_⟩
  · intro y; rw [hm]; simp [PTree.toList]
  · simpa [PTree.size] using hs

end RedBlack

namespace RedBlack

variable {V : Type}

/-! ## The queries on memory -/

/-- `Node.Size` counts the nodes of the stored tree. -/
theorem Size_spec {h : Heap V} : ∀ (T : PTree V) (par : Ptr) (fuel : Nat), Rep h par T →
    T.height < fuel → Node.Size fuel h T.ptr = .ok T.size
  | .nil, _, fuel, _, hf => by
    obtain ⟨fuel, rfl⟩ : ∃ k, fuel = k + 1 := ⟨fuel - 1, by omega⟩
    simp [Node.Size, PTree.size]
  | .node a c l x r, par, fuel, hr, hf => by
    obtain ⟨fuel, rfl⟩ : ∃ k, fuel = k + 1 := ⟨fuel - 1, by omega⟩
    simp only [PTree.height] at hf
    obtain ⟨ha, hl, hr'⟩ := hr
    rw [Node.Size]
    simp only [PTree.ptr_node, reduceCtorEq, if_false, load_some ha, bind_ok,
      Size_spec l (some a) fuel hl (by omega), Size_spec r (some a) fuel hr' (by omega),
      pure_eq_ok, PTree.size]

/-- `Node.Height` adds the height of the stored tree to `depth`. -/
theorem Height_spec {h : Heap V} : ∀ (T : PTree V) (par : Ptr) (fuel depth : Nat),
    Rep h par T → T.height < fuel → Node.Height fuel h T.ptr depth = .ok (depth + T.height)
  | .nil, _, fuel, depth, _, hf => by
    obtain ⟨fuel, rfl⟩ : ∃ k, fuel = k + 1 := ⟨fuel - 1, by omega⟩
    simp [Node.Height, PTree.height]
  | .node a c l x r, par, fuel, depth, hr, hf => by
    obtain ⟨fuel, rfl⟩ : ∃ k, fuel = k + 1 := ⟨fuel - 1, by omega⟩
    simp only [PTree.height] at hf
    obtain ⟨ha, hl, hr'⟩ := hr
    rw [Node.Height]
    simp only [PTree.ptr_node, reduceCtorEq, if_false, load_some ha, bind_ok,
      Height_spec l (some a) fuel (depth + 1) hl (by omega),
      Height_spec r (some a) fuel (depth + 1) hr' (by omega), pure_eq_ok, PTree.height]
    split
    · congr 1; omega
    · congr 1; omega

variable [LinearOrder V]

/-- `Node.Contains` decides membership in a stored tree that is in search-tree order. -/
theorem Contains_spec {h : Heap V} (v : V) : ∀ (T : PTree V) (par : Ptr) (fuel : Nat),
    Rep h par T → T.Ordered → T.height < fuel →
    Node.Contains fuel h T.ptr v = .ok (decide (v ∈ T.toList))
  | .nil, _, fuel, _, _, hf => by
    obtain ⟨fuel, rfl⟩ : ∃ k, fuel = k + 1 := ⟨fuel - 1, by omega⟩
    simp [Node.Contains, PTree.toList]
  | .node a c l x r, par, fuel, hr, ho, hf => by
    obtain ⟨fuel, rfl⟩ : ∃ k, fuel = k + 1 := ⟨fuel - 1, by omega⟩
    simp only [PTree.height] at hf
    obtain ⟨ha, hl, hr'⟩ := hr
    obtain ⟨hlt, hgt, hol, hor⟩ := ho
    rw [Node.Contains]
    simp only [PTree.ptr_node, reduceCtorEq, if_false, load_some ha, bind_ok, pure_eq_ok,
      PTree.toList, List.mem_append, List.mem_cons]
    by_cases hxv : x = v
    · simp [hxv]
    rw [if_neg hxv]
    by_cases hvx : v > x
    · rw [if_pos hvx, Contains_spec v r (some a) fuel hr' hor (by omega)]
      have hvl : v ∉ l.toList := fun hm => absurd (hlt v hm) (not_lt.2 (le_of_lt hvx))
      simp [hvl, Ne.symm hxv]
    · rw [if_neg hvx, Contains_spec v l (some a) fuel hl hol (by omega)]
      have hvr : v ∉ r.toList := fun hm => hvx (hgt v hm)
      simp [hvr, Ne.symm hxv]

/-- `Node.Insert` of a value that the stored tree contains changes nothing. -/
theorem Insert_present {h : Heap V} (v : V) (fix : Nat) : ∀ (T : PTree V) (par : Ptr)
    (fuel : Nat), Rep h par T → T.Ordered → v ∈ T.toList → T.height ≤ fuel →
    Node.Insert fix fuel h T.ptr v = .ok h
  | .nil, _, _, _, _, hm, _ => by simp [PTree.toList] at hm
  | .node a c l x r, par, fuel, hr, ho, hm, hf => by
    simp only [PTree.height] at hf
    obtain ⟨fuel, rfl⟩ : ∃ k, fuel = k + 1 := ⟨fuel - 1, by omega⟩
    obtain ⟨ha, hl, hr'⟩ := hr
    obtain ⟨hlt, hgt, hol, hor⟩ := ho
    simp only [PTree.toList, List.mem_append, List.mem_cons] at hm
    rw [Node.Insert]
    simp only [PTree.ptr_node, load_some ha, bind_ok, pure_eq_ok]
    by_cases hvx : v = x
    · rw [if_pos hvx]
    rw [if_neg hvx]
    by_cases hgt' : v > x
    · rw [if_pos hgt']
      have hvl : v ∉ l.toList := fun hm => absurd (hlt v hm) (not_lt.2 (le_of_lt hgt'))
      have hvr : v ∈ r.toList := by tauto
      have hrn : r.ptr ≠ none := by
        cases r with
        | nil => simp [PTree.toList] at hvr
        | node _ _ _ _ _ => simp
      rw [if_neg hrn]
      exact Insert_present v fix r (some a) fuel hr' hor hvr (by omega)
    · rw [if_neg hgt']
      have hvr : v ∉ r.toList := fun hm => hgt' (hgt v hm)
      have hvl : v ∈ l.toList := by tauto
      have hln : l.ptr ≠ none := by
        cases l with
        | nil => simp [PTree.toList] at hvl
        | node _ _ _ _ _ => simp
      rw [if_neg hln]
      exact Insert_present v fix l (some a) fuel hl hol hvl (by omega)

end RedBlack

namespace RedBlack

variable {V : Type}

/-! ## Height, black paths, reachability -/

theorem PTree.pow_blackCount_le_size : ∀ T : PTree V, T.Balanced →
    2 ^ T.blackCount ≤ T.size + 1
  | .nil, _ => by simp [PTree.blackCount, PTree.size]
  | .node a c l x r, hb => by
    obtain ⟨hk, hl, hr⟩ := hb
    have h1 := PTree.pow_blackCount_le_size l hl
    have h2 := PTree.pow_blackCount_le_size r hr
    rw [← hk] at h2
    simp only [PTree.blackCount, PTree.size]
    have h3 : 2 ^ (l.blackCount + (if c = Color.Black then 1 else 0)) ≤ 2 * 2 ^ l.blackCount := by
      split
      · rw [pow_succ]; omega
      · simp
    omega

theorem PTree.height_le_blackCount : ∀ T : PTree V, T.Balanced → T.NoRedRed →
    T.height ≤ 2 * T.blackCount + (if T.rootColor = Color.Red then 1 else 0)
  | .nil, _, _ => by simp [PTree.height]
  | .node a c l x r, hb, hr => by
    obtain ⟨hk, hlb, hrb⟩ := hb
    obtain ⟨hc, hlr, hrr⟩ := hr
    have h1 := PTree.height_le_blackCount l hlb hlr
    have h2 := PTree.height_le_blackCount r hrb hrr
    rw [← hk] at h2
    simp only [PTree.height, PTree.blackCount, PTree.rootColor_node]
    cases c with
    | Black =>
      simp only [if_true, reduceCtorEq, if_false]
      have : max l.height r.height ≤ 2 * l.blackCount + 1 := by
        apply max_le
        · split at h1 <;> omega
        · split at h2 <;> omega
      omega
    | Red =>
      obtain ⟨hcl, hcr⟩ := hc rfl
      simp only [hcl, hcr, reduceCtorEq, if_false, if_true, Nat.add_zero] at h1 h2 ⊢
      have : max l.height r.height ≤ 2 * l.blackCount := max_le h1 h2
      omega

/-- The height bound of red-black trees, in integers: `2 ^ height ≤ (size + 1) ^ 2`. -/
theorem PTree.pow_height_le (T : PTree V) (hc : T.rootColor = Color.Black) (hb : T.Balanced)
    (hr : T.NoRedRed) : 2 ^ T.height ≤ (T.size + 1) ^ 2 := by
  have h1 := PTree.height_le_blackCount T hb hr
  rw [hc] at h1
  simp only [reduceCtorEq, if_false, Nat.add_zero] at h1
  have h2 := PTree.pow_blackCount_le_size T hb
  calc 2 ^ T.height ≤ 2 ^ (2 * T.blackCount) := Nat.pow_le_pow_right (by decide) h1
    _ = (2 ^ T.blackCount) ^ 2 := by rw [Nat.mul_comm, pow_mul]
    _ ≤ (T.size + 1) ^ 2 := Nat.pow_le_pow_left h2 2

/-- Every black path in memory below a stored balanced tree has the tree's black count. -/
theorem blackPath_eq {h : Heap V} {p : Ptr} {k : Nat} (hp : BlackPath h p k) :
    ∀ (T : PTree V) (par : Ptr), Rep h par T → T.ptr = p → T.Balanced → k = T.blackCount := by
  induction hp with
  | absent =>
    intro T par _ hptr _
    cases T with
    | nil => rfl
    | node _ _ _ _ _ => simp at hptr
  | left hnd _ ih =>
    intro T par hr hptr hb
    cases T with
    | nil => simp at hptr
    | node b c l v r =>
      simp only [PTree.ptr_node, Option.some.injEq] at hptr
      subst hptr
      obtain ⟨hb', hl, _⟩ := hr
      rw [hb'] at hnd
      simp only [Option.some.injEq] at hnd
      subst hnd
      simp only [PTree.blackCount]
      rw [ih l (some b) hl rfl hb.2.1]
  | right hnd _ ih =>
    intro T par hr hptr hb
    cases T with
    | nil => simp at hptr
    | node b c l v r =>
      simp only [PTree.ptr_node, Option.some.injEq] at hptr
      subst hptr
      obtain ⟨hb', _, hr'⟩ := hr
      rw [hb'] at hnd
      simp only [Option.some.injEq] at hnd
      subst hnd
      simp only [PTree.blackCount]
      rw [ih r (some b) hr' rfl hb.2.2, hb.1]

/-- Below a stored tree there is a black path with the tree's black count. -/
theorem blackPath_blackCount {h : Heap V} : ∀ (T : PTree V) (par : Ptr), Rep h par T →
    BlackPath h T.ptr T.blackCount
  | .nil, _, _ => BlackPath.absent
  | .node a c l v r, _, hr => by
    obtain ⟨ha, hl, _⟩ := hr
    have := BlackPath.left ha (blackPath_blackCount l (some a) hl)
    simpa only [PTree.ptr_node, PTree.blackCount] using this

/-- Every node reached from the root of a stored tree is the root of a stored subtree,
and a property that passes from a tree to its two subtrees holds of that subtree. -/
theorem reach_rep {h : Heap V} {T : PTree V} {par0 : Ptr} (P : PTree V → Prop)
    (hP : ∀ a c l v r, P (.node a c l v r) → P l ∧ P r) (hT : Rep h par0 T) (h0 : P T)
    {a : Nat} (hr : Reach h T.ptr a) :
    ∃ par c l v r, Rep h par (.node a c l v r) ∧ P (.node a c l v r) := by
  induction hr with
  | root e =>
    cases T with
    | nil => simp at e
    | node b c l v r =>
      simp only [PTree.ptr_node, Option.some.injEq] at e
      subst e
      exact ⟨par0, c, l, v, r, hT, h0⟩
  | left _ hnd hb ih =>
    obtain ⟨par, c, l, v, r, ⟨ha, hl, _⟩, hp⟩ := ih
    rw [ha] at hnd
    simp only [Option.some.injEq] at hnd
    subst hnd
    simp only at hb
    cases l with
    | nil => simp at hb
    | node b' c' l' v' r' =>
      simp only [PTree.ptr_node, Option.some.injEq] at hb
      subst hb
      exact ⟨_, _, _, _, _, hl, (hP _ _ _ _ _ hp).1⟩
  | right _ hnd hb ih =>
    obtain ⟨par, c, l, v, r, ⟨ha, _, hr'⟩, hp⟩ := ih
    rw [ha] at hnd
    simp only [Option.some.injEq] at hnd
    subst hnd
    simp only at hb
    cases r with
    | nil => simp at hb
    | node b' c' l' v' r' =>
      simp only [PTree.ptr_node, Option.some.injEq] at hb
      subst hb
      exact ⟨_, _, _, _, _, hr', (hP _ _ _ _ _ hp).2⟩

/-- The value of a node reached from the root of a stored tree is a value of the tree. -/
theorem reach_val {h : Heap V} {T : PTree V} {par0 : Ptr} (hT : Rep h par0 T) {b : Nat}
    {nb : Node V} (hr : Reach h T.ptr b) (hb : h[b]? = some nb) : nb.val ∈ T.toList := by
  obtain ⟨par, c, l, v, r, ⟨ha, _, _⟩, hp⟩ := reach_rep (fun s => ∀ y ∈ s.toList, y ∈ T.toList)
    (fun a c l v r hs => ⟨fun y hy => hs y (by simp [PTree.toList, hy]),
      fun y hy => hs y (by simp [PTree.toList, hy])⟩) hT (fun _ hy => hy) hr
  rw [ha] at hb
  simp only [Option.some.injEq] at hb
  subst hb
  exact hp v (by simp [PTree.toList])

theorem set_same {h : Heap V} {a : Nat} {nd : Node V} (hg : h[a]? = some nd) :
    h.set a nd = h := by
  apply List.ext_getElem?
  intro k
  rw [get_set nd k hg]
  split
  · next e => rw [e, hg]
  · rfl

end RedBlack

namespace RedBlack

variable {V : Type} [LinearOrder V]

/-! ## Consequences for the public operations -/

/-- `Tree.Insert` of a value that the tree contains gives back the same tree and the
same memory. -/
theorem Insert_noop (t : Tree V) (T : PTree V) (v : V) (fuel : Nat) (hH : t.Holds T)
    (hg : Good T) (hm : v ∈ T.toList) (hf : T.height ≤ fuel) :
    Tree.Insert fuel t v = .ok t := by
  obtain ⟨hptr, hrep⟩ := hH
  obtain ⟨_, hc, _, _, ho⟩ := hg
  have e1 := Insert_present v fuel T none fuel hrep ho hm hf
  cases T with
  | nil => simp [PTree.toList] at hm
  | node a c l x r =>
    simp only [PTree.rootColor_node] at hc
    subst hc
    simp only [PTree.ptr_node] at hptr e1
    obtain ⟨ha, _, _⟩ := hrep
    have e3 : setColor t.mem (some a) Color.Black = .ok t.mem := by
      rw [setColor_some Color.Black ha]
      exact congrArg Except.ok (set_same ha)
    unfold Tree.Insert
    simp only [← hptr, reduceCtorEq, if_false, e1, bind_ok, pure_eq_ok, e3]
    cases t
    simp only at hptr
    rw [hptr]

/-- A run of insertions over `xs ++ ys` is the run over `xs` followed, from the tree it
gives, by the run over `ys`: the tree after each insertion is the tree built from the
values inserted so far. -/
theorem InsertAll_append (fuel : Nat) : ∀ (xs ys : List V) (t : Tree V),
    Tree.InsertAll fuel t (xs ++ ys) =
      (Tree.InsertAll fuel t xs >>= fun t1 => Tree.InsertAll fuel t1 ys)
  | [], ys, t => rfl
  | x :: xs, ys, t => by
    simp only [List.cons_append, Tree.InsertAll]
    cases Tree.Insert fuel t x with
    | error e => rfl
    | ok t1 => exact InsertAll_append fuel xs ys t1

/-- The tree of a strictly ordered list of values has as many nodes as the list of
inserted values has distinct values. -/
theorem size_eq_card (T : PTree V) (xs : List V) (ho : T.Ordered)
    (hm : ∀ y, y ∈ T.toList ↔ y ∈ xs) : T.size = xs.toFinset.card := by
  have hs := (PTree.ordered_iff_sorted T).1 ho
  have hnd : T.toList.Nodup := hs.nodup
  rw [PTree.size_eq_length, ← List.toFinset_card_of_nodup hnd]
  congr 1
  ext y
  simp only [List.mem_toFinset]
  exact hm y

end RedBlack

namespace RedBlack

variable {V : Type}

/-! ## The rotations as runs that keep their memory -/

theorem run_bind_def {α β : Type} (x : Run V α) (f : α → Run V β) :
    (x >>= f) = Run.andThen x f := rfl

theorem run_result_read (n : Ptr) (f : Node V → Run V Unit) (h : Heap V) :
    (Run.read n >>= f).result h = (load h n >>= fun nd => (f nd).result h) := by
  simp only [run_bind_def, Run.result, Run.andThen, Run.read]
  cases load h n <;> rfl

theorem run_result_write_end (n : Ptr) (nd : Node V) (h : Heap V) :
    (Run.write n nd).result h = store h n nd := by
  simp only [Run.result, Run.write]
  cases store h n nd <;> rfl

theorem run_result_fresh (nd : Node V) (f : Ptr → Run V Unit) (h : Heap V) :
    (Run.fresh nd >>= f).result h = (f (alloc h nd).2).result (alloc h nd).1 := rfl

theorem run_result_bind (x : Run V Unit) (f : Unit → Run V Unit) (h : Heap V) :
    (x >>= f).result h = (x.result h >>= fun h1 => (f ()).result h1) := by
  simp only [run_bind_def, Run.result, Run.andThen]
  rcases x h with ⟨h1, r⟩
  cases r <;> rfl

theorem run_result_assignP (n q : Ptr) (h : Heap V) :
    (Run.assignP n q).result h = setP h n q := by
  unfold Run.assignP setP
  rw [run_result_read]
  simp only [run_result_write_end]

theorem run_result_assignLeft (n q : Ptr) (h : Heap V) :
    (Run.assignLeft n q).result h = setLeft h n q := by
  unfold Run.assignLeft setLeft
  rw [run_result_read]
  simp only [run_result_write_end]

theorem run_result_assignRight (n q : Ptr) (h : Heap V) :
    (Run.assignRight n q).result h = setRight h n q := by
  unfold Run.assignRight setRight
  rw [run_result_read]
  simp only [run_result_write_end]

theorem run_result_assignPIfPresent (q r : Ptr) (h : Heap V) :
    (Run.assignPIfPresent q r).result h = setPIfPresent h q r := by
  unfold Run.assignPIfPresent setPIfPresent
  split
  · exact run_result_assignP q r h
  · rfl

theorem run_result_ite (c : Prop) [Decidable c] (x y : Run V Unit) (h : Heap V) :
    (if c then x else y).result h = if c then x.result h else y.result h := by
  split <;> rfl

/-- The run that keeps its memory and `Node.LeftRotate` give the same result. -/
theorem LeftRotateRun_result (h : Heap V) (n : Ptr) :
    (Node.LeftRotateRun n).result h = Node.LeftRotate h n := by
  unfold Node.LeftRotateRun Node.LeftRotate
  rw [run_result_read]
  congr 1
  funext nd
  split
  · rfl
  · rw [run_result_fresh]
    simp only [run_result_bind, run_result_read, run_result_write_end, run_result_assignP,
      run_result_assignLeft, run_result_assignRight, run_result_assignPIfPresent,
      run_result_ite]

/-- The run that keeps its memory and `Node.RightRotate` give the same result. -/
theorem RightRotateRun_result (h : Heap V) (n : Ptr) :
    (Node.RightRotateRun n).result h = Node.RightRotate h n := by
  unfold Node.RightRotateRun Node.RightRotate
  rw [run_result_read]
  congr 1
  funext nd
  split
  · rfl
  · rw [run_result_fresh]
    simp only [run_result_bind, run_result_read, run_result_write_end, run_result_assignP,
      run_result_assignLeft, run_result_assignRight, run_result_assignPIfPresent,
      run_result_ite]

theorem run_result_error (x : Run V Unit) (h : Heap V) (e : Fault) :
    x.result h = .error e ↔ (x h).2 = .error e := by
  unfold Run.result
  rcases x h with ⟨h1, r⟩
  cases r <;> simp

end RedBlack

namespace RedBlack

variable {V : Type}

/-! ## The precondition failure of the rotations -/

theorem quiet_bind {α β : Type} (x : Except Fault α) (f : α → Except Fault β) :
    Quiet (x >>= f) ↔ Quiet x ∧ ∀ a, x = .ok a → Quiet (f a) := by
  cases x with
  | error e => simp [Quiet]
  | ok a => simp [Quiet]

theorem quiet_ite {α : Type} (c : Prop) [Decidable c] (x y : Except Fault α) :
    Quiet (if c then x else y) ↔ (c → Quiet x) ∧ (¬c → Quiet y) := by
  split <;> simp [*]

theorem quiet_ok {α : Type} (a : α) : Quiet (Except.ok a : Except Fault α) :=
  fun e => nomatch e

theorem quiet_pure {α : Type} (a : α) : Quiet (pure a : Except Fault α) :=
  fun e => nomatch e

theorem quiet_load (h : Heap V) (n : Ptr) : Quiet (load h n) := by
  cases n with
  | none => simp [load, Quiet]
  | some a => cases hg : h[a]? <;> simp [load, Quiet, hg]

theorem quiet_store (h : Heap V) (n : Ptr) (nd : Node V) : Quiet (store h n nd) := by
  cases n with
  | none => simp [store, Quiet]
  | some a => cases hg : h[a]? <;> simp [store, Quiet, hg]

theorem quiet_setP (h : Heap V) (n q : Ptr) : Quiet (setP h n q) :=
  (quiet_bind _ _).2 ⟨quiet_load h n, fun _ _ => quiet_store _ _ _⟩

theorem quiet_setLeft (h : Heap V) (n q : Ptr) : Quiet (setLeft h n q) :=
  (quiet_bind _ _).2 ⟨quiet_load h n, fun _ _ => quiet_store _ _ _⟩

theorem quiet_setRight (h : Heap V) (n q : Ptr) : Quiet (setRight h n q) :=
  (quiet_bind _ _).2 ⟨quiet_load h n, fun _ _ => quiet_store _ _ _⟩

theorem quiet_setPIfPresent (h : Heap V) (q r : Ptr) : Quiet (setPIfPresent h q r) := by
  unfold setPIfPresent
  split
  · exact quiet_setP h q r
  · exact quiet_pure h

/-- With a right child, `Node.LeftRotate` does not stop on the precondition failure. -/
theorem LeftRotate_quiet {h : Heap V} {a : Nat} {nd : Node V} (hn : h[a]? = some nd)
    (hr : nd.right ≠ none) : Quiet (Node.LeftRotate h (some a)) := by
  unfold Node.LeftRotate
  simp only [load_some hn, bind_ok, if_neg hr]
  simp only [quiet_bind, quiet_ite, quiet_load, quiet_store, quiet_setP, quiet_setLeft,
    quiet_setRight, quiet_setPIfPresent, implies_true, and_self, true_and]

/-- With a left child, `Node.RightRotate` does not stop on the precondition failure. -/
theorem RightRotate_quiet {h : Heap V} {a : Nat} {nd : Node V} (hn : h[a]? = some nd)
    (hl : nd.left ≠ none) : Quiet (Node.RightRotate h (some a)) := by
  unfold Node.RightRotate
  simp only [load_some hn, bind_ok, if_neg hl]
  simp only [quiet_bind, quiet_ite, quiet_load, quiet_store, quiet_setP, quiet_setLeft,
    quiet_setRight, quiet_setPIfPresent, implies_true, and_self, true_and]

theorem LeftRotateRun_panic {h : Heap V} {a : Nat} {nd : Node V} (hn : h[a]? = some nd)
    (hr : nd.right = none) :
    Node.LeftRotateRun (some a) h = (h, .error Fault.rotatePanic) := by
  unfold Node.LeftRotateRun
  simp only [run_bind_def, Run.andThen, Run.read, load_some hn, if_pos hr, Run.fail]

theorem RightRotateRun_panic {h : Heap V} {a : Nat} {nd : Node V} (hn : h[a]? = some nd)
    (hl : nd.left = none) :
    Node.RightRotateRun (some a) h = (h, .error Fault.rotatePanic) := by
  unfold Node.RightRotateRun
  simp only [run_bind_def, Run.andThen, Run.read, load_some hn, if_pos hl, Run.fail]

end RedBlack

namespace RedBlack

variable {V : Type}

/-! ## Nodes of a stored tree, and a rotation at one of them -/

/-- A node reached from the root of a stored tree splits the tree into the subtree
below the node and the path from the node up to the root. -/
theorem reach_plug {h : Heap V} {T : PTree V} (hT : Rep h none T) {a : Nat}
    (hr : Reach h T.ptr a) : ∃ ctx s, T = plug ctx s ∧ s.ptr = some a := by
  induction hr with
  | root e => exact ⟨[], T, rfl, e⟩
  | left _ hnd hb ih =>
    obtain ⟨ctx, s, rfl, hs⟩ := ih
    have hrs := ((Rep_plug ctx s).1 hT).2
    cases s with
    | nil => simp at hs
    | node a' c l v r =>
      simp only [PTree.ptr_node, Option.some.injEq] at hs
      subst hs
      rw [hrs.1] at hnd
      simp only [Option.some.injEq] at hnd
      subst hnd
      refine ⟨{ a := a', c := c, v := v, isLeft := true, sib := r } :: ctx, l, ?_, hb⟩
      simp [plug, Frame.fill]
  | right _ hnd hb ih =>
    obtain ⟨ctx, s, rfl, hs⟩ := ih
    have hrs := ((Rep_plug ctx s).1 hT).2
    cases s with
    | nil => simp at hs
    | node a' c l v r =>
      simp only [PTree.ptr_node, Option.some.injEq] at hs
      subst hs
      rw [hrs.1] at hnd
      simp only [Option.some.injEq] at hnd
      subst hnd
      refine ⟨{ a := a', c := c, v := v, isLeft := false, sib := l } :: ctx, r, ?_, hb⟩
      simp [plug, Frame.fill]

/-- A change of memory inside a subtree that keeps the subtree's root address leaves
the rest of the stored tree as it is. -/
theorem Rep_plug_replace {h h' : Heap V} {ctx : List (Frame V)} {s s' : PTree V}
    (hT : Rep h none (plug ctx s)) (hnd : (plug ctx s).addrs.Nodup)
    (hp : s'.ptr = s.ptr) (hs' : Rep h' (ctxPtr ctx) s')
    (hfr : ∀ k, k < h.length → k ∉ s.addrs → h'[k]? = h[k]?) :
    Rep h' none (plug ctx s') := by
  rw [Rep_plug] at hT ⊢
  rw [nodup_plug] at hnd
  refine ⟨?_, hs'⟩
  rw [hp]
  exact hT.1.congrCtx (fun k hk => hfr k (hT.1.ltCtx k hk)
    (fun hk' => (List.nodup_append.1 hnd).2.2 hk' hk))

theorem LeftRotate_plug {h : Heap V} {ctx : List (Frame V)} {n ra : Nat} {c d : Color}
    {A B C : PTree V} {x y : V}
    (hT : Rep h none (plug ctx (.node n c A x (.node ra d B y C))))
    (hnd : (plug ctx (.node n c A x (.node ra d B y C))).addrs.Nodup) :
    ∃ h', Node.LeftRotate h (some n) = .ok h' ∧
      Rep h' none (plug ctx (.node n d (.node h.length c A x (B.moveTo ra)) y C)) := by
  have hs := ((Rep_plug ctx _).1 hT).2
  have hsnd := ((nodup_plug).1 hnd).of_append_left
  obtain ⟨h', e, hr', _, hfr⟩ := LeftRotate_spec hs hsnd
  exact ⟨h', e, Rep_plug_replace hT hnd rfl hr' hfr⟩

theorem RightRotate_plug {h : Heap V} {ctx : List (Frame V)} {n ra : Nat} {c d : Color}
    {A B C : PTree V} {x y : V}
    (hT : Rep h none (plug ctx (.node n c (.node ra d C y B) x A)))
    (hnd : (plug ctx (.node n c (.node ra d C y B) x A)).addrs.Nodup) :
    ∃ h', Node.RightRotate h (some n) = .ok h' ∧
      Rep h' none (plug ctx (.node n d C y (.node h.length c (B.moveTo ra) x A))) := by
  have hs := ((Rep_plug ctx _).1 hT).2
  have hsnd := ((nodup_plug).1 hnd).of_append_left
  obtain ⟨h', e, hr', _, hfr⟩ := RightRotate_spec hs hsnd
  exact ⟨h', e, Rep_plug_replace hT hnd rfl hr' hfr⟩

variable [LinearOrder V]

/-- What a rotation that puts `s1` in the place of `s` does to the whole tree, when the
two have the same root address and the same in-order values. -/
theorem rotation_keeps {t : Tree V} {h' : Heap V} {ctx : List (Frame V)} {s s1 : PTree V}
    {fuel : Nat} (hptr : (plug ctx s).ptr = t.node) (hrep : Rep t.mem none (plug ctx s))
    (hf : (plug ctx s).size < fuel) (hr1 : Rep h' none (plug ctx s1))
    (hp : s1.ptr = s.ptr) (hl : s1.toList = s.toList) :
    Tree.Holds ⟨h', t.node⟩ (plug ctx s1) ∧ (plug ctx s1).toList = (plug ctx s).toList ∧
      Tree.Size fuel t = .ok (plug ctx s).size ∧
      Tree.Size fuel ⟨h', t.node⟩ = .ok (plug ctx s).size ∧
      ((plug ctx s).Ordered → ∀ v,
        Tree.Contains fuel t v = .ok (decide (v ∈ (plug ctx s).toList)) ∧
        Tree.Contains fuel ⟨h', t.node⟩ v = .ok (decide (v ∈ (plug ctx s).toList))) := by
  have hl1 : (plug ctx s1).toList = (plug ctx s).toList := plug_toList_congr ctx hl
  have hp1 : (plug ctx s1).ptr = t.node := by rw [plug_ptr_congr ctx hp, hptr]
  have hs1 : (plug ctx s1).size = (plug ctx s).size := by
    rw [PTree.size_eq_length, PTree.size_eq_length, hl1]
  have hh := PTree.height_le_size (plug ctx s)
  have hh1 := PTree.height_le_size (plug ctx s1)
  refine ⟨⟨hp1, hr1⟩, hl1, ?_, ?_, fun ho v => ⟨?_, ?_⟩⟩
  · unfold Tree.Size
    rw [← hptr, Size_spec _ none fuel hrep (by omega)]
  · unfold Tree.Size
    simp only
    rw [← hp1, Size_spec _ none fuel hr1 (by omega), hs1]
  · unfold Tree.Contains
    rw [← hptr, Contains_spec v _ none fuel hrep ho (by omega)]
  · have ho1 : (plug ctx s1).Ordered := by
      rw [PTree.ordered_iff_sorted, hl1, ← PTree.ordered_iff_sorted]
      exact ho
    unfold Tree.Contains
    simp only
    rw [← hp1, Contains_spec v _ none fuel hr1 ho1 (by omega), hl1]

end RedBlack

namespace RedBlack

variable {V : Type}

/-! ## Height as the longest path down to a leaf -/

theorem PTree.height_eq_zero : ∀ {T : PTree V}, T.height = 0 → T = .nil
  | .nil, _ => rfl
  | .node _ _ _ _ _, h => by simp [PTree.height] at h

theorem leafPath_le {h : Heap V} {p : Ptr} {k : Nat} (hp : LeafPath h p k) :
    ∀ (T : PTree V) (par : Ptr), Rep h par T → T.ptr = p → k ≤ T.height := by
  induction hp with
  | leaf hnd _ _ =>
    intro T par _ hptr
    cases T with
    | nil => simp at hptr
    | node b c l v r => simp [PTree.height]
  | left hnd _ ih =>
    intro T par hr hptr
    cases T with
    | nil => simp at hptr
    | node b c l v r =>
      simp only [PTree.ptr_node, Option.some.injEq] at hptr
      subst hptr
      obtain ⟨hb, hl, _⟩ := hr
      rw [hb] at hnd
      simp only [Option.some.injEq] at hnd
      subst hnd
      have := ih l (some b) hl rfl
      simp only [PTree.height]
      omega
  | right hnd _ ih =>
    intro T par hr hptr
    cases T with
    | nil => simp at hptr
    | node b c l v r =>
      simp only [PTree.ptr_node, Option.some.injEq] at hptr
      subst hptr
      obtain ⟨hb, _, hr'⟩ := hr
      rw [hb] at hnd
      simp only [Option.some.injEq] at hnd
      subst hnd
      have := ih r (some b) hr' rfl
      simp only [PTree.height]
      omega

theorem leafPath_height {h : Heap V} : ∀ (T : PTree V) (par : Ptr), Rep h par T →
    T ≠ .nil → LeafPath h T.ptr T.height
  | .nil, _, _, hne => absurd rfl hne
  | .node a c l v r, _, hr, _ => by
    obtain ⟨ha, hl, hr'⟩ := hr
    simp only [PTree.ptr_node, PTree.height]
    by_cases hlr : r.height ≤ l.height
    · rw [max_eq_left hlr]
      by_cases hl0 : l = .nil
      · subst hl0
        have hr0 : r = .nil := PTree.height_eq_zero (by simpa [PTree.height] using hlr)
        subst hr0
        exact LeafPath.leaf ha rfl rfl
      · exact LeafPath.left ha (leafPath_height l (some a) hl hl0)
    · have hlt : l.height < r.height := by omega
      rw [max_eq_right (le_of_lt hlt)]
      have hr0 : r ≠ .nil := by
        rintro rfl
        simp [PTree.height] at hlt
      exact LeafPath.right ha (leafPath_height r (some a) hr' hr0)

end RedBlack

namespace RedBlack

variable {V : Type}

/-! ## The renderings -/

/-- `Node.String` on a stored tree gives the rendering `S`. -/
theorem String_spec {h : Heap V} (fmt : V → Text) : ∀ (T : PTree V) (par : Ptr) (fuel : Nat),
    Rep h par T → T.height < fuel → Node.String fmt fuel h T.ptr = .ok (T.S fmt)
  | .nil, _, fuel, _, hf => by
    obtain ⟨fuel, rfl⟩ : ∃ k, fuel = k + 1 := ⟨fuel - 1, by omega⟩
    simp [Node.String, PTree.S]
  | .node a c l v r, _, fuel, hr, hf => by
    simp only [PTree.height] at hf
    obtain ⟨fuel, rfl⟩ : ∃ k, fuel = k + 1 := ⟨fuel - 1, by omega⟩
    obtain ⟨ha, hl, hr'⟩ := hr
    rw [Node.String]
    simp only [PTree.ptr_node, reduceCtorEq, if_false, load_some ha, bind_ok, pure_eq_ok,
      String_spec fmt l (some a) fuel hl (by omega),
      String_spec fmt r (some a) fuel hr' (by omega), PTree.S]

/-- `Node.Json` on a stored tree gives the rendering `J`, with the value of the parent
read from memory. -/
theorem Json_spec {h : Heap V} (fmt : V → Text) : ∀ (T : PTree V) (par : Ptr) (pv : Option V)
    (fuel : Nat), Rep h par T →
    ((par = none ∧ pv = none) ∨ ∃ pa pd, par = some pa ∧ h[pa]? = some pd ∧ pv = some pd.val) →
    T.height < fuel → Node.Json fmt fuel h T.ptr = .ok (T.J fmt pv)
  | .nil, _, _, fuel, _, _, hf => by
    obtain ⟨fuel, rfl⟩ : ∃ k, fuel = k + 1 := ⟨fuel - 1, by omega⟩
    simp [Node.Json, PTree.J]
  | .node a c l v r, par, pv, fuel, hr, hp, hf => by
    simp only [PTree.height] at hf
    obtain ⟨fuel, rfl⟩ : ∃ k, fuel = k + 1 := ⟨fuel - 1, by omega⟩
    obtain ⟨ha, hl, hr'⟩ := hr
    have hsub : (some a = none ∧ some v = none) ∨ ∃ pa pd, some a = some pa ∧
        h[pa]? = some pd ∧ some v = some pd.val := Or.inr ⟨a, _, rfl, ha, rfl⟩
    rw [Node.Json]
    simp only [PTree.ptr_node, reduceCtorEq, if_false, load_some ha, bind_ok, pure_eq_ok,
      Json_spec fmt l (some a) (some v) fuel hl hsub (by omega),
      Json_spec fmt r (some a) (some v) fuel hr' hsub (by omega), PTree.J, Color.String]
    rcases hp with ⟨rfl, rfl⟩ | ⟨pa, pd, rfl, hpd, rfl⟩
    · simp only [if_true, pure_eq_ok, bind_ok]
    · simp only [reduceCtorEq, if_false, load_some hpd, bind_ok, pure_eq_ok]

end RedBlack

namespace RedBlack

variable {V : Type}

/-! ## The in-order traversal -/

/-- The in-order traversal of a stored tree is the in-order list of the tree. -/
theorem inOrder_spec {h : Heap V} : ∀ (T : PTree V) (par : Ptr) (fuel : Nat), Rep h par T →
    T.height < fuel → inOrder fuel h T.ptr = .ok T.toList
  | .nil, _, fuel, _, hf => by
    obtain ⟨fuel, rfl⟩ : ∃ k, fuel = k + 1 := ⟨fuel - 1, by omega⟩
    simp [inOrder, PTree.toList]
  | .node a c l v r, _, fuel, hr, hf => by
    simp only [PTree.height] at hf
    obtain ⟨fuel, rfl⟩ : ∃ k, fuel = k + 1 := ⟨fuel - 1, by omega⟩
    obtain ⟨ha, hl, hr'⟩ := hr
    rw [inOrder]
    simp only [PTree.ptr_node, reduceCtorEq, if_false, load_some ha, bind_ok, pure_eq_ok,
      inOrder_spec l (some a) fuel hl (by omega),
      inOrder_spec r (some a) fuel hr' (by omega), PTree.toList]

variable [LinearOrder V]

/-- A strictly increasing list with the members of `xs` is `xs` without duplicates,
sorted. -/
theorem sorted_eq_sort_dedup {l xs : List V} (hs : l.Sorted (· < ·))
    (hm : ∀ y, y ∈ l ↔ y ∈ xs) : l = xs.dedup.insertionSort (· ≤ ·) := by
  have h1 : l.Sorted (· ≤ ·) := hs.imp le_of_lt
  have h2 : (xs.dedup.insertionSort (· ≤ ·)).Sorted (· ≤ ·) := List.sorted_insertionSort _ _
  refine List.eq_of_perm_of_sorted ?_ h1 h2
  refine (List.perm_ext_iff_of_nodup hs.nodup ?_).2 ?_
  · exact (List.perm_insertionSort _ _).nodup_iff.2 (List.nodup_dedup xs)
  · intro y
    rw [hm, (List.perm_insertionSort _ _).mem_iff, List.mem_dedup]

end RedBlack

namespace RedBlack

variable {V : Type}

/-! ## Mirror images -/

@[simp]
theorem Node.mirror_left (nd : Node V) : nd.mirror.left = nd.right := rfl

@[simp]
theorem Node.mirror_right (nd : Node V) : nd.mirror.right = nd.left := rfl

@[simp]
theorem Node.mirror_p (nd : Node V) : nd.mirror.p = nd.p := rfl

@[simp]
theorem Node.mirror_twice (nd : Node V) : nd.mirror.mirror = nd := rfl

@[simp]
theorem mirror_mirror (h : Heap V) : mirror (mirror h) = h := by
  simp [mirror, Function.comp_def]

@[simp]
theorem mirror_length (h : Heap V) : (mirror h).length = h.length := by
  simp [mirror]

theorem mirror_get (h : Heap V) (k : Nat) : (mirror h)[k]? = (h[k]?).map Node.mirror := by
  simp [mirror]

theorem throw_eq {α : Type} (e : Fault) : (throw e : Except Fault α) = .error e := rfl

theorem load_mirror (h : Heap V) (p : Ptr) :
    load (mirror h) p = load h p >>= fun nd => pure nd.mirror := by
  cases p with
  | none => rfl
  | some a =>
    simp only [load, mirror_get]
    cases h[a]? <;> rfl

theorem store_mirror (h : Heap V) (p : Ptr) (nd : Node V) :
    store (mirror h) p nd.mirror = store h p nd >>= fun h1 => pure (mirror h1) := by
  cases p with
  | none => rfl
  | some a =>
    simp only [store, mirror_get]
    cases h[a]? with
    | none => rfl
    | some x =>
      simp only [Option.map_some', bind_ok, pure_eq_ok]
      congr 1
      simp [mirror, List.map_set]

theorem setP_mirror (h : Heap V) (n q : Ptr) :
    setP (mirror h) n q = setP h n q >>= fun h1 => pure (mirror h1) := by
  unfold setP
  rw [load_mirror]
  simp only [bind_assoc, pure_bind]
  congr 1
  funext nd
  exact store_mirror h n { nd with p := q }

theorem setLeft_mirror (h : Heap V) (n q : Ptr) :
    setLeft (mirror h) n q = setRight h n q >>= fun h1 => pure (mirror h1) := by
  unfold setLeft setRight
  rw [load_mirror]
  simp only [bind_assoc, pure_bind]
  congr 1
  funext nd
  exact store_mirror h n { nd with right := q }

theorem setRight_mirror (h : Heap V) (n q : Ptr) :
    setRight (mirror h) n q = setLeft h n q >>= fun h1 => pure (mirror h1) := by
  unfold setLeft setRight
  rw [load_mirror]
  simp only [bind_assoc, pure_bind]
  congr 1
  funext nd
  exact store_mirror h n { nd with left := q }

theorem setPIfPresent_mirror (h : Heap V) (q r : Ptr) :
    setPIfPresent (mirror h) q r = setPIfPresent h q r >>= fun h1 => pure (mirror h1) := by
  unfold setPIfPresent
  split
  · exact setP_mirror h q r
  · rfl

theorem alloc_mirror (h : Heap V) (nd : Node V) :
    alloc (mirror h) nd.mirror = (mirror (alloc h nd).1, (alloc h nd).2) := by
  simp [alloc, mirror]

end RedBlack

namespace RedBlack

variable {V : Type}

/-! ## Two guarded parent assignments, in either order -/

theorem setPIfPresent_eq (h : Heap V) (q r : Ptr) :
    setPIfPresent h q r = if inMem h q then .ok (updP h q r) else .error Fault.nilDeref := by
  cases q with
  | none => simp [setPIfPresent, inMem, updP]
  | some a =>
    simp only [setPIfPresent, ne_eq, reduceCtorEq, not_false_eq_true, if_true, setP, load, store,
      inMem, updP, decide_eq_true_eq]
    cases hg : h[a]? with
    | none =>
      have : ¬ a < h.length := by
        intro hlt
        rw [List.getElem?_eq_getElem hlt] at hg
        exact nomatch hg
      simp [this]
    | some nd =>
      have := lt_of_get hg
      simp [this, hg]

theorem updP_length (h : Heap V) (q r : Ptr) : (updP h q r).length = h.length := by
  unfold updP
  split
  · rfl
  · split <;> simp

theorem inMem_updP (h : Heap V) (q r q' : Ptr) : inMem (updP h q r) q' = inMem h q' := by
  cases q' with
  | none => rfl
  | some a => simp only [inMem, updP_length]

theorem updP_get (h : Heap V) (q r : Ptr) (k : Nat) :
    (updP h q r)[k]? = (h[k]?).map (fun nd => if q = some k then { nd with p := r } else nd) := by
  cases q with
  | none => simp [updP]
  | some a =>
    simp only [updP, Option.some.injEq]
    cases hg : h[a]? with
    | none =>
      simp only
      by_cases hak : a = k
      · subst hak; simp [hg]
      · cases h[k]? <;> simp [hak]
    | some nd =>
      simp only
      rw [get_set _ k hg]
      by_cases hak : k = a
      · subst hak; simp [hg]
      · have hak' : ¬ a = k := fun e => hak e.symm
        cases h[k]? <;> simp [hak, hak']

theorem updP_comm (h : Heap V) (q1 q2 r : Ptr) :
    updP (updP h q1 r) q2 r = updP (updP h q2 r) q1 r := by
  apply List.ext_getElem?
  intro k
  simp only [updP_get, Option.map_map]
  cases h[k]? with
  | none => rfl
  | some nd =>
    simp only [Option.map_some', Function.comp_apply, Option.some.injEq]
    by_cases h1 : q1 = some k <;> by_cases h2 : q2 = some k <;> simp [h1, h2]

theorem load_updP (h : Heap V) (q r c : Ptr) :
    load (updP h q r) c =
      load h c >>= fun nd => pure (if q = c then { nd with p := r } else nd) := by
  cases c with
  | none => rfl
  | some k =>
    simp only [load, updP_get]
    cases h[k]? <;> rfl

end RedBlack

namespace RedBlack

variable {V : Type}

/-! ## `RightRotate` is the mirror image of `LeftRotate` -/

theorem ite_bind_except {α β : Type} (c : Prop) [Decidable c] (x y : Except Fault α)
    (f : α → Except Fault β) :
    (if c then x else y) >>= f = if c then x >>= f else y >>= f := by
  split <;> rfl

theorem except_bind_congr {α β : Type} {x : Except Fault α} {f g : α → Except Fault β}
    (h : ∀ a, f a = g a) : x >>= f = x >>= g := by
  have : f = g := funext h
  rw [this]

/-- The two assignments `x.left.p = x` and `x.right.p = x`, each made only when the
child is present, give the same memory in either order. -/
theorem setP_children_comm {β : Type} (h : Heap V) (c : Ptr) (K : Heap V → Except Fault β) :
    (do
      let a ← load h c
      let b ← load h a.left
      let h1 ← setPIfPresent h b.right a.left
      let a1 ← load h1 c
      let b1 ← load h1 a1.left
      let h2 ← setPIfPresent h1 b1.left a1.left
      K h2) =
    (do
      let a ← load h c
      let b ← load h a.left
      let h1 ← setPIfPresent h b.left a.left
      let a1 ← load h1 c
      let b1 ← load h1 a1.left
      let h2 ← setPIfPresent h1 b1.right a1.left
      K h2) := by
  cases hc : load h c with
  | error e => rfl
  | ok a =>
    simp only [bind_ok]
    cases hx : load h a.left with
    | error e => rfl
    | ok b =>
      simp only [bind_ok, setPIfPresent_eq, ite_bind_except, bind_error, load_updP, hc, hx,
        pure_eq_ok, apply_ite Node.left, apply_ite Node.right, ite_self, inMem_updP,
        updP_comm h b.right b.left a.left]
      by_cases h1 : inMem h b.right = true <;> by_cases h2 : inMem h b.left = true <;>
        simp [h1, h2]

/-- `LeftRotate` on the mirror image of a memory is `RightRotate` on the memory,
mirrored. -/
theorem LeftRotate_mirror (h : Heap V) (n : Ptr) :
    Node.LeftRotate (mirror h) n = Node.RightRotate h n >>= fun h1 => pure (mirror h1) := by
  unfold Node.LeftRotate Node.RightRotate
  simp only [load_mirror, bind_assoc, pure_bind, Node.mirror_left, Node.mirror_right,
    Node.mirror_p, ite_bind_except, throw_eq, bind_error, alloc_mirror, store_mirror,
    setP_mirror, setLeft_mirror, setRight_mirror, setPIfPresent_mirror]
  refine except_bind_congr (fun x => ?_)
  refine if_congr Iff.rfl rfl ?_
  refine except_bind_congr (fun x1 => ?_)
  refine except_bind_congr (fun x2 => ?_)
  refine except_bind_congr (fun x3 => ?_)
  refine except_bind_congr (fun x4 => ?_)
  refine except_bind_congr (fun x5 => ?_)
  refine except_bind_congr (fun x6 => ?_)
  refine if_congr Iff.rfl rfl ?_
  refine except_bind_congr (fun x7 => ?_)
  refine except_bind_congr (fun x8 => ?_)
  refine except_bind_congr (fun x9 => ?_)
  exact setP_children_comm x9 (alloc h x).2 _

end RedBlack

namespace RedBlack

variable {V : Type}

/-! ## How long the fixup and an insertion run -/

theorem Frame.fill_size (f : Frame V) (t : PTree V) :
    (f.fill t).size = t.size + f.sib.size + 1 := by
  unfold Frame.fill
  split
  · simp only [PTree.size]
  · simp only [PTree.size]
    omega

/-- A node that lies `ctx.length` steps below the root is in a tree of more than
`ctx.length` nodes. -/
theorem plug_size : ∀ (ctx : List (Frame V)) (t : PTree V),
    ctx.length + t.size ≤ (plug ctx t).size
  | [], t => by simp [plug]
  | f :: fs, t => by
    have := plug_size fs (f.fill t)
    rw [Frame.fill_size] at this
    simp only [plug, List.length_cons]
    omega

/-- The fixup started at any node of a stored tree returns, and the memory then holds
a tree again. -/
theorem fix_terminates {t : Tree V} {T : PTree V} {a : Nat} {fuel : Nat} (hH : t.Holds T)
    (hnd : T.addrs.Nodup) (hra : Reach t.mem t.node a) (hf : T.size + 3 ≤ fuel) :
    ∃ h' T', Node.FixViolations fuel t.mem (some a) = .ok h' ∧ Rep h' none T' := by
  obtain ⟨hptr, hrep⟩ := hH
  rw [← hptr] at hra
  obtain ⟨ctx, s, rfl, hs⟩ := reach_plug hrep hra
  have hsz := plug_size ctx s
  obtain ⟨h', e, hr', _, _⟩ := fix_refines ctx s a t.mem fuel hrep hs hnd (by omega)
  exact ⟨h', _, e, hr'⟩

end RedBlack

namespace RedBlack

variable {V : Type} [LinearOrder V]

/-! ## Three values, in any order -/

theorem insertF_nil (m : Nat) (x : V) :
    insertF m .nil x = .node m Color.Black .nil x .nil := rfl

/-- Three insertions into the empty tree, as three steps of `insertF`. -/
theorem three_inserts (x y z : V) (fuel : Nat) (hf : 6 ≤ fuel) :
    ∃ t m2 m3, Tree.InsertAll fuel MakeTree [x, y, z] = .ok t ∧
      t.Holds (insertF m3 (insertF m2 (insertF 0 .nil x) y) z) := by
  obtain ⟨t1, e1, hH1, hnd1⟩ := Insert_refines MakeTree .nil x fuel MakeTree_holds
    (by simp [PTree.addrs]) (by simp only [PTree.height]; omega)
  have hm : (MakeTree : Tree V).mem.length = 0 := rfl
  rw [hm] at hH1 hnd1
  have hh1 : (insertF 0 .nil x).height = 1 := by simp [insertF_nil, PTree.height]
  have ho1 : (insertF 0 .nil x).Ordered := by
    simp [insertF_nil, PTree.Ordered, PTree.toList]
  have hs1 : (insertF 0 .nil x).size = 1 := by simp [insertF_nil, PTree.size]
  obtain ⟨t2, e2, hH2, hnd2⟩ := Insert_refines t1 _ y fuel hH1 hnd1 (by omega)
  have hs2 := insertF_size t1.mem.length (insertF 0 .nil x) y ho1
  have hh2 := PTree.height_le_size (insertF t1.mem.length (insertF 0 .nil x) y)
  obtain ⟨t3, e3, hH3, _⟩ := Insert_refines t2 _ z fuel hH2 hnd2 (by split at hs2 <;> omega)
  refine ⟨t3, t1.mem.length, t2.mem.length, ?_, hH3⟩
  simp only [Tree.InsertAll, e1, bind_ok, e2, e3]

theorem insertF_abc {a b c : V} (hab : a < b) (hbc : b < c) (m1 m2 m3 : Nat) :
    insertF m3 (insertF m2 (insertF m1 .nil a) b) c =
      .node m1 Color.Black (.node (m3 + 1) Color.Red .nil a .nil) b
        (.node m3 Color.Red .nil c .nil) := by
  have hac := hab.trans hbc
  simp [insertF, insF, fixF, lineStep, Frame.fill, plug, PTree.blacken, PTree.rotL, PTree.rotR,
    PTree.rootColor, Color.recolor, PTree.moveTo, Frame.rotUp, Frame.rotDown,
    hab, hbc, hac, hab.ne', hbc.ne', hac.ne', hab.not_lt, hbc.not_lt, hac.not_lt]

theorem insertF_acb {a b c : V} (hab : a < b) (hbc : b < c) (m1 m2 m3 : Nat) :
    insertF m3 (insertF m2 (insertF m1 .nil a) c) b =
      .node m1 Color.Black (.node (m3 + 2) Color.Red .nil a .nil) b
        (.node (m3 + 1) Color.Red .nil c .nil) := by
  have hac := hab.trans hbc
  simp [insertF, insF, fixF, lineStep, Frame.fill, plug, PTree.blacken, PTree.rotL, PTree.rotR,
    PTree.rootColor, Color.recolor, PTree.moveTo, Frame.rotUp, Frame.rotDown,
    hab, hbc, hac, hab.ne', hbc.ne', hac.ne', hab.ne, hbc.ne, hac.ne,
    hab.not_lt, hbc.not_lt, hac.not_lt]

theorem insertF_bac {a b c : V} (hab : a < b) (hbc : b < c) (m1 m2 m3 : Nat) :
    insertF m3 (insertF m2 (insertF m1 .nil b) a) c =
      .node m1 Color.Black (.node m2 Color.Red .nil a .nil) b
        (.node m3 Color.Red .nil c .nil) := by
  have hac := hab.trans hbc
  simp [insertF, insF, fixF, lineStep, Frame.fill, plug, PTree.blacken, PTree.rotL, PTree.rotR,
    PTree.rootColor, Color.recolor, PTree.moveTo, Frame.rotUp, Frame.rotDown,
    hab, hbc, hac, hab.ne', hbc.ne', hac.ne', hab.ne, hbc.ne, hac.ne,
    hab.not_lt, hbc.not_lt, hac.not_lt]

theorem insertF_bca {a b c : V} (hab : a < b) (hbc : b < c) (m1 m2 m3 : Nat) :
    insertF m3 (insertF m2 (insertF m1 .nil b) c) a =
      .node m1 Color.Black (.node m3 Color.Red .nil a .nil) b
        (.node m2 Color.Red .nil c .nil) := by
  have hac := hab.trans hbc
  simp [insertF, insF, fixF, lineStep, Frame.fill, plug, PTree.blacken, PTree.rotL, PTree.rotR,
    PTree.rootColor, Color.recolor, PTree.moveTo, Frame.rotUp, Frame.rotDown,
    hab, hbc, hac, hab.ne', hbc.ne', hac.ne', hab.ne, hbc.ne, hac.ne,
    hab.not_lt, hbc.not_lt, hac.not_lt]

theorem insertF_cab {a b c : V} (hab : a < b) (hbc : b < c) (m1 m2 m3 : Nat) :
    insertF m3 (insertF m2 (insertF m1 .nil c) a) b =
      .node m1 Color.Black (.node (m3 + 1) Color.Red .nil a .nil) b
        (.node (m3 + 2) Color.Red .nil c .nil) := by
  have hac := hab.trans hbc
  simp [insertF, insF, fixF, lineStep, Frame.fill, plug, PTree.blacken, PTree.rotL, PTree.rotR,
    PTree.rootColor, Color.recolor, PTree.moveTo, Frame.rotUp, Frame.rotDown,
    hab, hbc, hac, hab.ne', hbc.ne', hac.ne', hab.ne, hbc.ne, hac.ne,
    hab.not_lt, hbc.not_lt, hac.not_lt]

theorem insertF_cba {a b c : V} (hab : a < b) (hbc : b < c) (m1 m2 m3 : Nat) :
    insertF m3 (insertF m2 (insertF m1 .nil c) b) a =
      .node m1 Color.Black (.node m3 Color.Red .nil a .nil) b
        (.node (m3 + 1) Color.Red .nil c .nil) := by
  have hac := hab.trans hbc
  simp [insertF, insF, fixF, lineStep, Frame.fill, plug, PTree.blacken, PTree.rotL, PTree.rotR,
    PTree.rootColor, Color.recolor, PTree.moveTo, Frame.rotUp, Frame.rotDown,
    hab, hbc, hac, hab.ne', hbc.ne', hac.ne', hab.ne, hbc.ne, hac.ne,
    hab.not_lt, hbc.not_lt, hac.not_lt]

end RedBlack

namespace RedBlack

variable {V : Type}

/-- What memory holds when it holds a Black root with two Red leaves. -/
theorem holds_three {t : Tree V} {r l g : Nat} {a b c : V} (fuel : Nat)
    (hH : t.Holds (.node r Color.Black (.node l Color.Red .nil a .nil) b
      (.node g Color.Red .nil c .nil))) (hf : 2 < fuel) :
    ∃ r l g, t.node = some r ∧
      t.mem[r]? = some ⟨b, Color.Black, none, some l, some g⟩ ∧
      t.mem[l]? = some ⟨a, Color.Red, some r, none, none⟩ ∧
      t.mem[g]? = some ⟨c, Color.Red, some r, none, none⟩ ∧
      Tree.Height fuel t = .ok 2 := by
  obtain ⟨hptr, hrep⟩ := hH
  refine ⟨r, l, g, hptr.symm, hrep.1, hrep.2.1.1, hrep.2.2.1, ?_⟩
  unfold Tree.Height
  rw [← hptr, Height_spec _ none fuel 0 hrep (by simp [PTree.height]; omega)]
  simp [PTree.height]

end RedBlack
namespace RedBlack

variable {V : Type}

/-! ## The state in which `Insert` starts the fixup -/

/-- The path with a hole obeys the colour rule exactly when the tree with nothing in
the hole does. -/
theorem ctxNoRedRed_iff (ctx : List (Frame V)) :
    ctxNoRedRed ctx ↔ (plug ctx .nil).NoRedRed := by
  rw [plug_noRedRed]
  simp [PTree.NoRedRed, PTree.rootColor]

/-- A new leaf below `f` hangs from a path that obeys the colour rule, when the tree
did before the leaf was put in. -/
theorem ctxNoRedRed_attach {ctx : List (Frame V)} {f : Frame V}
    (h : (plug ctx (f.fill .nil)).NoRedRed) : ctxNoRedRed (f :: ctx) := by
  rw [ctxNoRedRed_iff]
  exact h

end RedBlack

namespace RedBlack

variable {V : Type} [LinearOrder V]

/-- `Node.Insert` on a tree in which no Red node has a Red child either finds the value
and changes nothing, or links in a Red leaf at the first free address and is then the
fixup started at that leaf, in a memory that holds the tree with the leaf, on a path
that obeys the colour rule. -/
theorem ins_fix_state : ∀ (t : PTree V) (ctx : List (Frame V)) (h : Heap V) (v : V)
    (fix fuel na : Nat), Rep h none (plug ctx t) → t.ptr = some na →
    (plug ctx t).addrs.Nodup → (plug ctx t).NoRedRed → t.height ≤ fuel →
    Node.Insert fix fuel h (some na) v = .ok h ∨
    ∃ ctx1 h1, Node.Insert fix fuel h (some na) v =
        Node.FixViolations fix h1 (some h.length) ∧
      Rep h1 none (plug ctx1 (.node h.length Color.Red .nil v .nil)) ∧
      (plug ctx1 (.node h.length Color.Red .nil v .nil)).addrs.Nodup ∧
      ctxNoRedRed ctx1
  | .nil, _, _, _, _, _, _, _, hna, _, _, _ => by simp at hna
  | .node a c l x r, ctx, h, v, fix, fuel, na, hr, hna, hnd, hnr, hfuel => by
    simp only [PTree.ptr_node, Option.some.injEq] at hna
    subst hna
    simp only [PTree.height] at hfuel
    obtain ⟨fuel, rfl⟩ : ∃ k, fuel = k + 1 := ⟨fuel - 1, by omega⟩
    have hn : h[a]? = some _ := ((Rep_plug ctx _).1 hr).2.1
    rw [Node.Insert]
    simp only [load_some hn, bind_ok]
    by_cases hvx : v = x
    · rw [if_pos hvx]
      exact Or.inl rfl
    rw [if_neg hvx]
    by_cases hgt : v > x
    · rw [if_pos hgt]
      cases r with
      | nil =>
        simp only [PTree.ptr_nil, if_true]
        have hr' : Rep h none (plug ctx
            (({ a := a, c := c, v := x, isLeft := false, sib := l } : Frame V).fill .nil)) := hr
        obtain ⟨h1, e1, hr1, hnd1, l1, nd, hld, hnd2⟩ := attach_leaf v hr' hnd
        simp only [Bool.false_eq_true, if_false] at e1 hnd2
        refine Or.inr ⟨_, h1, ?_, hr1, hnd1, @ctxNoRedRed_attach _ ctx
          ({ a := a, c := c, v := x, isLeft := false, sib := l } : Frame V) hnr⟩
        have ha : (alloc h (Node.mk v Color.Red (some a) none none)).2 = some h.length := rfl
        rw [ha]
        have e1' : setRight (alloc h (Node.mk v Color.Red (some a) none none)).1 (some a)
            (some h.length) = .ok h1 := e1
        rw [e1']
        simp only [bind_ok, hld, hnd2]
      | node ra rc rl rx rr =>
        simp only [PTree.ptr_node, reduceCtorEq, if_false]
        have hr' : Rep h none (plug
            (({ a := a, c := c, v := x, isLeft := false, sib := l } : Frame V) :: ctx)
            (.node ra rc rl rx rr)) := hr
        exact ins_fix_state (.node ra rc rl rx rr)
          (({ a := a, c := c, v := x, isLeft := false, sib := l } : Frame V) :: ctx) h v fix
          fuel ra hr' rfl hnd hnr
          (by have := Nat.le_max_right l.height (PTree.node ra rc rl rx rr).height
              omega)
    · rw [if_neg hgt]
      cases l with
      | nil =>
        simp only [PTree.ptr_nil, if_true]
        have hr' : Rep h none (plug ctx
            (({ a := a, c := c, v := x, isLeft := true, sib := r } : Frame V).fill .nil)) := hr
        obtain ⟨h1, e1, hr1, hnd1, l1, nd, hld, hnd2⟩ := attach_leaf v hr' hnd
        simp only [if_true] at e1 hnd2
        refine Or.inr ⟨_, h1, ?_, hr1, hnd1, @ctxNoRedRed_attach _ ctx
          ({ a := a, c := c, v := x, isLeft := true, sib := r } : Frame V) hnr⟩
        have ha : (alloc h (Node.mk v Color.Red (some a) none none)).2 = some h.length := rfl
        rw [ha]
        have e1' : setLeft (alloc h (Node.mk v Color.Red (some a) none none)).1 (some a)
            (some h.length) = .ok h1 := e1
        rw [e1']
        simp only [bind_ok, hld, hnd2]
      | node la lc ll lx lr =>
        simp only [PTree.ptr_node, reduceCtorEq, if_false]
        have hr' : Rep h none (plug
            (({ a := a, c := c, v := x, isLeft := true, sib := r } : Frame V) :: ctx)
            (.node la lc ll lx lr)) := hr
        exact ins_fix_state (.node la lc ll lx lr)
          (({ a := a, c := c, v := x, isLeft := true, sib := r } : Frame V) :: ctx) h v fix
          fuel la hr' rfl hnd hnr
          (by have := Nat.le_max_left (PTree.node la lc ll lx lr).height r.height
              omega)

end RedBlack

namespace RedBlack

variable {V : Type} [LinearOrder V]

/-! ## The properties of the public operations

In each statement `xs` is the sequence of inserted values and `fuel` bounds the depth
of every recursion; `xs.length + 3 ≤ fuel` is enough for every call to end. As `xs`
ranges over all sequences, a statement about the tree after the last insertion is a
statement about the tree after each insertion. -/

/-- C1: after inserting the values `xs` (duplicates allowed) into the empty tree,
`Contains v` is `true` exactly when `v` occurs in `xs`. -/
theorem C1_contains_iff_inserted (xs : List V) (fuel : Nat) (hf : xs.length + 3 ≤ fuel) :
    ∃ t, Tree.InsertAll fuel MakeTree xs = .ok t ∧
      ∀ v, Tree.Contains fuel t v = .ok (decide (v ∈ xs)) := by
  obtain ⟨t, T, e, ⟨hptr, hrep⟩, hg, hm, hs⟩ := build_spec xs fuel hf
  refine ⟨t, e, fun v => ?_⟩
  have hh := PTree.height_le_size T
  unfold Tree.Contains
  rw [← hptr, Contains_spec v T none fuel hrep hg.2.2.2.2 (by omega)]
  simp only [hm]

theorem C1_contains_iff_inserted_witness :
    ([5, 2, 8, 2] : List Nat).length + 3 ≤ 7 ∧
      ∃ t, Tree.InsertAll 7 MakeTree ([5, 2, 8, 2] : List Nat) = .ok t ∧
        ∀ v, Tree.Contains 7 t v = .ok (decide (v ∈ ([5, 2, 8, 2] : List Nat))) :=
  ⟨by decide, C1_contains_iff_inserted [5, 2, 8, 2] 7 (by decide)⟩

/-- C2: after inserting the values `xs` (duplicates allowed) into the empty tree,
`Size` is the number of distinct values of `xs`. -/
theorem C2_size_eq_distinct (xs : List V) (fuel : Nat) (hf : xs.length + 3 ≤ fuel) :
    ∃ t, Tree.InsertAll fuel MakeTree xs = .ok t ∧
      Tree.Size fuel t = .ok xs.toFinset.card := by
  obtain ⟨t, T, e, ⟨hptr, hrep⟩, hg, hm, hs⟩ := build_spec xs fuel hf
  refine ⟨t, e, ?_⟩
  have hh := PTree.height_le_size T
  unfold Tree.Size
  rw [← hptr, Size_spec T none fuel hrep (by omega), size_eq_card T xs hg.2.2.2.2 hm]

theorem C2_size_eq_distinct_witness :
    ([5, 2, 8, 2] : List Nat).length + 3 ≤ 7 ∧
      ∃ t, Tree.InsertAll 7 MakeTree ([5, 2, 8, 2] : List Nat) = .ok t ∧
        Tree.Size 7 t = .ok ([5, 2, 8, 2] : List Nat).toFinset.card :=
  ⟨by decide, C2_size_eq_distinct [5, 2, 8, 2] 7 (by decide)⟩

/-- C3: on a tree built from the empty tree by insertions, `Insert v` of a value `v`
that the tree contains gives back the same tree in the same memory (every node keeps
its value, colour and pointers), and `Insert v` after `Insert v` of any value changes
nothing. -/
theorem C3_insert_existing_unchanged (xs : List V) (fuel : Nat)
    (hf : xs.length + 3 ≤ fuel) :
    ∃ t, Tree.InsertAll fuel MakeTree xs = .ok t ∧
      (∀ v, Tree.Contains fuel t v = .ok true → Tree.Insert fuel t v = .ok t) ∧
      (∀ v, ∃ t1, Tree.Insert fuel t v = .ok t1 ∧ Tree.Insert fuel t1 v = .ok t1) := by
  obtain ⟨t, T, e, hH, hg, hm, hs⟩ := build_spec xs fuel hf
  have hh := PTree.height_le_size T
  refine ⟨t, e, fun v hc => ?_, fun v => ?_⟩
  · have hc' : Tree.Contains fuel t v = .ok (decide (v ∈ T.toList)) := by
      unfold Tree.Contains
      rw [← hH.1, Contains_spec v T none fuel hH.2 hg.2.2.2.2 (by omega)]
    rw [hc'] at hc
    have hv : v ∈ T.toList := by simpa using hc
    exact Insert_noop t T v fuel hH hg hv (by omega)
  · obtain ⟨t1, e1, hH1, hnd1⟩ := Insert_refines t T v fuel hH hg.1 (by omega)
    have hg1 := insertF_good t.mem.length T v hg hnd1
    have hv : v ∈ (insertF t.mem.length T v).toList := by
      rw [insertF_mem]; exact Or.inl rfl
    have hs1 := insertF_size t.mem.length T v hg.2.2.2.2
    have hh1 := PTree.height_le_size (insertF t.mem.length T v)
    refine ⟨t1, e1, Insert_noop t1 _ v fuel hH1 hg1 hv ?_⟩
    split at hs1 <;> omega

theorem C3_insert_existing_unchanged_witness :
    ([5, 2, 8, 2] : List Nat).length + 3 ≤ 7 ∧
      ∃ t, Tree.InsertAll 7 MakeTree ([5, 2, 8, 2] : List Nat) = .ok t ∧
        (∀ v, Tree.Contains 7 t v = .ok true → Tree.Insert 7 t v = .ok t) ∧
        (∀ v, ∃ t1, Tree.Insert 7 t v = .ok t1 ∧ Tree.Insert 7 t1 v = .ok t1) :=
  ⟨by decide, C3_insert_existing_unchanged [5, 2, 8, 2] 7 (by decide)⟩


/-- C4: after inserting the values `xs` into the empty tree, no Red node reached from
the root has a Red left or right child. -/
theorem C4_no_red_red (xs : List V) (fuel : Nat) (hf : xs.length + 3 ≤ fuel) :
    ∃ t, Tree.InsertAll fuel MakeTree xs = .ok t ∧
      ∀ a nd, Reach t.mem t.node a → t.mem[a]? = some nd → nd.color = Color.Red →
        ∀ b nb, (nd.left = some b ∨ nd.right = some b) → t.mem[b]? = some nb →
          nb.color = Color.Black := by
  obtain ⟨t, T, e, ⟨hptr, hrep⟩, hg, hm, hs⟩ := build_spec xs fuel hf
  refine ⟨t, e, fun a nd hra hnd hred b nb hch hnb => ?_⟩
  rw [← hptr] at hra
  obtain ⟨par, c, l, v, r, ⟨ha, hl, hr⟩, hc, _, _⟩ := reach_rep PTree.NoRedRed
    (fun _ _ _ _ _ hp => ⟨hp.2.1, hp.2.2⟩) hrep hg.2.2.1 hra
  rw [ha] at hnd
  simp only [Option.some.injEq] at hnd
  subst hnd
  simp only at hred hch
  obtain ⟨hcl, hcr⟩ := hc hred
  rcases hch with hch | hch
  · cases l with
    | nil => simp at hch
    | node b' c' l' v' r' =>
      simp only [PTree.ptr_node, Option.some.injEq] at hch
      subst hch
      rw [hl.1] at hnb
      simp only [Option.some.injEq] at hnb
      subst hnb
      exact hcl
  · cases r with
    | nil => simp at hch
    | node b' c' l' v' r' =>
      simp only [PTree.ptr_node, Option.some.injEq] at hch
      subst hch
      rw [hr.1] at hnb
      simp only [Option.some.injEq] at hnb
      subst hnb
      exact hcr

theorem C4_no_red_red_witness :
    ([1, 2, 3, 4] : List Nat).length + 3 ≤ 7 ∧
      ∃ t, Tree.InsertAll 7 MakeTree ([1, 2, 3, 4] : List Nat) = .ok t ∧
        ∀ a nd, Reach t.mem t.node a → t.mem[a]? = some nd → nd.color = Color.Red →
          ∀ b nb, (nd.left = some b ∨ nd.right = some b) → t.mem[b]? = some nb →
            nb.color = Color.Black :=
  ⟨by decide, C4_no_red_red [1, 2, 3, 4] 7 (by decide)⟩

/-- C5: after inserting the values `xs` into the empty tree, for every node reached
from the root there is one number `n` such that the paths from that node down to an
absent child are exactly the paths that cross `n` Black nodes: all of them cross the
same number of Black nodes. -/
theorem C5_uniform_black_height (xs : List V) (fuel : Nat) (hf : xs.length + 3 ≤ fuel) :
    ∃ t, Tree.InsertAll fuel MakeTree xs = .ok t ∧
      ∀ a, Reach t.mem t.node a → ∃ n, ∀ k, BlackPath t.mem (some a) k ↔ k = n := by
  obtain ⟨t, T, e, ⟨hptr, hrep⟩, hg, hm, hs⟩ := build_spec xs fuel hf
  refine ⟨t, e, fun a hra => ?_⟩
  rw [← hptr] at hra
  obtain ⟨par, c, l, v, r, hsub, hb⟩ := reach_rep PTree.Balanced
    (fun _ _ _ _ _ hp => ⟨hp.2.1, hp.2.2⟩) hrep hg.2.2.2.1 hra
  refine ⟨(PTree.node a c l v r).blackCount, fun k => ⟨fun hp => ?_, fun hk => ?_⟩⟩
  · exact blackPath_eq hp _ par hsub rfl hb
  · rw [hk]
    exact blackPath_blackCount _ par hsub

theorem C5_uniform_black_height_witness :
    ([1, 2, 3, 4] : List Nat).length + 3 ≤ 7 ∧
      ∃ t, Tree.InsertAll 7 MakeTree ([1, 2, 3, 4] : List Nat) = .ok t ∧
        ∀ a, Reach t.mem t.node a → ∃ n, ∀ k, BlackPath t.mem (some a) k ↔ k = n :=
  ⟨by decide, C5_uniform_black_height [1, 2, 3, 4] 7 (by decide)⟩

/-- C6: after inserting a non-empty sequence of values `xs` into the empty tree, the
tree has a root node and the colour of that node is Black. -/
theorem C6_root_black (xs : List V) (fuel : Nat) (hne : xs ≠ [])
    (hf : xs.length + 3 ≤ fuel) :
    ∃ t a nd, Tree.InsertAll fuel MakeTree xs = .ok t ∧ t.node = some a ∧
      t.mem[a]? = some nd ∧ nd.color = Color.Black := by
  obtain ⟨t, T, e, ⟨hptr, hrep⟩, hg, hm, hs⟩ := build_spec xs fuel hf
  cases T with
  | nil =>
    obtain ⟨x, hx⟩ := List.exists_mem_of_ne_nil xs hne
    have := (hm x).2 hx
    simp [PTree.toList] at this
  | node a c l v r =>
    have hc : c = Color.Black := hg.2.1
    exact ⟨t, a, _, e, hptr.symm, hrep.1, hc⟩

theorem C6_root_black_witness :
    ([1, 2, 3, 4] : List Nat) ≠ [] ∧ ([1, 2, 3, 4] : List Nat).length + 3 ≤ 7 ∧
      ∃ t a nd, Tree.InsertAll 7 MakeTree ([1, 2, 3, 4] : List Nat) = .ok t ∧
        t.node = some a ∧ t.mem[a]? = some nd ∧ nd.color = Color.Black :=
  ⟨by decide, by decide, C6_root_black [1, 2, 3, 4] 7 (by decide) (by decide)⟩

/-- C7: after inserting the values `xs` into the empty tree, at every node reached from
the root, every value stored below its left child is strictly less than the node's
value and every value stored below its right child is strictly greater. -/
theorem C7_search_order (xs : List V) (fuel : Nat) (hf : xs.length + 3 ≤ fuel) :
    ∃ t, Tree.InsertAll fuel MakeTree xs = .ok t ∧
      ∀ a nd, Reach t.mem t.node a → t.mem[a]? = some nd →
        (∀ b nb, Reach t.mem nd.left b → t.mem[b]? = some nb → nb.val < nd.val) ∧
        (∀ b nb, Reach t.mem nd.right b → t.mem[b]? = some nb → nd.val < nb.val) := by
  obtain ⟨t, T, e, ⟨hptr, hrep⟩, hg, hm, hs⟩ := build_spec xs fuel hf
  refine ⟨t, e, fun a nd hra hnd => ?_⟩
  rw [← hptr] at hra
  obtain ⟨par, c, l, v, r, ⟨ha, hl, hr⟩, hlt, hgt, _, _⟩ := reach_rep PTree.Ordered
    (fun _ _ _ _ _ hp => ⟨hp.2.2.1, hp.2.2.2⟩) hrep hg.2.2.2.2 hra
  rw [ha] at hnd
  simp only [Option.some.injEq] at hnd
  subst hnd
  exact ⟨fun b nb hrb hb => hlt _ (reach_val hl hrb hb),
    fun b nb hrb hb => hgt _ (reach_val hr hrb hb)⟩

theorem C7_search_order_witness :
    ([5, 2, 8, 2] : List Nat).length + 3 ≤ 7 ∧
      ∃ t, Tree.InsertAll 7 MakeTree ([5, 2, 8, 2] : List Nat) = .ok t ∧
        ∀ a nd, Reach t.mem t.node a → t.mem[a]? = some nd →
          (∀ b nb, Reach t.mem nd.left b → t.mem[b]? = some nb → nb.val < nd.val) ∧
          (∀ b nb, Reach t.mem nd.right b → t.mem[b]? = some nb → nd.val < nb.val) :=
  ⟨by decide, C7_search_order [5, 2, 8, 2] 7 (by decide)⟩

/-- C8: after inserting `n` distinct values `xs` into the empty tree, `Height` returns
a number `hgt` with `2 ^ hgt ≤ (n + 1) ^ 2`. -/
theorem C8_height_bound (xs : List V) (fuel : Nat) (hd : xs.Nodup)
    (hf : xs.length + 3 ≤ fuel) :
    ∃ t hgt, Tree.InsertAll fuel MakeTree xs = .ok t ∧ Tree.Height fuel t = .ok hgt ∧
      2 ^ hgt ≤ (xs.length + 1) ^ 2 := by
  obtain ⟨t, T, e, ⟨hptr, hrep⟩, hg, hm, hs⟩ := build_spec xs fuel hf
  have hh := PTree.height_le_size T
  refine ⟨t, T.height, e, ?_, ?_⟩
  · unfold Tree.Height
    rw [← hptr, Height_spec T none fuel 0 hrep (by omega), Nat.zero_add]
  · have hsz : T.size = xs.length := by
      rw [size_eq_card T xs hg.2.2.2.2 hm, List.toFinset_card_of_nodup hd]
    rw [← hsz]
    exact PTree.pow_height_le T hg.2.1 hg.2.2.2.1 hg.2.2.1

theorem C8_height_bound_witness :
    ([1, 2, 3, 4] : List Nat).Nodup ∧ ([1, 2, 3, 4] : List Nat).length + 3 ≤ 7 ∧
      ∃ t hgt, Tree.InsertAll 7 MakeTree ([1, 2, 3, 4] : List Nat) = .ok t ∧
        Tree.Height 7 t = .ok hgt ∧ 2 ^ hgt ≤ (([1, 2, 3, 4] : List Nat).length + 1) ^ 2 :=
  ⟨by decide, by decide, C8_height_bound [1, 2, 3, 4] 7 (by decide) (by decide)⟩

/-- C9: after inserting the values `xs` into the empty tree, the root node records no
parent, and every node that a node reached from the root holds as its left or right
child records that node as its parent. -/
theorem C9_parent_links (xs : List V) (fuel : Nat) (hf : xs.length + 3 ≤ fuel) :
    ∃ t, Tree.InsertAll fuel MakeTree xs = .ok t ∧
      (∀ a, t.node = some a → ∃ nd, t.mem[a]? = some nd ∧ nd.p = none) ∧
      ∀ a nd, Reach t.mem t.node a → t.mem[a]? = some nd →
        ∀ b, (nd.left = some b ∨ nd.right = some b) →
          ∃ nb, t.mem[b]? = some nb ∧ nb.p = some a := by
  obtain ⟨t, T, e, ⟨hptr, hrep⟩, hg, hm, hs⟩ := build_spec xs fuel hf
  refine ⟨t, e, fun a ha => ?_, fun a nd hra hnd b hch => ?_⟩
  · rw [← hptr] at ha
    cases T with
    | nil => simp at ha
    | node a' c l v r =>
      simp only [PTree.ptr_node, Option.some.injEq] at ha
      subst ha
      exact ⟨_, hrep.1, rfl⟩
  · rw [← hptr] at hra
    obtain ⟨par, c, l, v, r, ⟨ha, hl, hr⟩, _⟩ := reach_rep (fun _ => True)
      (fun _ _ _ _ _ _ => ⟨trivial, trivial⟩) hrep trivial hra
    rw [ha] at hnd
    simp only [Option.some.injEq] at hnd
    subst hnd
    simp only at hch
    rcases hch with hch | hch
    · cases l with
      | nil => simp at hch
      | node b' c' l' v' r' =>
        simp only [PTree.ptr_node, Option.some.injEq] at hch
        subst hch
        exact ⟨_, hl.1, rfl⟩
    · cases r with
      | nil => simp at hch
      | node b' c' l' v' r' =>
        simp only [PTree.ptr_node, Option.some.injEq] at hch
        subst hch
        exact ⟨_, hr.1, rfl⟩

theorem C9_parent_links_witness :
    ([1, 2, 3, 4] : List Nat).length + 3 ≤ 7 ∧
      ∃ t, Tree.InsertAll 7 MakeTree ([1, 2, 3, 4] : List Nat) = .ok t ∧
        (∀ a, t.node = some a → ∃ nd, t.mem[a]? = some nd ∧ nd.p = none) ∧
        ∀ a nd, Reach t.mem t.node a → t.mem[a]? = some nd →
          ∀ b, (nd.left = some b ∨ nd.right = some b) →
            ∃ nb, t.mem[b]? = some nb ∧ nb.p = some a :=
  ⟨by decide, C9_parent_links [1, 2, 3, 4] 7 (by decide)⟩


/-- C10: every sequence of `Insert` calls from the empty tree runs to its end and gives
a tree: no call reaches the fatal failure of `LeftRotate` without a right child or of
`RightRotate` without a left child, and none goes on from an absent node. -/
theorem C10_insert_never_fails (xs : List V) (fuel : Nat) (hf : xs.length + 3 ≤ fuel) :
    (∃ t, Tree.InsertAll fuel MakeTree xs = .ok t) ∧
      Tree.InsertAll fuel MakeTree xs ≠ .error Fault.rotatePanic ∧
      Tree.InsertAll fuel MakeTree xs ≠ .error Fault.nilDeref := by
  obtain ⟨t, T, e, _⟩ := build_spec xs fuel hf
  refine ⟨⟨t, e⟩, ?_, ?_⟩ <;> rw [e] <;> exact fun h => nomatch h

theorem C10_insert_never_fails_witness :
    ([1, 2, 3, 4] : List Nat).length + 3 ≤ 7 ∧
      (∃ t, Tree.InsertAll 7 MakeTree ([1, 2, 3, 4] : List Nat) = .ok t) ∧
      Tree.InsertAll 7 MakeTree ([1, 2, 3, 4] : List Nat) ≠ .error Fault.rotatePanic ∧
      Tree.InsertAll 7 MakeTree ([1, 2, 3, 4] : List Nat) ≠ .error Fault.nilDeref :=
  ⟨by decide, C10_insert_never_fails [1, 2, 3, 4] 7 (by decide)⟩

end RedBlack

namespace RedBlack

variable {V : Type}

/-! ## The rotations, the uncle, and the queries -/

/-- C11: for every node `n` in memory, `LeftRotate(n)` stops on the precondition failure
exactly when `n` has no right child and `RightRotate(n)` exactly when `n` has no left
child, in the run that keeps its memory as well as in `Node.LeftRotate` and
`Node.RightRotate`; and the run that stops on that failure leaves the whole memory as
it was. -/
theorem C11_rotate_precondition (h : Heap V) (a : Nat) (nd : Node V)
    (hn : h[a]? = some nd) :
    ((Node.LeftRotateRun (some a) h).2 = .error Fault.rotatePanic ↔ nd.right = none) ∧
    ((Node.LeftRotateRun (some a) h).2 = .error Fault.rotatePanic →
      (Node.LeftRotateRun (some a) h).1 = h) ∧
    (Node.LeftRotate h (some a) = .error Fault.rotatePanic ↔ nd.right = none) ∧
    ((Node.RightRotateRun (some a) h).2 = .error Fault.rotatePanic ↔ nd.left = none) ∧
    ((Node.RightRotateRun (some a) h).2 = .error Fault.rotatePanic →
      (Node.RightRotateRun (some a) h).1 = h) ∧
    (Node.RightRotate h (some a) = .error Fault.rotatePanic ↔ nd.left = none) := by
  have L : Node.LeftRotate h (some a) = .error Fault.rotatePanic ↔ nd.right = none := by
    constructor
    · intro e
      by_contra hr
      exact LeftRotate_quiet hn hr e
    · intro hr
      rw [← LeftRotateRun_result, run_result_error, LeftRotateRun_panic hn hr]
  have R : Node.RightRotate h (some a) = .error Fault.rotatePanic ↔ nd.left = none := by
    constructor
    · intro e
      by_contra hl
      exact RightRotate_quiet hn hl e
    · intro hl
      rw [← RightRotateRun_result, run_result_error, RightRotateRun_panic hn hl]
  have L' : (Node.LeftRotateRun (some a) h).2 = .error Fault.rotatePanic ↔ nd.right = none := by
    rw [← run_result_error, LeftRotateRun_result]
    exact L
  have R' : (Node.RightRotateRun (some a) h).2 = .error Fault.rotatePanic ↔ nd.left = none := by
    rw [← run_result_error, RightRotateRun_result]
    exact R
  refine ⟨L', fun e => ?_, L, R', fun e => ?_, R⟩
  · rw [LeftRotateRun_panic hn (L'.1 e)]
  · rw [RightRotateRun_panic hn (R'.1 e)]

theorem C11_rotate_precondition_witness :
    ([⟨7, Color.Black, none, some 1, none⟩, ⟨5, Color.Red, some 0, none, none⟩] :
        Heap Nat)[0]? = some ⟨7, Color.Black, none, some 1, none⟩ ∧
    (Node.LeftRotate ([⟨7, Color.Black, none, some 1, none⟩,
        ⟨5, Color.Red, some 0, none, none⟩] : Heap Nat) (some 0)
      = .error Fault.rotatePanic ↔ (none : Ptr) = none) :=
  ⟨rfl, (C11_rotate_precondition
    ([⟨7, Color.Black, none, some 1, none⟩, ⟨5, Color.Red, some 0, none, none⟩] : Heap Nat)
    0 ⟨7, Color.Black, none, some 1, none⟩ rfl).2.2.1⟩

/-- C12: when memory holds, below `par`, a node `n` with value `x`, colour `c`, left
subtree `A` and a right child with value `y`, colour `d` and subtrees `B` and `C`,
`LeftRotate(n)` ends without a fault and memory then holds, below the same `par` and at
the same address `n`, value `y` with colour `d` and right subtree `C`, and as its left
child a fresh record with value `x`, colour `c`, left subtree `A` and right subtree `B`
(whose root record now lives at the address of the former right child; empty when `B`
is empty). -/
theorem C12_left_rotate_effect {h : Heap V} {par : Ptr} {n ra : Nat} {c d : Color}
    {A B C : PTree V} {x y : V}
    (hr : Rep h par (.node n c A x (.node ra d B y C)))
    (hnd : (PTree.node n c A x (.node ra d B y C)).addrs.Nodup) :
    ∃ h', Node.LeftRotate h (some n) = .ok h' ∧
      Rep h' par (.node n d (.node h.length c A x (B.moveTo ra)) y C) ∧
      h'[n]? = some ⟨y, d, par, some h.length, C.ptr⟩ ∧
      h'[h.length]? = some ⟨x, c, some n, A.ptr, (B.moveTo ra).ptr⟩ ∧
      (B = .nil → B.moveTo ra = .nil) ∧
      (∀ b e l v r, B = .node b e l v r → B.moveTo ra = .node ra e l v r) := by
  obtain ⟨h', e, hr', _, _⟩ := LeftRotate_spec hr hnd
  refine ⟨h', e, hr', hr'.1, hr'.2.1.1, ?_, ?_⟩
  · rintro rfl; rfl
  · rintro b e l v r rfl; rfl

theorem C12_left_rotate_effect_witness :
    ∃ h', Node.LeftRotate ([⟨5, Color.Black, none, none, some 1⟩,
        ⟨7, Color.Red, some 0, none, none⟩] : Heap Nat) (some 0) = .ok h' ∧
      Rep h' none (.node 0 Color.Red (.node 2 Color.Black .nil 5 (PTree.nil.moveTo 1)) 7 .nil) ∧
      h'[0]? = some ⟨7, Color.Red, none, some 2, none⟩ ∧
      h'[2]? = some ⟨5, Color.Black, some 0, none, none⟩ ∧
      ((PTree.nil : PTree Nat) = .nil → (PTree.nil : PTree Nat).moveTo 1 = .nil) ∧
      (∀ b e l v r, (PTree.nil : PTree Nat) = .node b e l v r →
        (PTree.nil : PTree Nat).moveTo 1 = .node 1 e l v r) :=
  @C12_left_rotate_effect Nat
    [⟨5, Color.Black, none, none, some 1⟩, ⟨7, Color.Red, some 0, none, none⟩]
    none 0 1 Color.Black Color.Red .nil .nil .nil 5 7
    ⟨rfl, trivial, rfl, trivial, trivial⟩ (by decide)

section

variable [LinearOrder V]

/-- C13: in a tree with consistent links and no node used twice, a rotation at a node
that has the required child (`LeftRotate` with a right child, `RightRotate` with a left
child) ends without a fault and leaves a tree with the same root pointer and the same
in-order sequence of values; so `Size` gives the same number before and after, and on a
tree in search order `Contains v` gives the same answer before and after, for every
`v`. -/
theorem C13_rotation_keeps_inorder (t : Tree V) (T : PTree V) (a : Nat) (nd : Node V)
    (fuel : Nat) (hH : t.Holds T) (hnd : T.addrs.Nodup) (hra : Reach t.mem t.node a)
    (hn : t.mem[a]? = some nd) (hf : T.size < fuel) :
    (nd.right ≠ none → ∃ h' T', Node.LeftRotate t.mem (some a) = .ok h' ∧
      Tree.Holds ⟨h', t.node⟩ T' ∧ T'.toList = T.toList ∧
      Tree.Size fuel t = .ok T.size ∧ Tree.Size fuel ⟨h', t.node⟩ = .ok T.size ∧
      (T.Ordered → ∀ v, Tree.Contains fuel t v = .ok (decide (v ∈ T.toList)) ∧
        Tree.Contains fuel ⟨h', t.node⟩ v = .ok (decide (v ∈ T.toList)))) ∧
    (nd.left ≠ none → ∃ h' T', Node.RightRotate t.mem (some a) = .ok h' ∧
      Tree.Holds ⟨h', t.node⟩ T' ∧ T'.toList = T.toList ∧
      Tree.Size fuel t = .ok T.size ∧ Tree.Size fuel ⟨h', t.node⟩ = .ok T.size ∧
      (T.Ordered → ∀ v, Tree.Contains fuel t v = .ok (decide (v ∈ T.toList)) ∧
        Tree.Contains fuel ⟨h', t.node⟩ v = .ok (decide (v ∈ T.toList)))) := by
  obtain ⟨hptr, hrep⟩ := hH
  rw [← hptr] at hra
  obtain ⟨ctx, s, rfl, hs⟩ := reach_plug hrep hra
  have hrs := ((Rep_plug ctx s).1 hrep).2
  cases s with
  | nil => simp at hs
  | node n c l x r =>
    simp only [PTree.ptr_node, Option.some.injEq] at hs
    subst hs
    rw [hrs.1] at hn
    simp only [Option.some.injEq] at hn
    subst hn
    simp only
    constructor
    · intro hr
      cases r with
      | nil => simp at hr
      | node ra d B y C =>
        obtain ⟨h', e, hr'⟩ := LeftRotate_plug hrep hnd
        exact ⟨h', _, e, rotation_keeps hptr hrep hf hr' rfl
          (by simp [PTree.toList])⟩
    · intro hl
      cases l with
      | nil => simp at hl
      | node la d C y B =>
        obtain ⟨h', e, hr'⟩ := RightRotate_plug hrep hnd
        exact ⟨h', _, e, rotation_keeps hptr hrep hf hr' rfl
          (by simp [PTree.toList])⟩

theorem C13_rotation_keeps_inorder_witness :
    ∃ h' T', Node.LeftRotate ([⟨5, Color.Black, none, none, some 1⟩,
        ⟨7, Color.Red, some 0, none, none⟩] : Heap Nat) (some 0) = .ok h' ∧
      Tree.Holds ⟨h', some 0⟩ T' ∧
      T'.toList = (PTree.node 0 Color.Black .nil 5 (.node 1 Color.Red .nil 7 .nil)).toList ∧
      Tree.Size 3 ⟨[⟨5, Color.Black, none, none, some 1⟩,
        ⟨7, Color.Red, some 0, none, none⟩], some 0⟩ =
        .ok (PTree.node 0 Color.Black .nil 5 (.node 1 Color.Red .nil 7 .nil)).size ∧
      Tree.Size 3 ⟨h', some 0⟩ =
        .ok (PTree.node 0 Color.Black .nil 5 (.node 1 Color.Red .nil 7 .nil)).size ∧
      ((PTree.node 0 Color.Black .nil 5 (.node 1 Color.Red .nil 7 .nil)).Ordered → ∀ v,
        Tree.Contains 3 ⟨[⟨5, Color.Black, none, none, some 1⟩,
          ⟨7, Color.Red, some 0, none, none⟩], some 0⟩ v = .ok (decide (v ∈
            (PTree.node 0 Color.Black .nil 5 (.node 1 Color.Red .nil 7 .nil)).toList)) ∧
        Tree.Contains 3 ⟨h', some 0⟩ v = .ok (decide (v ∈
            (PTree.node 0 Color.Black .nil 5 (.node 1 Color.Red .nil 7 .nil)).toList))) :=
  (C13_rotation_keeps_inorder
    ⟨[⟨5, Color.Black, none, none, some 1⟩, ⟨7, Color.Red, some 0, none, none⟩], some 0⟩
    (.node 0 Color.Black .nil 5 (.node 1 Color.Red .nil 7 .nil)) 0
    ⟨5, Color.Black, none, none, some 1⟩ 3
    ⟨rfl, rfl, trivial, rfl, trivial, trivial⟩ (by decide) (Reach.root rfl) rfl
    (by decide)).1 (by decide)

end

/-- C14: for a node `a` of a tree with consistent links and no node used twice:
without a parent, or with a parent that has no parent, `Uncle` returns no uncle, the
zero shape and `false`; with a parent `p` below a grandparent `g`, `Uncle` returns the
child of `g` other than `p`, `true` exactly when that child is present, and the shape
`Line` exactly when `a` and `p` are on the same side (both left children or both right
children), `Triangle` exactly when they are on opposite sides. -/
theorem C14_uncle (t : Tree V) (T : PTree V) (a : Nat) (nd : Node V) (hH : t.Holds T)
    (hnd : T.addrs.Nodup) (hra : Reach t.mem t.node a) (hn : t.mem[a]? = some nd) :
    (nd.p = none →
      Node.Uncle t.mem (some a) = .ok (none, Relationship.Triangle, false)) ∧
    (∀ p pd, nd.p = some p → t.mem[p]? = some pd → pd.p = none →
      Node.Uncle t.mem (some a) = .ok (none, Relationship.Triangle, false)) ∧
    (∀ p pd g gd, nd.p = some p → t.mem[p]? = some pd → pd.p = some g →
      t.mem[g]? = some gd →
      ∃ u rel, Node.Uncle t.mem (some a) = .ok (u, rel, decide (u ≠ none)) ∧
        ((gd.left = some p ∧ u = gd.right) ∨ (gd.right = some p ∧ u = gd.left)) ∧
        u ≠ some p ∧
        (rel = Relationship.Line ↔
          (pd.left = some a ∧ gd.left = some p) ∨ (pd.right = some a ∧ gd.right = some p)) ∧
        (rel = Relationship.Triangle ↔
          (pd.left = some a ∧ gd.right = some p) ∨ (pd.right = some a ∧ gd.left = some p))) := by
  refine ⟨fun hp => ?_, fun p pd hp hpd hpp => ?_, fun p pd g gd hp hpd hpp hgd => ?_⟩
  · unfold Node.Uncle
    simp [load_some hn, hp]
  · unfold Node.Uncle
    simp [load_some hn, hp, load_some hpd, hpp]
  · obtain ⟨hptr, hrep⟩ := hH
    rw [← hptr] at hra
    obtain ⟨ctx, s, rfl, hs⟩ := reach_plug hrep hra
    have hrp := (Rep_plug ctx s).1 hrep
    have hnp : nd.p = ctxPtr ctx := by
      cases s with
      | nil => simp at hs
      | node n c l x r =>
        simp only [PTree.ptr_node, Option.some.injEq] at hs
        subst hs
        have := hrp.2.1
        rw [this] at hn
        simp only [Option.some.injEq] at hn
        subst hn
        rfl
    cases ctx with
    | nil => rw [hnp] at hp; simp [ctxPtr] at hp
    | cons f1 ctx1 =>
      rw [hnp, ctxPtr_cons, Option.some.injEq] at hp
      subst hp
      obtain ⟨hf1, _, hctx1⟩ := hrp.1
      rw [hf1] at hpd
      simp only [Option.some.injEq] at hpd
      subst hpd
      simp only at hpp
      cases ctx1 with
      | nil => simp [ctxPtr] at hpp
      | cons f2 rest =>
        rw [ctxPtr_cons, Option.some.injEq] at hpp
        subst hpp
        obtain ⟨hf2, _, _⟩ := hctx1
        rw [hf2] at hgd
        simp only [Option.some.injEq] at hgd
        subst hgd
        obtain ⟨_, ⟨hpg, hpt, hpS1, hpS2, _⟩, _, ⟨htS1, _, _⟩, _⟩ := nodup_config hnd
        have hat := mem_addrs_of_ptr hs
        have h1 : f1.sib.ptr ≠ some a := ptr_ne_of_not_mem (fun hm => htS1 hat hm)
        have h2 : f2.sib.ptr ≠ some f1.a := ptr_ne_of_not_mem hpS2
        have hU := Uncle_spec hn hf1 hf2 (by rw [hnp]; rfl) rfl
        refine ⟨_, _, hU, ?_⟩
        rw [hs]
        dsimp only
        cases hil1 : f1.isLeft <;> cases hil2 : f2.isLeft <;>
          simp [h1, h2, Ne.symm h1, Ne.symm h2]

theorem C14_uncle_witness :
    ∃ u rel, Node.Uncle mem2143 (some 3) = .ok (u, rel, decide (u ≠ none)) ∧
      (((some 1 : Ptr) = some 2 ∧ u = some 2) ∨ ((some 2 : Ptr) = some 2 ∧ u = some 1)) ∧
      u ≠ some 2 ∧
      (rel = Relationship.Line ↔
        ((some 3 : Ptr) = some 3 ∧ (some 1 : Ptr) = some 2) ∨
          ((none : Ptr) = some 3 ∧ (some 2 : Ptr) = some 2)) ∧
      (rel = Relationship.Triangle ↔
        ((some 3 : Ptr) = some 3 ∧ (some 2 : Ptr) = some 2) ∨
          ((none : Ptr) = some 3 ∧ (some 1 : Ptr) = some 2)) :=
  (C14_uncle ⟨mem2143, some 0⟩ tree2143 3 ⟨3, Color.Red, some 2, none, none⟩
    ⟨rfl, rfl, ⟨rfl, trivial, trivial⟩, rfl, ⟨rfl, trivial, trivial⟩, trivial⟩ (by decide)
    (Reach.left (Reach.right (Reach.root rfl) rfl rfl) rfl rfl) rfl).2.2
    2 ⟨4, Color.Black, some 0, some 3, none⟩ 0 ⟨2, Color.Black, none, some 1, some 2⟩
    rfl rfl rfl rfl

/-- C15: on a tree in memory `Height` returns a number `hgt` such that: `hgt = 0` for
the empty tree; for a root node `hgt` is one more than the larger of the `Height`s of
the trees at its left and at its right child, so `1` for a single node; and for a
non-empty tree `hgt` is the number of nodes on a path from the root down to a leaf, and
no such path has more nodes. -/
theorem C15_height (t : Tree V) (T : PTree V) (fuel : Nat) (hH : t.Holds T)
    (hf : T.height < fuel) :
    ∃ hgt, Tree.Height fuel t = .ok hgt ∧
      (t.node = none → hgt = 0) ∧
      (∀ a nd, t.node = some a → t.mem[a]? = some nd →
        ∃ hl hr, Tree.Height fuel ⟨t.mem, nd.left⟩ = .ok hl ∧
          Tree.Height fuel ⟨t.mem, nd.right⟩ = .ok hr ∧ hgt = 1 + max hl hr) ∧
      (∀ a nd, t.node = some a → t.mem[a]? = some nd → nd.left = none →
        nd.right = none → hgt = 1) ∧
      (t.node ≠ none → LeafPath t.mem t.node hgt) ∧
      (∀ k, LeafPath t.mem t.node k → k ≤ hgt) := by
  obtain ⟨hptr, hrep⟩ := hH
  have hT : Tree.Height fuel t = .ok T.height := by
    unfold Tree.Height
    rw [← hptr, Height_spec T none fuel 0 hrep hf, Nat.zero_add]
  refine ⟨T.height, hT, ?_, ?_, ?_, ?_, ?_⟩
  · intro hn
    cases T with
    | nil => rfl
    | node a c l v r => rw [← hptr] at hn; simp at hn
  · intro a nd ha hnd
    cases T with
    | nil => rw [← hptr] at ha; simp at ha
    | node b c l v r =>
      rw [← hptr] at ha
      simp only [PTree.ptr_node, Option.some.injEq] at ha
      subst ha
      obtain ⟨hb, hl, hr⟩ := hrep
      rw [hb] at hnd
      simp only [Option.some.injEq] at hnd
      subst hnd
      simp only [PTree.height] at hf ⊢
      refine ⟨l.height, r.height, ?_, ?_, by omega⟩
      · unfold Tree.Height
        simp only
        rw [Height_spec l (some b) fuel 0 hl (by omega), Nat.zero_add]
      · unfold Tree.Height
        simp only
        rw [Height_spec r (some b) fuel 0 hr (by omega), Nat.zero_add]
  · intro a nd ha hnd hl0 hr0
    cases T with
    | nil => rw [← hptr] at ha; simp at ha
    | node b c l v r =>
      rw [← hptr] at ha
      simp only [PTree.ptr_node, Option.some.injEq] at ha
      subst ha
      obtain ⟨hb, _, _⟩ := hrep
      rw [hb] at hnd
      simp only [Option.some.injEq] at hnd
      subst hnd
      simp only at hl0 hr0
      cases l with
      | node _ _ _ _ _ => simp at hl0
      | nil =>
        cases r with
        | node _ _ _ _ _ => simp at hr0
        | nil => simp [PTree.height]
  · intro hn
    rw [← hptr]
    refine leafPath_height T none hrep ?_
    rintro rfl
    exact hn (by rw [← hptr]; rfl)
  · intro k hk
    exact leafPath_le hk T none hrep hptr

theorem C15_height_witness :
    ∃ hgt, Tree.Height 4 ⟨mem2143, some 0⟩ = .ok hgt ∧
      ((some 0 : Ptr) = none → hgt = 0) ∧
      (∀ a nd, (some 0 : Ptr) = some a → mem2143[a]? = some nd →
        ∃ hl hr, Tree.Height 4 ⟨mem2143, nd.left⟩ = .ok hl ∧
          Tree.Height 4 ⟨mem2143, nd.right⟩ = .ok hr ∧ hgt = 1 + max hl hr) ∧
      (∀ a nd, (some 0 : Ptr) = some a → mem2143[a]? = some nd → nd.left = none →
        nd.right = none → hgt = 1) ∧
      ((some 0 : Ptr) ≠ none → LeafPath mem2143 (some 0) hgt) ∧
      (∀ k, LeafPath mem2143 (some 0) k → k ≤ hgt) :=
  C15_height ⟨mem2143, some 0⟩ tree2143 4
    ⟨rfl, rfl, ⟨rfl, trivial, trivial⟩, rfl, ⟨rfl, trivial, trivial⟩, trivial⟩ (by decide)

/-- C16: `String` returns `EmptyTree` for the empty tree and, for a tree in memory
that is not empty, the rendering `S` of its root, where `S` of an absent node is the
empty text and `S` of a node is `L = {S(left)} value R = {S(right)}`; `fmt` renders a
value.  Inserting 5, 1, 7 into the empty integer tree gives
`L = {L = {} 1 R = {}} 5 R = {L = {} 7 R = {}}`. -/
theorem C16_string (fmt : V → Text) (t : Tree V) (T : PTree V) (fuel : Nat)
    (hH : t.Holds T) (hf : T.height < fuel) :
    (t.node = none → Tree.String fmt fuel t = .ok "EmptyTree") ∧
    (t.node ≠ none → Tree.String fmt fuel t = .ok (T.S fmt)) ∧
    (PTree.nil : PTree V).S fmt = "" ∧
    (∀ a c l v r, (PTree.node a c l v r).S fmt =
      "L = \x7b" ++ l.S fmt ++ "\x7d " ++ fmt v ++ " R = \x7b" ++ r.S fmt ++ "\x7d") ∧
    (Tree.InsertAll 6 MakeTree ([5, 1, 7] : List Int) >>= fun t5 =>
        Tree.String toString 6 t5) =
      .ok "L = \x7bL = \x7b\x7d 1 R = \x7b\x7d\x7d 5 R = \x7bL = \x7b\x7d 7 R = \x7b\x7d\x7d" := by
  obtain ⟨hptr, hrep⟩ := hH
  refine ⟨fun hn => ?_, fun hn => ?_, rfl, fun _ _ _ _ _ => rfl, rfl⟩
  · unfold Tree.String
    rw [if_pos hn]
    rfl
  · unfold Tree.String
    rw [if_neg hn, ← hptr, String_spec fmt T none fuel hrep hf]

theorem C16_string_witness :
    Tree.String toString 4 ⟨mem2143, some 0⟩ = .ok (tree2143.S toString) :=
  (C16_string toString ⟨mem2143, some 0⟩ tree2143 4
    ⟨rfl, rfl, ⟨rfl, trivial, trivial⟩, rfl, ⟨rfl, trivial, trivial⟩, trivial⟩
    (by decide)).2.1 (fun e => nomatch e)

/-- C17: `Json` returns `{}` for the empty tree and, for a tree in memory, the rendering
`J` of its root, where `J` of an absent node is `{}` and `J` of a node is the object
with the keys `value`, `color`, `parent`, `left`, `right` in this order: the rendered
value, `red` or `black`, the rendered value of the parent or `"nil"` at the root, and
the renderings of the two children.  Inserting 5, 1, 7 into the empty integer tree
gives the text of `TestJsonSmallTree`. -/
theorem C17_json (fmt : V → Text) (t : Tree V) (T : PTree V) (fuel : Nat)
    (hH : t.Holds T) (hf : T.height < fuel) :
    (t.node = none → Tree.Json fmt fuel t = .ok "\x7b\x7d") ∧
    Tree.Json fmt fuel t = .ok (T.J fmt none) ∧
    (∀ pv, (PTree.nil : PTree V).J fmt pv = "\x7b\x7d") ∧
    (∀ pv a c l v r, (PTree.node a c l v r).J fmt pv =
      "\x7b" ++ ("\"value\": " ++ fmt v ++ ",") ++
        ("\"color\": \"" ++ (if c = Color.Black then "black" else "red") ++ "\",") ++
        ("\"parent\": " ++ (match pv with
          | none => "\"nil\""
          | some x => fmt x) ++ ",") ++
        ("\"left\": " ++ l.J fmt (some v) ++ ",") ++
        ("\"right\": " ++ r.J fmt (some v)) ++ "\x7d") ∧
    (Tree.InsertAll 6 MakeTree ([5, 1, 7] : List Int) >>= fun t5 =>
        Tree.Json toString 6 t5) =
      .ok ("\x7b\"value\": 5,\"color\": \"black\",\"parent\": \"nil\"," ++
        "\"left\": \x7b\"value\": 1,\"color\": \"red\",\"parent\": 5," ++
        "\"left\": \x7b\x7d,\"right\": \x7b\x7d\x7d," ++
        "\"right\": \x7b\"value\": 7,\"color\": \"red\",\"parent\": 5," ++
        "\"left\": \x7b\x7d,\"right\": \x7b\x7d\x7d\x7d") := by
  obtain ⟨hptr, hrep⟩ := hH
  have hJ : Tree.Json fmt fuel t = .ok (T.J fmt none) := by
    unfold Tree.Json
    split
    · next hn =>
      cases T with
      | nil => rfl
      | node a c l v r => rw [← hptr] at hn; simp at hn
    · rw [← hptr, Json_spec fmt T none none fuel hrep (Or.inl ⟨rfl, rfl⟩) hf]
  refine ⟨fun hn => ?_, hJ, fun _ => rfl, fun _ _ _ _ _ _ => rfl, rfl⟩
  unfold Tree.Json
  rw [if_pos hn]
  rfl

theorem C17_json_witness :
    Tree.Json toString 4 ⟨mem2143, some 0⟩ = .ok (tree2143.J toString none) :=
  (C17_json toString ⟨mem2143, some 0⟩ tree2143 4
    ⟨rfl, rfl, ⟨rfl, trivial, trivial⟩, rfl, ⟨rfl, trivial, trivial⟩, trivial⟩
    (by decide)).2.1

/-- C18: inserting 10, 3, 15, 1, 2, 100, 4, 17, 16, 9, 75, 8, 11, 12, 33, 20, 5, 6, 7,
22, 13, 14, 88, 18, 19 in this order into the empty integer tree gives a tree on which
`Height` returns 6, `Size` returns 25 and `Contains` returns `true` for each of the 25
values. -/
theorem C18_scenario_25 :
    ∃ t, Tree.InsertAll 28 MakeTree ([10, 3, 15, 1, 2, 100, 4, 17, 16, 9, 75, 8, 11, 12,
        33, 20, 5, 6, 7, 22, 13, 14, 88, 18, 19] : List Int) = .ok t ∧
      Tree.Height 28 t = .ok 6 ∧ Tree.Size 28 t = .ok 25 ∧
      ∀ v ∈ ([10, 3, 15, 1, 2, 100, 4, 17, 16, 9, 75, 8, 11, 12, 33, 20, 5, 6, 7, 22, 13,
        14, 88, 18, 19] : List Int), Tree.Contains 28 t v = .ok true := by
  have hH : (Tree.InsertAll 28 MakeTree ([10, 3, 15, 1, 2, 100, 4, 17, 16, 9, 75, 8, 11, 12,
      33, 20, 5, 6, 7, 22, 13, 14, 88, 18, 19] : List Int) >>= fun t => Tree.Height 28 t)
      = .ok 6 := rfl
  have hS : (Tree.InsertAll 28 MakeTree ([10, 3, 15, 1, 2, 100, 4, 17, 16, 9, 75, 8, 11, 12,
      33, 20, 5, 6, 7, 22, 13, 14, 88, 18, 19] : List Int) >>= fun t => Tree.Size 28 t)
      = .ok 25 := rfl
  obtain ⟨t, T, e, ⟨hptr, hrep⟩, hg, hm, hsz⟩ := build_spec ([10, 3, 15, 1, 2, 100, 4, 17,
    16, 9, 75, 8, 11, 12, 33, 20, 5, 6, 7, 22, 13, 14, 88, 18, 19] : List Int) 28 (by decide)
  rw [e] at hH hS
  refine ⟨t, e, hH, hS, fun v hv => ?_⟩
  have hh := PTree.height_le_size T
  simp only [List.length_cons, List.length_nil] at hsz
  unfold Tree.Contains
  rw [← hptr, Contains_spec v T none 28 hrep hg.2.2.2.2 (by omega)]
  simp only [(hm v).2 hv, decide_True]

/-- C19: memory holds a tree in which the node `na` (the root of `t`) has the parent `f1`
and the grandparent `f2`, the parent is Red and the uncle `f2.sib` is present and Red,
and the path above the node obeys the red-black colour rule (no Red node on it has a
Red parent or a Red other child), as it does whenever `Insert` runs the fixup
(`ins_fix_state`).  Then the grandparent is Black, and one step of the fixup leaves a
memory `h'` of the same size that holds the same tree, with the same addresses, values
and links, in which the parent is Black, the grandparent is Red and the uncle is Black;
the fixup goes on in `h'` at the grandparent, above which the path obeys the colour rule
again.  After inserting 3, 1, 4 and then 2 the root and both its children are Black. -/
theorem C19_uncle_red_step {h : Heap V} {f1 f2 : Frame V} {rest : List (Frame V)}
    {t : PTree V} {na : Nat}
    (hr : Rep h none (plug (f1 :: f2 :: rest) t)) (hna : t.ptr = some na)
    (hnd : (plug (f1 :: f2 :: rest) t).addrs.Nodup)
    (hc : f1.c = Color.Red) (hu : f2.sib.rootColor = Color.Red)
    (hinv : ctxNoRedRed (f1 :: f2 :: rest)) (fuel : Nat) :
    (∃ h', Node.FixViolations (fuel + 1) h (some na) = Node.FixViolations fuel h' (some f2.a) ∧
      Rep h' none (plug rest
        (Frame.fill ⟨f2.a, Color.Red, f2.v, f2.isLeft, f2.sib.blacken⟩
          (Frame.fill ⟨f1.a, Color.Black, f1.v, f1.isLeft, f1.sib⟩ t))) ∧
      h'.length = h.length) ∧
    f2.c = Color.Black ∧ f2.sib.ptr ≠ none ∧ f2.sib.blacken.rootColor = Color.Black ∧
    ctxNoRedRed rest ∧
    Tree.InsertAll 7 MakeTree ([3, 1, 4, 2] : List Int) =
      .ok ⟨[⟨3, Color.Black, none, some 1, some 2⟩, ⟨1, Color.Black, some 0, none, some 3⟩,
        ⟨4, Color.Black, some 0, none, none⟩, ⟨2, Color.Red, some 1, none, none⟩], some 0⟩ := by
  have hg : f2.c = Color.Black := (hinv.2.1 hc).2
  have hp : f2.sib.ptr ≠ none := by
    intro e
    cases hs : f2.sib with
    | nil => rw [hs] at hu; exact absurd hu (by simp [PTree.rootColor])
    | node a c l v r => rw [hs] at e; exact absurd e (by simp)
  refine ⟨?_, hg, hp, PTree.blacken_rootColor _, hinv.2.2.2.2, rfl⟩
  obtain ⟨h', e, hr', hl⟩ := fix_red_step hr hna hnd hc hu fuel
  refine ⟨h', e, ?_, hl⟩
  rw [hc, hg] at hr'
  exact hr'

theorem C19_uncle_red_step_witness :
    ctxNoRedRed ([⟨1, Color.Red, 1, false, .nil⟩,
        ⟨0, Color.Black, 3, true, .node 2 Color.Red .nil 4 .nil⟩] : List (Frame Nat)) ∧
    ∃ h', Node.FixViolations 2 ([⟨3, Color.Black, none, some 1, some 2⟩,
          ⟨1, Color.Red, some 0, none, some 3⟩, ⟨4, Color.Red, some 0, none, none⟩,
          ⟨2, Color.Red, some 1, none, none⟩] : Heap Nat) (some 3) =
        Node.FixViolations 1 h' (some 0) ∧
      Rep h' none (.node 0 Color.Red (.node 1 Color.Black .nil 1 (.node 3 Color.Red .nil 2 .nil))
        3 (.node 2 Color.Black .nil 4 .nil)) ∧
      h'.length = 4 :=
  ⟨(by simp [ctxNoRedRed, PTree.NoRedRed, PTree.rootColor, ctxColor]),
   (@C19_uncle_red_step Nat
    [⟨3, Color.Black, none, some 1, some 2⟩, ⟨1, Color.Red, some 0, none, some 3⟩,
      ⟨4, Color.Red, some 0, none, none⟩, ⟨2, Color.Red, some 1, none, none⟩]
    ⟨1, Color.Red, 1, false, .nil⟩ ⟨0, Color.Black, 3, true, .node 2 Color.Red .nil 4 .nil⟩ []
    (.node 3 Color.Red .nil 2 .nil) 3
    ⟨rfl, ⟨rfl, trivial, ⟨rfl, trivial, trivial⟩⟩, ⟨rfl, trivial, trivial⟩⟩ rfl (by decide)
    rfl rfl
    (by simp [ctxNoRedRed, PTree.NoRedRed, PTree.rootColor, ctxColor]) 1).1⟩

/-- C20: memory holds a tree in which the node `na` (the root of `t`) has the parent `f1`
and the grandparent `f2`, the parent is Red, the uncle `f2.sib` is absent or Black, the
node is on the same side of its parent as the parent is of the grandparent, and the
path above the node obeys the red-black colour rule (no Red node on it has a Red parent
or a Red other child), as it does whenever `Insert` runs the fixup (`ins_fix_state`).
Then the fixup returns, in a memory with one more record that holds the tree in which
the subtree at the grandparent is `R`: at the grandparent's address the former parent's
value in the former grandparent's colour, with the node as its child on the node's side
and, on the other side, a record with the former grandparent's value in the former
parent's colour, below which are the former parent's other subtree and the uncle.  The
two colours, Red for the parent and Black for the grandparent, have been exchanged;
nothing else has been recoloured or rotated. -/
theorem C20_line_step {h : Heap V} {f1 f2 : Frame V} {rest : List (Frame V)}
    {t : PTree V} {na : Nat}
    (hr : Rep h none (plug (f1 :: f2 :: rest) t)) (hna : t.ptr = some na)
    (hnd : (plug (f1 :: f2 :: rest) t).addrs.Nodup)
    (hc : f1.c = Color.Red) (hu : f2.sib.rootColor ≠ Color.Red)
    (hl : f1.isLeft = f2.isLeft) (hinv : ctxNoRedRed (f1 :: f2 :: rest)) (fuel : Nat) :
    ∃ h' R, Node.FixViolations (fuel + 2) h (some na) = .ok h' ∧
      Rep h' none (plug rest R) ∧ h'.length = h.length + 1 ∧
      (f1.isLeft = true → R = .node f2.a f2.c t f1.v
        (.node h.length f1.c (f1.sib.moveTo f1.a) f2.v f2.sib)) ∧
      (f1.isLeft = false → R = .node f2.a f2.c
        (.node h.length f1.c f2.sib f2.v (f1.sib.moveTo f1.a)) f1.v t) ∧
      f1.c = Color.Red ∧ f2.c = Color.Black := by
  have hg : f2.c = Color.Black := (hinv.2.1 hc).2
  obtain ⟨h', e, hr', hlen, _⟩ := fix_line hr hna hnd hc hu hl fuel
  refine ⟨h', _, e, hr', hlen, fun h1 => ?_, fun h1 => ?_, hc, hg⟩
  · have h2 : f2.isLeft = true := by rw [← hl, h1]
    simp [lineStep, Frame.fill, h1, h2, hc, hg, PTree.rotR, Color.recolor]
  · have h2 : f2.isLeft = false := by rw [← hl, h1]
    simp [lineStep, Frame.fill, h1, h2, hc, hg, PTree.rotL, Color.recolor]

theorem C20_line_step_witness :
    ctxNoRedRed ([⟨1, Color.Red, 2, true, .nil⟩,
        ⟨0, Color.Black, 4, true, .node 2 Color.Black .nil 5 .nil⟩] : List (Frame Nat)) ∧
    ∃ h' R, Node.FixViolations 2 ([⟨4, Color.Black, none, some 1, some 2⟩,
          ⟨2, Color.Red, some 0, some 3, none⟩, ⟨5, Color.Black, some 0, none, none⟩,
          ⟨1, Color.Red, some 1, none, none⟩] : Heap Nat) (some 3) = .ok h' ∧
      Rep h' none (plug [] R) ∧ h'.length = 4 + 1 ∧
      (true = true → R = .node 0 Color.Black (.node 3 Color.Red .nil 1 .nil) 2
        (.node 4 Color.Red (PTree.nil.moveTo 1) 4 (.node 2 Color.Black .nil 5 .nil))) ∧
      (true = false → R = .node 0 Color.Black
        (.node 4 Color.Red (.node 2 Color.Black .nil 5 .nil) 4 (PTree.nil.moveTo 1))
        2 (.node 3 Color.Red .nil 1 .nil)) ∧
      Color.Red = Color.Red ∧ Color.Black = Color.Black :=
  ⟨(by simp [ctxNoRedRed, PTree.NoRedRed, PTree.rootColor, ctxColor]),
   @C20_line_step Nat
    [⟨4, Color.Black, none, some 1, some 2⟩, ⟨2, Color.Red, some 0, some 3, none⟩,
      ⟨5, Color.Black, some 0, none, none⟩, ⟨1, Color.Red, some 1, none, none⟩]
    ⟨1, Color.Red, 2, true, .nil⟩ ⟨0, Color.Black, 4, true, .node 2 Color.Black .nil 5 .nil⟩ []
    (.node 3 Color.Red .nil 1 .nil) 3
    ⟨rfl, ⟨rfl, ⟨rfl, trivial, trivial⟩, trivial⟩, ⟨rfl, trivial, trivial⟩⟩ rfl (by decide)
    rfl (by decide) rfl
    (by simp [ctxNoRedRed, PTree.NoRedRed, PTree.rootColor, ctxColor]) 0⟩

end RedBlack
namespace RedBlack

variable {V : Type}

/-- C21: memory holds a tree in which the Red node `na` has the Red parent `f1` and the
grandparent `f2`, the uncle `f2.sib` is absent or Black, and the node is not on the
side of its parent on which the parent is below the grandparent (Triangle).  Then the
fixup step is the rotation of the parent away from the node's side (`RightRotate` when
the node is a left child, `LeftRotate` when it is a right child) and nothing else; the
fixup then looks again from the fresh record, which holds the former parent's value,
is Red, and lies below the parent's address (now holding the node's value, Red) on
the side on which the parent is below the grandparent: `Uncle` reports the same uncle
and the shape `Line`, and that call does the Line step and returns. -/
theorem C21_triangle_step {h : Heap V} {f1 f2 : Frame V} {rest : List (Frame V)}
    {na : Nat} {nl : PTree V} {nv : V} {nr : PTree V}
    (hr : Rep h none (plug (f1 :: f2 :: rest) (.node na Color.Red nl nv nr)))
    (hnd : (plug (f1 :: f2 :: rest) (.node na Color.Red nl nv nr)).addrs.Nodup)
    (hc : f1.c = Color.Red) (hu : f2.sib.rootColor ≠ Color.Red)
    (hl : f1.isLeft ≠ f2.isLeft) (fuel : Nat) :
    ∃ h' h'' nd,
      (if f1.isLeft then Node.RightRotate h (some f1.a) else Node.LeftRotate h (some f1.a))
        = .ok h' ∧
      Node.FixViolations (fuel + 3) h (some na) =
        Node.FixViolations (fuel + 2) h' (some h.length) ∧
      Rep h' none (plug (⟨f1.a, Color.Red, nv, f2.isLeft, if f1.isLeft then nl else nr⟩ ::
        f2 :: rest) (f1.rotDown h.length (.node na Color.Red nl nv nr))) ∧
      h'[h.length]? = some nd ∧ nd.val = f1.v ∧ nd.color = Color.Red ∧ nd.p = some f1.a ∧
      Node.Uncle h' (some h.length) =
        .ok (f2.sib.ptr, Relationship.Line, decide (f2.sib.ptr ≠ none)) ∧
      Node.FixViolations (fuel + 2) h' (some h.length) = .ok h'' ∧
      Rep h'' none (plug rest (lineStep (h.length + 1)
        ⟨f1.a, Color.Red, nv, f2.isLeft, if f1.isLeft then nl else nr⟩ f2
        (f1.rotDown h.length (.node na Color.Red nl nv nr)))) := by
  have hlt : ∀ k ∈ (plug (f1 :: f2 :: rest) (.node na Color.Red nl nv nr)).addrs,
      k < h.length := hr.lt
  obtain ⟨h1, e1, hr1, l1, erot⟩ := fix_tri_rot hr hnd hc hu hl (fuel + 2)
  have hnd1 := nodup_plug_rot hnd hlt
  have hup : f1.rotUp (.node na Color.Red nl nv nr) =
      ⟨f1.a, Color.Red, nv, f2.isLeft, if f1.isLeft then nl else nr⟩ := by
    simp only [Frame.rotUp, Frame.mk.injEq, true_and]
    revert hl
    cases f1.isLeft <;> cases f2.isLeft <;> simp
  rw [hup] at hr1 hnd1
  have hptr : (f1.rotDown h.length (.node na Color.Red nl nv nr)).ptr = some h.length := by
    simp only [Frame.rotDown]; split <;> rfl
  obtain ⟨h2, e2, hr2, _, _⟩ := fix_line hr1 hptr hnd1 rfl hu rfl fuel
  rw [l1] at hr2
  -- the records of the fresh node, its parent and its grandparent
  have hrp := (Rep_plug _ _).1 hr1
  obtain ⟨⟨hp, _, hg, hS2, _⟩, ht⟩ := hrp
  simp only [ctxPtr_cons, hptr] at hp hg ht
  obtain ⟨nd, hn, hv, hcol, hpar⟩ : ∃ nd, h1[h.length]? = some nd ∧ nd.val = f1.v ∧
      nd.color = Color.Red ∧ nd.p = some f1.a := by
    revert ht
    simp only [Frame.rotDown]
    split <;> intro ht <;> exact ⟨_, ht.1, rfl, hc, rfl⟩
  obtain ⟨_, ⟨_, _, _, hpS2, _⟩, _, ⟨htS1, _, _⟩, _⟩ := nodup_config hnd1
  have hS2p : f2.sib.ptr ≠ some f1.a := ptr_ne_of_not_mem hpS2
  have hS1m : (if f1.isLeft = true then nl else nr).ptr ≠ some h.length :=
    ptr_ne_of_not_mem (fun hm => htS1 (mem_addrs_of_ptr hptr) hm)
  have hU := Uncle_spec hn hp hg hpar rfl
  dsimp only at hU
  rw [other_child hS2p] at hU
  refine ⟨h1, h2, nd, erot, e1, hr1, hn, hv, hcol, hpar, ?_, e2, hr2⟩
  rw [hU]
  cases f2.isLeft <;> simp [hS2p, hS1m]

end RedBlack

namespace RedBlack

theorem C21_triangle_step_witness :
    Rep mem513 none (plug [⟨1, Color.Red, 1, false, .nil⟩, ⟨0, Color.Black, 5, true, .nil⟩]
      (.node 2 Color.Red .nil 3 .nil)) ∧
    ∃ h' h'' nd,
      Node.LeftRotate mem513 (some 1) = .ok h' ∧
      Node.FixViolations 3 mem513 (some 2) = Node.FixViolations 2 h' (some 3) ∧
      Rep h' none (plug [⟨1, Color.Red, 3, true, .nil⟩, ⟨0, Color.Black, 5, true, .nil⟩]
        (.node 3 Color.Red .nil 1 .nil)) ∧
      h'[3]? = some nd ∧ nd.val = 1 ∧ nd.color = Color.Red ∧ nd.p = some 1 ∧
      Node.Uncle h' (some 3) = .ok (none, Relationship.Line, false) ∧
      Node.FixViolations 2 h' (some 3) = .ok h'' ∧
      Rep h'' none (.node 0 Color.Black (.node 3 Color.Red .nil 1 .nil) 3
        (.node 4 Color.Red .nil 5 .nil)) :=
  ⟨⟨rfl, ⟨rfl, trivial, ⟨rfl, trivial, trivial⟩⟩, trivial⟩,
    @C21_triangle_step Nat mem513 ⟨1, Color.Red, 1, false, .nil⟩ ⟨0, Color.Black, 5, true, .nil⟩
      [] 2 .nil 3 .nil ⟨rfl, ⟨rfl, trivial, ⟨rfl, trivial, trivial⟩⟩, trivial⟩ (by decide) rfl
      (by decide) (by decide) 0⟩

end RedBlack

namespace RedBlack

variable {V : Type} [LinearOrder V]

/-- C22: with enough fuel (three more than the number of nodes) the fixup started at
any node of any tree held in memory with consistent links and no node used twice
returns, whatever the colours, and memory then holds a tree again; and `Insert` of any
value returns on every tree built from the empty tree by insertions.  The steps that
make up a run of the fixup are those of C19, C20 and C21: the Uncle-Red step goes on
two levels higher, the Triangle step is followed by one more call, and the Line step
returns. -/
theorem C22_fixup_terminates (fuel : Nat) :
    (∀ (t : Tree V) (T : PTree V) (a : Nat), t.Holds T → T.addrs.Nodup →
      Reach t.mem t.node a → T.size + 3 ≤ fuel →
      ∃ h' T', Node.FixViolations fuel t.mem (some a) = .ok h' ∧ Rep h' none T') ∧
    (∀ (xs : List V) (v : V), xs.length + 3 ≤ fuel →
      ∃ t1 t2, Tree.InsertAll fuel MakeTree xs = .ok t1 ∧ Tree.Insert fuel t1 v = .ok t2) := by
  refine ⟨fun t T a hH hnd hra hf => fix_terminates hH hnd hra hf, fun xs v hf => ?_⟩
  obtain ⟨t1, T, e, hH, hg, _, hs⟩ := build_spec xs fuel hf
  have hh := PTree.height_le_size T
  obtain ⟨t2, e2, _, _⟩ := Insert_refines t1 T v fuel hH hg.1 (by omega)
  exact ⟨t1, t2, e, e2⟩

theorem C22_fixup_terminates_witness :
    (∃ h' T', Node.FixViolations 7 mem2143 (some 3) = .ok h' ∧ Rep h' none T') ∧
    (∃ t1 t2, Tree.InsertAll 7 MakeTree ([2, 1, 4, 3] : List Nat) = .ok t1 ∧
      Tree.Insert 7 t1 5 = .ok t2) :=
  ⟨(C22_fixup_terminates 7).1 ⟨mem2143, some 0⟩ tree2143 3
      ⟨rfl, rfl, ⟨rfl, trivial, trivial⟩, rfl, ⟨rfl, trivial, trivial⟩, trivial⟩ (by decide)
      (Reach.left (Reach.right (Reach.root rfl) rfl rfl) rfl rfl) (by decide),
    (C22_fixup_terminates 7).2 [2, 1, 4, 3] 5 (by decide)⟩

end RedBlack

namespace RedBlack

variable {V : Type}

/-- C23: `RightRotate` is the mirror image of `LeftRotate`: for every memory `h` and
every node `n`, `RightRotate(n)` on `h` gives what `LeftRotate(n)` gives on the mirror
image of `h`, mirrored back, be it a memory or a fault; and the other way round.  The
mirror image exchanges the left and the right child pointer of every node and keeps
values, colours and parent pointers. -/
theorem C23_right_rotate_mirror (h : Heap V) (n : Ptr) :
    Node.RightRotate h n = Except.map mirror (Node.LeftRotate (mirror h) n) ∧
    Node.LeftRotate h n = Except.map mirror (Node.RightRotate (mirror h) n) ∧
    (∀ k : Nat, (mirror h)[k]? =
      (h[k]?).map (fun nd : Node V => Node.mk nd.val nd.color nd.p nd.right nd.left)) ∧
    mirror (mirror h) = h := by
  refine ⟨?_, ?_, fun k => mirror_get h k, mirror_mirror h⟩
  · rw [LeftRotate_mirror]
    cases Node.RightRotate h n with
    | error e => rfl
    | ok h1 => simp [Except.map]
  · have := LeftRotate_mirror (mirror h) n
    rw [mirror_mirror] at this
    rw [this]
    cases Node.RightRotate (mirror h) n with
    | error e => rfl
    | ok h1 => simp [Except.map]

end RedBlack

namespace RedBlack

variable {V : Type} [LinearOrder V]

/-- C24: for three values `a < b < c` inserted into the empty tree in any of the six
orders, the tree is the same: the root holds `b` and is Black and has no parent, its
left child holds `a` and its right child holds `c`, both are Red, have no children and
have the root as their parent, and `Height` returns 2. -/
theorem C24_three_values (a b c : V) (fuel : Nat) (hab : a < b) (hbc : b < c)
    (hf : 6 ≤ fuel) :
    ∀ xs ∈ [[a, b, c], [a, c, b], [b, a, c], [b, c, a], [c, a, b], [c, b, a]],
      ∃ t r l g, Tree.InsertAll fuel MakeTree xs = .ok t ∧ t.node = some r ∧
        t.mem[r]? = some ⟨b, Color.Black, none, some l, some g⟩ ∧
        t.mem[l]? = some ⟨a, Color.Red, some r, none, none⟩ ∧
        t.mem[g]? = some ⟨c, Color.Red, some r, none, none⟩ ∧
        Tree.Height fuel t = .ok 2 := by
  intro xs hxs
  simp only [List.mem_cons, List.mem_singleton, List.not_mem_nil, or_false] at hxs
  rcases hxs with rfl | rfl | rfl | rfl | rfl | rfl
  · obtain ⟨t, m2, m3, e, hH⟩ := three_inserts a b c fuel hf
    rw [insertF_abc hab hbc] at hH
    obtain ⟨r, l, g, h⟩ := holds_three fuel hH (by omega)
    exact ⟨t, r, l, g, e, h⟩
  · obtain ⟨t, m2, m3, e, hH⟩ := three_inserts a c b fuel hf
    rw [insertF_acb hab hbc] at hH
    obtain ⟨r, l, g, h⟩ := holds_three fuel hH (by omega)
    exact ⟨t, r, l, g, e, h⟩
  · obtain ⟨t, m2, m3, e, hH⟩ := three_inserts b a c fuel hf
    rw [insertF_bac hab hbc] at hH
    obtain ⟨r, l, g, h⟩ := holds_three fuel hH (by omega)
    exact ⟨t, r, l, g, e, h⟩
  · obtain ⟨t, m2, m3, e, hH⟩ := three_inserts b c a fuel hf
    rw [insertF_bca hab hbc] at hH
    obtain ⟨r, l, g, h⟩ := holds_three fuel hH (by omega)
    exact ⟨t, r, l, g, e, h⟩
  · obtain ⟨t, m2, m3, e, hH⟩ := three_inserts c a b fuel hf
    rw [insertF_cab hab hbc] at hH
    obtain ⟨r, l, g, h⟩ := holds_three fuel hH (by omega)
    exact ⟨t, r, l, g, e, h⟩
  · obtain ⟨t, m2, m3, e, hH⟩ := three_inserts c b a fuel hf
    rw [insertF_cba hab hbc] at hH
    obtain ⟨r, l, g, h⟩ := holds_three fuel hH (by omega)
    exact ⟨t, r, l, g, e, h⟩

theorem C24_three_values_witness :
    (1 : Nat) < 2 ∧ (2 : Nat) < 3 ∧ 6 ≤ 6 ∧
    ∀ xs ∈ ([[1, 2, 3], [1, 3, 2], [2, 1, 3], [2, 3, 1], [3, 1, 2], [3, 2, 1]] :
        List (List Nat)),
      ∃ t r l g, Tree.InsertAll 6 MakeTree xs = .ok t ∧ t.node = some r ∧
        t.mem[r]? = some ⟨2, Color.Black, none, some l, some g⟩ ∧
        t.mem[l]? = some ⟨1, Color.Red, some r, none, none⟩ ∧
        t.mem[g]? = some ⟨3, Color.Red, some r, none, none⟩ ∧
        Tree.Height 6 t = .ok 2 :=
  ⟨by decide, by decide, by decide,
    C24_three_values 1 2 3 6 (by decide) (by decide) (by decide)⟩

end RedBlack

namespace RedBlack

variable {V : Type} [LinearOrder V]

/-- C25: after inserting the values `xs` (duplicates allowed) into the empty tree, the
in-order traversal of the tree (left subtree, value, right subtree) is strictly
increasing, has exactly the values of `xs`, and is `xs` with duplicates removed and
sorted. -/
theorem C25_inorder_sorted_dedup (xs : List V) (fuel : Nat) (hf : xs.length + 3 ≤ fuel) :
    ∃ t l, Tree.InsertAll fuel MakeTree xs = .ok t ∧ inOrder fuel t.mem t.node = .ok l ∧
      l.Sorted (· < ·) ∧ (∀ v, v ∈ l ↔ v ∈ xs) ∧
      l = xs.dedup.insertionSort (· ≤ ·) := by
  obtain ⟨t, T, e, ⟨hptr, hrep⟩, hg, hm, hs⟩ := build_spec xs fuel hf
  have hh := PTree.height_le_size T
  have hso := (PTree.ordered_iff_sorted T).1 hg.2.2.2.2
  refine ⟨t, T.toList, e, ?_, hso, hm, sorted_eq_sort_dedup hso hm⟩
  rw [← hptr, inOrder_spec T none fuel hrep (by omega)]

theorem C25_inorder_sorted_dedup_witness :
    ([5, 2, 8, 2] : List Nat).length + 3 ≤ 7 ∧
      ∃ t l, Tree.InsertAll 7 MakeTree ([5, 2, 8, 2] : List Nat) = .ok t ∧
        inOrder 7 t.mem t.node = .ok l ∧ l.Sorted (· < ·) ∧
        (∀ v, v ∈ l ↔ v ∈ ([5, 2, 8, 2] : List Nat)) ∧
        l = ([5, 2, 8, 2] : List Nat).dedup.insertionSort (· ≤ ·) :=
  ⟨by decide, C25_inorder_sorted_dedup [5, 2, 8, 2] 7 (by decide)⟩

end RedBlack
